import Mathlib

/-!
# daemon.c : the configuration-file parser

A shallow embedding of `validate_boolean` and `parse_config_file` of
`src/daemon.c`, followed by the properties proved about them.

Conventions of the embedding.

* A byte (`char`) is a natural number; the `<ctype.h>` predicates are those of
  the "C" locale, so every byte above 127 is in no class.
* A `char *` is a list of bytes `data` read through `rd data i`; the bytes of
  the list are the memory starting at the pointer and every position at or
  after the end of the list reads as NUL.  The C string held by `data` is the
  part before the first NUL.
* The cursor `cur`, `id_start`, `val_start`, ... are indices into `data`.
  Token lengths are computed over the integers exactly as
  `end - start + 1`.
* `malloc` is taken to succeed.  A token length below one makes the
  terminator store `tmp[len - 1] = 0` fall outside the allocation; this is
  reported as `Outcome.fault`.
* Loops carry a fuel argument; `parse_config_file` supplies enough of it and
  reports exhaustion as `Outcome.timeout`.
* The functions named `_traced` are the same code paired with the list of the
  indices at which `*cur++` is evaluated; their first component is proved
  equal to the function without the trace.
* The functions named `_cont` do not stop at the store outside the
  allocation: they go on with a token buffer that holds bytes the parser never
  wrote, given by a parameter `mem`, and are traced as well.
-/

namespace Daemon

/-! ## `<ctype.h>` in the "C" locale -/

/-- The test `isupper(c)`. -/
def isupper (c : Nat) : Bool := decide (65 ≤ c) && decide (c ≤ 90)

/-- The test `islower(c)`. -/
def islower (c : Nat) : Bool := decide (97 ≤ c) && decide (c ≤ 122)

/-- The test `isalpha(c)`. -/
def isalpha (c : Nat) : Bool := isupper c || islower c

/-- The test `isdigit(c)`. -/
def isdigit (c : Nat) : Bool := decide (48 ≤ c) && decide (c ≤ 57)

/-- The test `isalnum(c)`. -/
def isalnum (c : Nat) : Bool := isalpha c || isdigit c

/-- The test `isspace(c)`: space, `\t`, `\n`, `\v`, `\f`, `\r`. -/
def isspace (c : Nat) : Bool := c == 32 || (decide (9 ≤ c) && decide (c ≤ 13))

/-- The function `tolower(c)`. -/
def tolower (c : Nat) : Nat := if isupper c then c + 32 else c

/-! ## Helper macros of `parse_config_file` (lines 86-88) -/

/-- The macro `isvalididentifier(c)`: `isalnum(c) || c == '_' || c == '-'`. -/
def isvalididentifier (c : Nat) : Bool := isalnum c || c == 95 || c == 45

/-- The macro `isvalididentifierstart(c)`: `isalpha(c) || c == '_'`. -/
def isvalididentifierstart (c : Nat) : Bool := isalpha c || c == 95

/-- The macro `iseol(c)`: `c == '\n'`. -/
def iseol (c : Nat) : Bool := c == 10

/-! ## Memory and `<string.h>` -/

/-- The bytes of a string literal, without terminator. -/
def bytes (s : String) : List Nat := s.toList.map Char.toNat

/-- The read `data[i]`; positions past the list hold NUL. -/
def rd (data : List Nat) (i : Nat) : Nat := data.getD i 0

/-- The function `strlen(s)`: the number of bytes before the first NUL. -/
def strlen : List Nat → Nat
  | [] => 0
  | c :: cs => if c = 0 then 0 else strlen cs + 1

/-- The `n` bytes that `strncpy(dest, src, n)` writes to `dest`: the bytes of
`src` up to its NUL, cut at `n`, then NUL padding up to `n`.  No terminator is
written when `src` has `n` or more bytes before its NUL. -/
def strncpy : List Nat → Nat → List Nat
  | _, 0 => []
  | [], n + 1 => List.replicate (n + 1) 0
  | c :: cs, n + 1 => if c = 0 then List.replicate (n + 1) 0 else c :: strncpy cs n

/-- The function `strncmp(s1, s2, n)`: the difference at the first position
where the strings differ, looking at `n` bytes at most and not beyond a NUL. -/
def strncmp : List Nat → List Nat → Nat → Int
  | _, _, 0 => 0
  | s1, s2, n + 1 =>
    if s1.headD 0 ≠ s2.headD 0 then (s1.headD 0 : Int) - (s2.headD 0 : Int)
    else if s1.headD 0 = 0 then 0
    else strncmp s1.tail s2.tail n

/-! ## `validate_boolean` (lines 269-304) -/

/-- The function `validate_boolean(str)`: `1` for true, `0` for false, `-1` for
invalid, by a `switch` on `strlen(str)`. -/
def validate_boolean (str : List Nat) : Int :=
  match strlen str with
  | 1 =>
    let c := rd str 0
    if c = 121 ∨ c = 89 ∨ c = 49 then 1            -- 'y' 'Y' '1'
    else if c = 110 ∨ c = 78 ∨ c = 48 then 0       -- 'n' 'N' '0'
    else -1
  | 2 =>
    if tolower (rd str 0) = 110 ∧ tolower (rd str 1) = 111 then 0 else -1
  | 3 =>
    if tolower (rd str 0) = 121 ∧ tolower (rd str 1) = 101
        ∧ tolower (rd str 2) = 115 then 0 else -1
  | 4 =>
    if tolower (rd str 0) = 116 ∧ tolower (rd str 1) = 114
        ∧ tolower (rd str 2) = 117 ∧ tolower (rd str 2) = 101 then 1 else -1
  | 5 =>
    if tolower (rd str 0) = 102 ∧ tolower (rd str 1) = 97
        ∧ tolower (rd str 2) = 108 ∧ tolower (rd str 2) = 115
        ∧ tolower (rd str 2) = 101 then 0 else -1
  | _ => -1

/-! ## `options_t` and the outcome of a parse -/

/-- The structure `options_t` (lines 122-131). -/
structure options_t where
  /-- The pointer `config_file`. -/
  config_file : Nat
  /-- The flag `background`, a `char`. -/
  background : Int
  /-- The flag `verbose`, a `char`. -/
  verbose : Int
  /-- The array `syslog_ident[256]`. -/
  syslog_ident : List Nat
  deriving DecidableEq, Repr

/-- The values `parse_config_file` assigns to `errno`. -/
inductive Errno where
  | EINVAL
  | ENODATA
  | ENOTSUP
  deriving DecidableEq, Repr

/-- What a call of `parse_config_file` ends with. -/
inductive Outcome where
  /-- The call returned `ret`; `errno` is the value it stored in `errno`, if
  any, `opts` the record it leaves, `cur` the final cursor. -/
  | ret (ret : Int) (errno : Option Errno) (opts : options_t) (cur : Nat)
  /-- A terminator store `tmp[len - 1] = 0` with `len < 1`, at cursor `cur`. -/
  | fault (opts : options_t) (cur : Nat)
  /-- The fuel of the model ran out. -/
  | timeout
  deriving DecidableEq, Repr

/-- What one pass through the body of the `for (;;)` loop ends with. -/
inductive Step where
  /-- The next pass starts at `cur` with record `opts`. -/
  | next (opts : options_t) (cur : Nat)
  /-- The pass left the loop with `goto end`. -/
  | stop (out : Outcome)
  deriving DecidableEq, Repr

/-! ## The scanning loops -/

/-- The loop `while (p(c)) { c = *cur++; }`; gives the final `(c, cur)`. -/
def scan_while (p : Nat → Bool) (data : List Nat) : Nat → Nat → Nat → Option (Nat × Nat)
  | 0, _, _ => none
  | fuel + 1, c, cur =>
    if p c then scan_while p data fuel (rd data cur) (cur + 1) else some (c, cur)

/-- The macro `skip_whitespace()`: `while (isspace(c)) { c = *cur++; }`. -/
def skip_whitespace (data : List Nat) (fuel c cur : Nat) : Option (Nat × Nat) :=
  scan_while isspace data fuel c cur

/-- The macro `skip_whitespace_not_eol()`. -/
def skip_whitespace_not_eol (data : List Nat) (fuel c cur : Nat) : Option (Nat × Nat) :=
  scan_while (fun c => isspace c && !iseol c) data fuel c cur

/-- The macro `skip_until_eol()`. -/
def skip_until_eol (data : List Nat) (fuel c cur : Nat) : Option (Nat × Nat) :=
  scan_while (fun c => c != 0 && !iseol c) data fuel c cur

/-- The macro `skip_until_eol_or_comment()`. -/
def skip_until_eol_or_comment (data : List Nat) (fuel c cur : Nat) : Option (Nat × Nat) :=
  scan_while (fun c => c != 0 && !iseol c && c != 35) data fuel c cur

/-- The loop `while (isvalididentifier(c)) { c = *cur++; }` (line 410). -/
def skip_identifier (data : List Nat) (fuel c cur : Nat) : Option (Nat × Nat) :=
  scan_while isvalididentifier data fuel c cur

/-- The loop of lines 462-478 over a `"`-enclosed value; gives the final
`(cur, val_end)`, where `val_end = none` is `NULL` (premature EOF). -/
def scan_quoted (data : List Nat) : Nat → Nat → Nat → Option (Nat × Option Nat)
  | 0, _, _ => none
  | fuel + 1, c, cur =>
    let c_prev := c
    let c := rd data cur
    let cur := cur + 1
    if c = 0 then some (cur, none)
    else if c = 34 ∧ c_prev ≠ 92 then some (cur, some (cur - 1))
    else scan_quoted data fuel c cur

/-! ## Tokens and dispatch -/

/-- The length `end - start + 1` of a token. -/
def token_len (tok_start tok_end : Nat) : Int := (tok_end : Int) - (tok_start : Int) + 1

/-- The buffer `tmp` after `strncpy(tmp, start, len); tmp[len - 1] = '\0';`
for `len ≥ 1`. -/
def token (data : List Nat) (tok_start : Nat) (len : Nat) : List Nat :=
  (strncpy (data.drop tok_start) len).set (len - 1) 0

/-- The literal `"daemonize"` with its terminator; `sizeof` is its length. -/
def lit_daemonize : List Nat := [100, 97, 101, 109, 111, 110, 105, 122, 101, 0]

/-- The literal `"verbose"` with its terminator. -/
def lit_verbose : List Nat := [118, 101, 114, 98, 111, 115, 101, 0]

/-- The literal `"syslog_ident"` with its terminator. -/
def lit_syslog_ident : List Nat :=
  [115, 121, 115, 108, 111, 103, 95, 105, 100, 101, 110, 116, 0]

/-- The macro `identifier_matched(value)`:
`!strncmp(value, id_tmp, sizeof(value) / sizeof(value[0]))`. -/
def identifier_matched (value id_tmp : List Nat) : Bool :=
  decide (strncmp value id_tmp value.length = 0)

/-- Lines 511-525: the pair `(id_tmp, val_tmp)` is applied to the record, with
`try_validate_boolean` expanded. -/
def dispatch (id_tmp val_tmp : List Nat) (opts : options_t) (cur : Nat) : Step :=
  if identifier_matched lit_daemonize id_tmp then
    let val := validate_boolean val_tmp
    if val = 1 then .next { opts with background := 1 } cur
    else if val = 0 then .next { opts with background := 0 } cur
    else .stop (.ret 1 (some .EINVAL) opts cur)
  else if identifier_matched lit_verbose id_tmp then
    let val := validate_boolean val_tmp
    if val = 1 then .next { opts with verbose := 1 } cur
    else if val = 0 then .next { opts with verbose := 0 } cur
    else .stop (.ret 1 (some .EINVAL) opts cur)
  else if identifier_matched lit_syslog_ident id_tmp then
    .next { opts with syslog_ident := strncpy val_tmp 256 } cur
  else
    .stop (.ret 1 (some .ENOTSUP) opts cur)

/-- Lines 499-525: the value token is materialised and the pair dispatched. -/
def materialise_value (data : List Nat) (id_tmp : List Nat) (val_start val_end : Nat)
    (opts : options_t) (cur : Nat) : Step :=
  let val_len := token_len val_start val_end
  if val_len < 1 then .stop (.fault opts cur)
  else dispatch id_tmp (token data val_start val_len.toNat) opts cur

/-- Lines 442-525: from just after the `=`; `cur` points to the character
after the `=`.  An identifier and the `=` precede, so `cur ≥ 2` and the
subtractions `cur - 1` below are exact. -/
def parse_value (data : List Nat) (id_tmp : List Nat) (opts : options_t) (cur : Nat) : Step :=
  let c := rd data cur
  let cur := cur + 1
  match (if isspace c then skip_whitespace_not_eol data (data.length + 1) c cur
         else some (c, cur)) with
  | none => .stop .timeout
  | some (c, cur) =>
    if c = 0 ∨ iseol c then .stop (.ret 1 (some .ENODATA) opts cur)
    else if c = 34 then
      let val_start := cur
      match scan_quoted data (data.length + 1) c cur with
      | none => .stop .timeout
      | some (cur, none) => .stop (.ret 1 (some .EINVAL) opts cur)
      | some (cur, some val_end) => materialise_value data id_tmp val_start val_end opts cur
    else
      let val_start := cur - 1
      match skip_until_eol_or_comment data (data.length + 1) c cur with
      | none => .stop .timeout
      | some (c, cur) =>
        if c = 0 ∨ c = 35 then
          let cur := cur - 1
          materialise_value data id_tmp val_start (cur - 1) opts cur
        else
          materialise_value data id_tmp val_start (cur - 1) opts cur

/-- One pass through the body of the `for (;;)` loop (lines 371-526), entered
with the cursor at `cur`.  The messages printed to `stderr` are left out. -/
def line (data : List Nat) (opts : options_t) (cur : Nat) : Step :=
  let c := rd data cur
  let cur := cur + 1
  if c = 0 then .stop (.ret 0 none opts cur)
  else
    match skip_whitespace data (data.length + 1) c cur with
    | none => .stop .timeout
    | some (c, cur) =>
      if c = 0 then .stop (.ret 0 none opts cur)
      else if c = 35 then
        let c := rd data cur
        let cur := cur + 1
        match skip_until_eol data (data.length + 1) c cur with
        | none => .stop .timeout
        | some (c, cur) =>
          if c = 0 then .stop (.ret 0 none opts cur) else .next opts cur
      else if !isvalididentifierstart c then .stop (.ret 1 (some .EINVAL) opts cur)
      else
        let id_start := cur - 1
        let c := rd data cur
        let cur := cur + 1
        match skip_identifier data (data.length + 1) c cur with
        | none => .stop .timeout
        | some (c, cur) =>
          if c = 0 ∨ (!isspace c ∧ c ≠ 61) then .stop (.ret 1 (some .EINVAL) opts cur)
          else
            let id_end := cur - 1
            let id_len := token_len id_start id_end
            if id_len < 1 then .stop (.fault opts cur)
            else
              let id_tmp := token data id_start id_len.toNat
              if c ≠ 61 then
                match skip_whitespace_not_eol data (data.length + 1) c cur with
                | none => .stop .timeout
                | some (c, cur) =>
                  if c ≠ 61 then .stop (.ret 1 (some .EINVAL) opts cur)
                  else parse_value data id_tmp opts cur
              else parse_value data id_tmp opts cur

/-- The `for (;;)` loop of `parse_config_file`. -/
def parse_loop (data : List Nat) : Nat → options_t → Nat → Outcome
  | 0, _, _ => .timeout
  | fuel + 1, opts, cur =>
    match line data opts cur with
    | .next opts cur => parse_loop data fuel opts cur
    | .stop out => out

/-- The function `parse_config_file(data, opts)` (lines 365-537). -/
def parse_config_file (data : List Nat) (opts : options_t) : Outcome :=
  parse_loop data (data.length + 1) opts 0

/-! ## Comparing runs on two buffers -/

/-- The same outcome with its cursor `n` bytes further: what a run gives when
`n` bytes are put in front of the text it reads. -/
def Outcome.shift (n : Nat) : Outcome → Outcome
  | .ret r e opts cur => .ret r e opts (cur + n)
  | .fault opts cur => .fault opts (cur + n)
  | .timeout => .timeout

/-- The same step with its cursor `n` bytes further. -/
def Step.shift (n : Nat) : Step → Step
  | .next opts cur => .next opts (cur + n)
  | .stop out => .stop (out.shift n)

/-! ## The reads `*cur++`

The parser once more, every function paired with the indices at which it
evaluates `*cur++`, in the order of the reads. -/

/-- The loop `while (p(c)) { c = *cur++; }` and the indices it reads. -/
def scan_while_traced (p : Nat → Bool) (data : List Nat) :
    Nat → Nat → Nat → Option (Nat × Nat) × List Nat
  | 0, _, _ => (none, [])
  | fuel + 1, c, cur =>
    if p c then
      let r := scan_while_traced p data fuel (rd data cur) (cur + 1)
      (r.1, cur :: r.2)
    else (some (c, cur), [])

/-- The macro `skip_whitespace()` and the indices it reads. -/
def skip_whitespace_traced (data : List Nat) (fuel c cur : Nat) :
    Option (Nat × Nat) × List Nat :=
  scan_while_traced isspace data fuel c cur

/-- The macro `skip_whitespace_not_eol()` and the indices it reads. -/
def skip_whitespace_not_eol_traced (data : List Nat) (fuel c cur : Nat) :
    Option (Nat × Nat) × List Nat :=
  scan_while_traced (fun c => isspace c && !iseol c) data fuel c cur

/-- The macro `skip_until_eol()` and the indices it reads. -/
def skip_until_eol_traced (data : List Nat) (fuel c cur : Nat) :
    Option (Nat × Nat) × List Nat :=
  scan_while_traced (fun c => c != 0 && !iseol c) data fuel c cur

/-- The macro `skip_until_eol_or_comment()` and the indices it reads. -/
def skip_until_eol_or_comment_traced (data : List Nat) (fuel c cur : Nat) :
    Option (Nat × Nat) × List Nat :=
  scan_while_traced (fun c => c != 0 && !iseol c && c != 35) data fuel c cur

/-- The loop `while (isvalididentifier(c)) { c = *cur++; }` and the indices it
reads. -/
def skip_identifier_traced (data : List Nat) (fuel c cur : Nat) :
    Option (Nat × Nat) × List Nat :=
  scan_while_traced isvalididentifier data fuel c cur

/-- The loop of lines 462-478 and the indices it reads. -/
def scan_quoted_traced (data : List Nat) :
    Nat → Nat → Nat → Option (Nat × Option Nat) × List Nat
  | 0, _, _ => (none, [])
  | fuel + 1, c, cur =>
    let c_prev := c
    let c := rd data cur
    let at_cur := cur
    let cur := cur + 1
    if c = 0 then (some (cur, none), [at_cur])
    else if c = 34 ∧ c_prev ≠ 92 then (some (cur, some (cur - 1)), [at_cur])
    else
      let r := scan_quoted_traced data fuel c cur
      (r.1, at_cur :: r.2)

/-- Lines 442-525 and the indices read; the copies into `val_tmp` are not
reads of the cursor. -/
def parse_value_traced (data : List Nat) (id_tmp : List Nat) (opts : options_t) (cur : Nat) :
    Step × List Nat :=
  let c := rd data cur
  let log := [cur]
  let cur := cur + 1
  let r := if isspace c then skip_whitespace_not_eol_traced data (data.length + 1) c cur
           else (some (c, cur), [])
  let log := log ++ r.2
  match r.1 with
  | none => (.stop .timeout, log)
  | some (c, cur) =>
    if c = 0 ∨ iseol c then (.stop (.ret 1 (some .ENODATA) opts cur), log)
    else if c = 34 then
      let val_start := cur
      let q := scan_quoted_traced data (data.length + 1) c cur
      let log := log ++ q.2
      match q.1 with
      | none => (.stop .timeout, log)
      | some (cur, none) => (.stop (.ret 1 (some .EINVAL) opts cur), log)
      | some (cur, some val_end) =>
        (materialise_value data id_tmp val_start val_end opts cur, log)
    else
      let val_start := cur - 1
      let u := skip_until_eol_or_comment_traced data (data.length + 1) c cur
      let log := log ++ u.2
      match u.1 with
      | none => (.stop .timeout, log)
      | some (c, cur) =>
        if c = 0 ∨ c = 35 then
          let cur := cur - 1
          (materialise_value data id_tmp val_start (cur - 1) opts cur, log)
        else
          (materialise_value data id_tmp val_start (cur - 1) opts cur, log)

/-- One pass through the body of the `for (;;)` loop and the indices read in
it. -/
def line_traced (data : List Nat) (opts : options_t) (cur : Nat) : Step × List Nat :=
  let c := rd data cur
  let log := [cur]
  let cur := cur + 1
  if c = 0 then (.stop (.ret 0 none opts cur), log)
  else
    let w := skip_whitespace_traced data (data.length + 1) c cur
    let log := log ++ w.2
    match w.1 with
    | none => (.stop .timeout, log)
    | some (c, cur) =>
      if c = 0 then (.stop (.ret 0 none opts cur), log)
      else if c = 35 then
        let c := rd data cur
        let log := log ++ [cur]
        let cur := cur + 1
        let e := skip_until_eol_traced data (data.length + 1) c cur
        let log := log ++ e.2
        match e.1 with
        | none => (.stop .timeout, log)
        | some (c, cur) =>
          if c = 0 then (.stop (.ret 0 none opts cur), log) else (.next opts cur, log)
      else if !isvalididentifierstart c then (.stop (.ret 1 (some .EINVAL) opts cur), log)
      else
        let id_start := cur - 1
        let c := rd data cur
        let log := log ++ [cur]
        let cur := cur + 1
        let i := skip_identifier_traced data (data.length + 1) c cur
        let log := log ++ i.2
        match i.1 with
        | none => (.stop .timeout, log)
        | some (c, cur) =>
          if c = 0 ∨ (!isspace c ∧ c ≠ 61) then (.stop (.ret 1 (some .EINVAL) opts cur), log)
          else
            let id_end := cur - 1
            let id_len := token_len id_start id_end
            if id_len < 1 then (.stop (.fault opts cur), log)
            else
              let id_tmp := token data id_start id_len.toNat
              if c ≠ 61 then
                let s := skip_whitespace_not_eol_traced data (data.length + 1) c cur
                let log := log ++ s.2
                match s.1 with
                | none => (.stop .timeout, log)
                | some (c, cur) =>
                  if c ≠ 61 then (.stop (.ret 1 (some .EINVAL) opts cur), log)
                  else
                    let v := parse_value_traced data id_tmp opts cur
                    (v.1, log ++ v.2)
              else
                let v := parse_value_traced data id_tmp opts cur
                (v.1, log ++ v.2)

/-- The `for (;;)` loop and the indices read in all its passes. -/
def parse_loop_traced (data : List Nat) : Nat → options_t → Nat → Outcome × List Nat
  | 0, _, _ => (.timeout, [])
  | fuel + 1, opts, cur =>
    let r := line_traced data opts cur
    match r.1 with
    | .next opts cur =>
      let rest := parse_loop_traced data fuel opts cur
      (rest.1, r.2 ++ rest.2)
    | .stop out => (out, r.2)

/-- The function `parse_config_file(data, opts)` and the indices at which it
reads `*cur++`, in order. -/
def parse_config_file_traced (data : List Nat) (opts : options_t) : Outcome × List Nat :=
  parse_loop_traced data (data.length + 1) opts 0

/-! ## Going on after the store of a token of length 0

With a token length below one, `malloc` hands out a buffer of no byte,
`strncpy` copies nothing and the store `tmp[len - 1] = 0` falls outside the
buffer.  The functions above stop there.  The functions below go on as a
program does in which that store changes no variable of the parser: the buffer
`tmp` then holds bytes the parser never wrote.  They are taken from `mem`,
which gives the bytes found in such a buffer as a function of the cursor at
the store, so that a statement for every `mem` covers every content.  The
indices read by `*cur++` are traced as before. -/

/-- The buffer `tmp` after `tmp = malloc(len); strncpy(tmp, start, len);
tmp[len - 1] = '\0';`: for `len < 1` the bytes `found`, which the parser did
not write. -/
def token_cont (found : List Nat) (data : List Nat) (tok_start : Nat) (len : Int) : List Nat :=
  if len < 1 then found else token data tok_start len.toNat

/-- Lines 499-525, going on after the store of line 506. -/
def materialise_value_cont (mem : Nat → List Nat) (data : List Nat) (id_tmp : List Nat)
    (val_start val_end : Nat) (opts : options_t) (cur : Nat) : Step :=
  let val_len := token_len val_start val_end
  dispatch id_tmp (token_cont (mem cur) data val_start val_len) opts cur

/-- Lines 442-525, going on after the store of line 506, and the indices
read. -/
def parse_value_cont (mem : Nat → List Nat) (data : List Nat) (id_tmp : List Nat)
    (opts : options_t) (cur : Nat) : Step × List Nat :=
  let c := rd data cur
  let log := [cur]
  let cur := cur + 1
  let r := if isspace c then skip_whitespace_not_eol_traced data (data.length + 1) c cur
           else (some (c, cur), [])
  let log := log ++ r.2
  match r.1 with
  | none => (.stop .timeout, log)
  | some (c, cur) =>
    if c = 0 ∨ iseol c then (.stop (.ret 1 (some .ENODATA) opts cur), log)
    else if c = 34 then
      let val_start := cur
      let q := scan_quoted_traced data (data.length + 1) c cur
      let log := log ++ q.2
      match q.1 with
      | none => (.stop .timeout, log)
      | some (cur, none) => (.stop (.ret 1 (some .EINVAL) opts cur), log)
      | some (cur, some val_end) =>
        (materialise_value_cont mem data id_tmp val_start val_end opts cur, log)
    else
      let val_start := cur - 1
      let u := skip_until_eol_or_comment_traced data (data.length + 1) c cur
      let log := log ++ u.2
      match u.1 with
      | none => (.stop .timeout, log)
      | some (c, cur) =>
        if c = 0 ∨ c = 35 then
          let cur := cur - 1
          (materialise_value_cont mem data id_tmp val_start (cur - 1) opts cur, log)
        else
          (materialise_value_cont mem data id_tmp val_start (cur - 1) opts cur, log)

/-- One pass through the body of the `for (;;)` loop, going on after the
stores of lines 426 and 506, and the indices read in it. -/
def line_cont (mem : Nat → List Nat) (data : List Nat) (opts : options_t) (cur : Nat) :
    Step × List Nat :=
  let c := rd data cur
  let log := [cur]
  let cur := cur + 1
  if c = 0 then (.stop (.ret 0 none opts cur), log)
  else
    let w := skip_whitespace_traced data (data.length + 1) c cur
    let log := log ++ w.2
    match w.1 with
    | none => (.stop .timeout, log)
    | some (c, cur) =>
      if c = 0 then (.stop (.ret 0 none opts cur), log)
      else if c = 35 then
        let c := rd data cur
        let log := log ++ [cur]
        let cur := cur + 1
        let e := skip_until_eol_traced data (data.length + 1) c cur
        let log := log ++ e.2
        match e.1 with
        | none => (.stop .timeout, log)
        | some (c, cur) =>
          if c = 0 then (.stop (.ret 0 none opts cur), log) else (.next opts cur, log)
      else if !isvalididentifierstart c then (.stop (.ret 1 (some .EINVAL) opts cur), log)
      else
        let id_start := cur - 1
        let c := rd data cur
        let log := log ++ [cur]
        let cur := cur + 1
        let i := skip_identifier_traced data (data.length + 1) c cur
        let log := log ++ i.2
        match i.1 with
        | none => (.stop .timeout, log)
        | some (c, cur) =>
          if c = 0 ∨ (!isspace c ∧ c ≠ 61) then (.stop (.ret 1 (some .EINVAL) opts cur), log)
          else
            let id_end := cur - 1
            let id_len := token_len id_start id_end
            let id_tmp := token_cont (mem cur) data id_start id_len
            if c ≠ 61 then
              let s := skip_whitespace_not_eol_traced data (data.length + 1) c cur
              let log := log ++ s.2
              match s.1 with
              | none => (.stop .timeout, log)
              | some (c, cur) =>
                if c ≠ 61 then (.stop (.ret 1 (some .EINVAL) opts cur), log)
                else
                  let v := parse_value_cont mem data id_tmp opts cur
                  (v.1, log ++ v.2)
            else
              let v := parse_value_cont mem data id_tmp opts cur
              (v.1, log ++ v.2)

/-- The `for (;;)` loop, going on after the stores, and the indices read in
all its passes. -/
def parse_loop_cont (mem : Nat → List Nat) (data : List Nat) :
    Nat → options_t → Nat → Outcome × List Nat
  | 0, _, _ => (.timeout, [])
  | fuel + 1, opts, cur =>
    let r := line_cont mem data opts cur
    match r.1 with
    | .next opts cur =>
      let rest := parse_loop_cont mem data fuel opts cur
      (rest.1, r.2 ++ rest.2)
    | .stop out => (out, r.2)

/-- The function `parse_config_file(data, opts)`, going on after the stores,
and the indices at which it reads `*cur++`, in order. -/
def parse_config_file_cont (mem : Nat → List Nat) (data : List Nat) (opts : options_t) :
    Outcome × List Nat :=
  parse_loop_cont mem data (data.length + 1) opts 0

end Daemon

namespace Daemon

/-! ## Reads, copies and comparisons -/

@[simp] theorem rd_nil (i : Nat) : rd [] i = 0 := by
  simp [rd]

@[simp] theorem rd_cons_zero (x : Nat) (xs : List Nat) : rd (x :: xs) 0 = x := rfl

@[simp] theorem rd_cons_succ (x : Nat) (xs : List Nat) (i : Nat) :
    rd (x :: xs) (i + 1) = rd xs i := rfl

theorem rd_drop (data : List Nat) (i j : Nat) : rd (data.drop i) j = rd data (i + j) := by
  induction data generalizing i with
  | nil => simp
  | cons x xs ih =>
    cases i with
    | zero => simp
    | succ i =>
      rw [List.drop_succ_cons, ih, Nat.add_right_comm, rd_cons_succ]

theorem rd_of_drop_nil {data : List Nat} {i : Nat} (h : data.drop i = []) : rd data i = 0 := by
  have := rd_drop data i 0
  rw [h] at this
  simpa using this.symm

theorem rd_of_drop_cons {data : List Nat} {i x : Nat} {xs : List Nat}
    (h : data.drop i = x :: xs) : rd data i = x := by
  have := rd_drop data i 0
  rw [h] at this
  simpa using this.symm

theorem drop_succ_of_drop_cons {data : List Nat} {i x : Nat} {xs : List Nat}
    (h : data.drop i = x :: xs) : data.drop (i + 1) = xs := by
  have : data.drop (i + 1) = (data.drop i).drop 1 := by
    rw [List.drop_drop]
  rw [this, h]
  rfl

theorem rd_of_length_le {data : List Nat} {i : Nat} (h : data.length ≤ i) : rd data i = 0 :=
  rd_of_drop_nil (List.drop_eq_nil_of_le h)

theorem lt_length_of_rd_ne_zero {data : List Nat} {i : Nat} (h : rd data i ≠ 0) :
    i < data.length := by
  by_contra hn
  exact h (rd_of_length_le (Nat.le_of_not_lt hn))

/-- Where the cursor arrives when a loop `while (p(c)) { c = *cur++; }` is
entered with `c = data[i]`: the first position from `i` on whose byte fails `p`. -/
theorem scan_while_drop (p : Nat → Bool) (hp0 : p 0 = false) (data : List Nat) :
    ∀ (fuel i : Nat), 1 ≤ fuel → data.length + 1 ≤ fuel + i →
      scan_while p data fuel (rd data i) (i + 1)
        = some (rd data (i + ((data.drop i).takeWhile p).length),
                i + ((data.drop i).takeWhile p).length + 1) := by
  intro fuel
  induction fuel with
  | zero => intro i h; omega
  | succ fuel ih =>
    intro i _ hlen
    rw [scan_while]
    cases hd : data.drop i with
    | nil =>
      rw [rd_of_drop_nil hd, hp0]
      simp [rd_of_drop_nil hd]
    | cons x xs =>
      rw [rd_of_drop_cons hd]
      have hi : i < data.length := by
        by_contra hn
        rw [List.drop_eq_nil_of_le (Nat.le_of_not_lt hn)] at hd
        exact absurd hd (by simp)
      by_cases hx : p x = true
      · rw [if_pos hx, ih (i + 1) (by omega) (by omega), drop_succ_of_drop_cons hd]
        simp only [List.takeWhile_cons, hx, if_true, List.length_cons]
        have e : i + 1 + (List.takeWhile p xs).length = i + ((List.takeWhile p xs).length + 1) := by
          omega
        rw [e]
      · rw [if_neg hx]
        simp only [List.takeWhile_cons, hx]
        simp [rd_of_drop_cons hd]

theorem scan_while_stop (p : Nat → Bool) (data : List Nat) (fuel c cur : Nat)
    (hc : p c = false) : scan_while p data (fuel + 1) c cur = some (c, cur) := by
  rw [scan_while, hc]
  rfl

/-- The byte on which a scanning loop stops fails the loop condition. -/
theorem stop_byte_fails (p : Nat → Bool) (hp0 : p 0 = false) (l : List Nat) :
    p (rd l (l.takeWhile p).length) = false := by
  induction l with
  | nil => simp [hp0]
  | cons x xs ih =>
    by_cases hx : p x = true
    · simpa [List.takeWhile_cons, hx] using ih
    · simp [List.takeWhile_cons, hx]

theorem takeWhile_of_run (p : Nat → Bool) (run rest : List Nat)
    (hrun : ∀ x ∈ run, p x = true) (hstop : p (rest.headD 0) = false) :
    (run ++ rest).takeWhile p = run := by
  rw [List.takeWhile_append_of_pos hrun]
  cases rest with
  | nil => simp
  | cons y ys =>
    have : p y = false := by simpa using hstop
    simp [List.takeWhile_cons, this]

/-- The token buffer after `strncpy(tmp, start, len); tmp[len - 1] = 0` when
`len - 1` bytes without NUL start at `start`: those bytes and a terminator. -/
theorem token_eq (data : List Nat) (i : Nat) (run rest : List Nat)
    (hd : data.drop i = run ++ rest) (hnul : 0 ∉ run) :
    token data i (run.length + 1) = run ++ [0] := by
  unfold token
  rw [hd]
  simp only [Nat.add_sub_cancel]
  clear hd
  induction run with
  | nil =>
    cases rest with
    | nil => simp [strncpy]
    | cons y ys =>
      by_cases hy : y = 0 <;> simp [strncpy, hy]
  | cons x xs ih =>
    have hx : x ≠ 0 := fun e => hnul (by simp [e])
    have hxs : 0 ∉ xs := fun e => hnul (by simp [e])
    simp only [List.cons_append, List.length_cons, strncpy, hx, if_false, List.set_cons_succ]
    exact congrArg (x :: ·) (ih hxs)

/-- What `strncpy(dest, src, n)` leaves in `dest` when `src` is the string `s`
(no NUL inside) with its terminator. -/
theorem strncpy_string (s rest : List Nat) (hnul : 0 ∉ s) (n : Nat) :
    strncpy (s ++ 0 :: rest) n = s.take n ++ List.replicate (n - s.length) 0 := by
  induction s generalizing n with
  | nil =>
    cases n with
    | zero => simp [strncpy]
    | succ n => simp [strncpy]
  | cons x xs ih =>
    have hx : x ≠ 0 := fun e => hnul (by simp [e])
    have hxs : 0 ∉ xs := fun e => hnul (by simp [e])
    cases n with
    | zero => simp [strncpy]
    | succ n =>
      simp only [List.cons_append, strncpy, hx, if_false, List.take_succ_cons, List.length_cons,
        Nat.add_sub_add_right]
      exact congrArg (x :: ·) (ih hxs n)

/-- The comparison `strncmp(lit, id_tmp, sizeof lit)` of two terminated strings
is zero exactly when the strings are equal. -/
theorem strncmp_eq_zero_iff (l id : List Nat) (hl : 0 ∉ l) (hid : 0 ∉ id) :
    strncmp (l ++ [0]) (id ++ [0]) (l.length + 1) = 0 ↔ l = id := by
  induction l generalizing id with
  | nil =>
    cases id with
    | nil => simp [strncmp]
    | cons y ys =>
      have hy : y ≠ 0 := fun e => hid (by simp [e])
      have hy2 : ¬ (0 = y) := fun e => hy e.symm
      simp [strncmp, hy, hy2]
  | cons x xs ih =>
    have hx : x ≠ 0 := fun e => hl (by simp [e])
    have hxs : 0 ∉ xs := fun e => hl (by simp [e])
    cases id with
    | nil => simp [strncmp, hx]
    | cons y ys =>
      have hys : 0 ∉ ys := fun e => hid (by simp [e])
      by_cases hxy : x = y
      · subst hxy
        simp only [List.cons_append, List.length_cons, strncmp, List.headD_cons, ne_eq,
          not_true_eq_false, if_false, hx, List.tail_cons, List.cons.injEq, true_and]
        exact ih ys hxs hys
      · have : (x : Int) - (y : Int) ≠ 0 := by omega
        simp [strncmp, hxy, this]

theorem rd_append_length (l r : List Nat) (j : Nat) : rd (l ++ r) (l.length + j) = rd r j := by
  induction l with
  | nil => simp
  | cons x xs ih =>
    rw [List.cons_append, List.length_cons, Nat.add_right_comm, rd_cons_succ, ih]

theorem token_len_eq (s e : Nat) (h : s ≤ e) : token_len s e = ((e - s + 1 : Nat) : Int) := by
  unfold token_len
  omega

/-! ## Character classes -/

theorem identifier_start_facts (c : Nat) (h : isvalididentifierstart c = true) :
    c ≠ 0 ∧ c ≠ 35 ∧ isspace c = false ∧ isvalididentifier c = true := by
  simp only [isvalididentifierstart, isalpha, isupper, islower, Bool.or_eq_true,
    Bool.and_eq_true, decide_eq_true_eq, beq_iff_eq] at h
  refine ⟨by omega, by omega, ?_, ?_⟩
  · simp only [isspace, Bool.or_eq_false_iff, beq_eq_false_iff_ne, Bool.and_eq_false_iff,
      decide_eq_false_iff_not]
    omega
  · simp only [isvalididentifier, isalnum, isalpha, isupper, islower, Bool.or_eq_true,
      Bool.and_eq_true, decide_eq_true_eq, beq_iff_eq]
    omega

theorem identifier_facts (c : Nat) (h : isvalididentifier c = true) : c ≠ 0 ∧ c ≠ 61 := by
  simp only [isvalididentifier, isalnum, isalpha, isupper, islower, isdigit, Bool.or_eq_true,
    Bool.and_eq_true, decide_eq_true_eq, beq_iff_eq] at h
  omega

/-! ## One assignment line -/

/-- On `ident=...` the pass reaches the value with `id_tmp` holding the
identifier and the cursor just after the `=`. -/
theorem line_assignment (data : List Nat) (opts : options_t) (cur c0 : Nat) (cs rest : List Nat)
    (hd : data.drop cur = c0 :: cs ++ 61 :: rest)
    (hstart : isvalididentifierstart c0 = true)
    (hcont : ∀ c ∈ cs, isvalididentifier c = true) :
    line data opts cur = parse_value data (c0 :: cs ++ [0]) opts (cur + cs.length + 2) := by
  have hd0 : data.drop cur = (c0 :: cs) ++ 61 :: rest := by simpa using hd
  have h0 := rd_of_drop_cons hd
  have hd1 : data.drop (cur + 1) = cs ++ 61 :: rest := drop_succ_of_drop_cons hd
  obtain ⟨hne0, hne35, hsp, hc0⟩ := identifier_start_facts c0 hstart
  have hscan := scan_while_drop isvalididentifier (by decide) data (data.length + 1) (cur + 1)
    (by omega) (by omega)
  have hstop : isvalididentifier ((61 :: rest).headD 0) = false := rfl
  rw [hd1, takeWhile_of_run _ cs (61 :: rest) hcont hstop] at hscan
  have h61 : rd data (cur + 1 + cs.length) = 61 := by
    have := rd_drop data (cur + 1) (cs.length + 0)
    rw [hd1, rd_append_length] at this
    simpa using this.symm
  rw [h61] at hscan
  have hnul : 0 ∉ c0 :: cs := by
    intro hm
    rcases List.mem_cons.1 hm with e | e
    · exact hne0 e.symm
    · exact (identifier_facts 0 (hcont 0 e)).1 rfl
  have htok := token_eq data cur (c0 :: cs) (61 :: rest) hd0 hnul
  have hlen : token_len (cur + 1 - 1) (cur + 1 + cs.length + 1 - 1)
      = (((c0 :: cs).length + 1 : Nat) : Int) := by
    rw [token_len_eq _ _ (by omega)]
    simp only [List.length_cons]
    congr 1
    omega
  unfold line
  simp only [h0, hne0, if_false, skip_whitespace, scan_while_stop _ _ _ _ _ hsp, hne35,
    hstart, Bool.not_true, Bool.false_eq_true, skip_identifier, hscan, hlen]
  have e1 : ¬ (61 = 0 ∨ (!isspace 61) = true ∧ 61 ≠ 61) := by decide
  have e2 : ¬ ((((c0 :: cs).length + 1 : Nat) : Int) < 1) := by omega
  have e3 : cur + 1 + cs.length + 1 = cur + cs.length + 2 := by omega
  rw [if_neg e1, if_neg e2, if_neg (by decide : ¬ (61 ≠ 61)), Int.toNat_ofNat,
    Nat.add_sub_cancel, htok, e3]

/-- The whitespace skipped after the `=` (lines 443-447): the cursor arrives at
the first byte from `cur` on that is not whitespace other than EOL. -/
theorem parse_value_skip (data : List Nat) (cur : Nat) :
    (if isspace (rd data cur) = true
      then skip_whitespace_not_eol data (data.length + 1) (rd data cur) (cur + 1)
      else some (rd data cur, cur + 1))
    = some (rd data (cur + ((data.drop cur).takeWhile (fun c => isspace c && !iseol c)).length),
        cur + ((data.drop cur).takeWhile (fun c => isspace c && !iseol c)).length + 1) := by
  by_cases hs : isspace (rd data cur) = true
  · rw [if_pos hs]
    exact scan_while_drop _ (by decide) data (data.length + 1) cur (by omega) (by omega)
  · rw [if_neg hs]
    have : (data.drop cur).takeWhile (fun c => isspace c && !iseol c) = [] := by
      cases hd : data.drop cur with
      | nil => rfl
      | cons x xs =>
        rw [rd_of_drop_cons hd] at hs
        simp [List.takeWhile_cons, hs]
    rw [this]
    rfl

/-- No value after the `=` (lines 449-455): `ENODATA`. -/
theorem parse_value_missing (data id_tmp : List Nat) (opts : options_t) (cur : Nat)
    (h : rd data (cur + ((data.drop cur).takeWhile (fun c => isspace c && !iseol c)).length) = 0
      ∨ rd data (cur + ((data.drop cur).takeWhile (fun c => isspace c && !iseol c)).length) = 10) :
    parse_value data id_tmp opts cur
      = .stop (.ret 1 (some .ENODATA) opts
          (cur + ((data.drop cur).takeWhile (fun c => isspace c && !iseol c)).length + 1)) := by
  unfold parse_value
  simp only [parse_value_skip]
  have e : rd data (cur + ((data.drop cur).takeWhile (fun c => isspace c && !iseol c)).length) = 0
      ∨ iseol (rd data (cur + ((data.drop cur).takeWhile
          (fun c => isspace c && !iseol c)).length)) = true := by
    rcases h with h | h
    · exact Or.inl h
    · right; rw [h]; rfl
  rw [if_pos e]

/-- An unquoted value (lines 485-525).  With `j` the position of its first
byte and `run` the bytes from there up to the first NUL, EOL or `#`: when the
run ends at EOL the value dispatched is `run`; when it ends at NUL or `#` the
cursor steps back and the value dispatched is `run` without its last byte. -/
theorem parse_value_unquoted (data id_tmp : List Nat) (opts : options_t) (cur j : Nat)
    (run : List Nat)
    (hj : j = cur + ((data.drop cur).takeWhile (fun c => isspace c && !iseol c)).length)
    (hrun : run = (data.drop j).takeWhile (fun c => c != 0 && !iseol c && c != 35))
    (h0 : rd data j ≠ 0) (h10 : rd data j ≠ 10) (h34 : rd data j ≠ 34) (h35 : rd data j ≠ 35) :
    parse_value data id_tmp opts cur
      = if rd data (j + run.length) = 0 ∨ rd data (j + run.length) = 35
        then dispatch id_tmp (run.dropLast ++ [0]) opts (j + run.length)
        else dispatch id_tmp (run ++ [0]) opts (j + run.length + 1) := by
  have hscan := scan_while_drop (fun c => c != 0 && !iseol c && c != 35) (by decide) data
    (data.length + 1) j (by omega) (by omega)
  rw [← hrun] at hscan
  have hsplit : data.drop j = run ++ (data.drop j).dropWhile
      (fun c => c != 0 && !iseol c && c != 35) := by
    rw [hrun, List.takeWhile_append_dropWhile]
  have hnul : 0 ∉ run := by
    intro hm
    rw [hrun] at hm
    have := List.mem_takeWhile_imp hm
    simp at this
  have hne : run ≠ [] := by
    cases hd : data.drop j with
    | nil => exact absurd (rd_of_drop_nil hd) h0
    | cons x xs =>
      rw [rd_of_drop_cons hd] at h0 h10 h35
      rw [hrun, hd]
      simp [List.takeWhile_cons, iseol, h0, h10, h35]
  have hpos : 1 ≤ run.length := List.length_pos.2 hne
  have hlast : run = run.dropLast ++ [run.getLast hne] := (List.dropLast_append_getLast hne).symm
  have hnul2 : 0 ∉ run.dropLast := fun hm => hnul (List.mem_of_mem_dropLast hm)
  have htok1 := token_eq data j run _ hsplit hnul
  have htok2 := token_eq data j run.dropLast ([run.getLast hne] ++ (data.drop j).dropWhile
      (fun c => c != 0 && !iseol c && c != 35)) (by rw [← List.append_assoc, ← hlast]; exact hsplit)
      hnul2
  rw [List.length_dropLast, Nat.sub_add_cancel hpos] at htok2
  have hl1 : token_len j (j + run.length) = ((run.length + 1 : Nat) : Int) := by
    rw [token_len_eq _ _ (by omega)]
    congr 1
    omega
  have hl2 : token_len j (j + run.length - 1) = ((run.length : Nat) : Int) := by
    rw [token_len_eq _ _ (by omega)]
    congr 1
    omega
  have e1 : ¬ ((run.length + 1 : Nat) : Int) < 1 := by omega
  have e2 : ¬ ((run.length : Nat) : Int) < 1 := by omega
  have e0 : ¬ (rd data j = 0 ∨ iseol (rd data j) = true) := by
    simp only [iseol, beq_iff_eq]
    tauto
  unfold parse_value
  simp only [parse_value_skip, ← hj, if_neg e0, if_neg h34, skip_until_eol_or_comment, hscan,
    materialise_value, hl1, hl2, if_neg e1, if_neg e2, Int.toNat_ofNat, Nat.add_sub_cancel,
    htok1, htok2]

/-- The loop over a quoted value stops at the first `"` that does not follow a
backslash.  Here `s` are the bytes before that quote: each `"` among them
follows a backslash (`prev` being the byte before `s`), and the closing quote
does not. -/
theorem scan_quoted_run (data : List Nat) :
    ∀ (s : List Nat) (fuel prev i : Nat) (rest : List Nat),
      data.drop i = s ++ 34 :: rest → s.length < fuel → 0 ∉ s →
      (∀ pre post, s = pre ++ 34 :: post → (prev :: pre).getLast? = some 92) →
      (prev :: s).getLast? ≠ some 92 →
      scan_quoted data fuel prev i = some (i + s.length + 1, some (i + s.length)) := by
  intro s
  induction s with
  | nil =>
    intro fuel prev i rest hd hfuel _ _ hend
    obtain ⟨fuel, rfl⟩ : ∃ f, fuel = f + 1 := ⟨fuel - 1, by simp at hfuel; omega⟩
    have hr : rd data i = 34 := rd_of_drop_cons hd
    have hp : prev ≠ 92 := by simpa using hend
    simp [scan_quoted, hr, hp]
  | cons x xs ih =>
    intro fuel prev i rest hd hfuel hnul hq hend
    obtain ⟨fuel, rfl⟩ : ∃ f, fuel = f + 1 := ⟨fuel - 1, by simp at hfuel; omega⟩
    have hr : rd data i = x := rd_of_drop_cons hd
    have hd1 : data.drop (i + 1) = xs ++ 34 :: rest := drop_succ_of_drop_cons hd
    have hx : x ≠ 0 := fun e => hnul (by simp [e])
    have hxs : 0 ∉ xs := fun e => hnul (by simp [e])
    have hcond : ¬ (x = 34 ∧ prev ≠ 92) := by
      rintro ⟨e, hp⟩
      have := hq [] xs (by simp [e])
      simp at this
      exact hp this
    have hq1 : ∀ pre post, xs = pre ++ 34 :: post → (x :: pre).getLast? = some 92 := by
      intro pre post e
      have := hq (x :: pre) post (by simp [e])
      simpa [List.getLast?_cons_cons] using this
    have hend1 : (x :: xs).getLast? ≠ some 92 := by
      simpa [List.getLast?_cons_cons] using hend
    have := ih fuel x (i + 1) rest hd1 (by simp at hfuel; omega) hxs hq1 hend1
    rw [scan_quoted]
    simp only [hr, hx, if_false, hcond, this, List.length_cons]
    congr 2
    · omega
    · congr 1; omega

/-- A quoted value (lines 457-484 and 499-525): the bytes between the quotes
are dispatched unchanged and the cursor ends just after the closing quote. -/
theorem parse_value_quoted (data id_tmp : List Nat) (opts : options_t) (cur j : Nat)
    (s rest : List Nat)
    (hj : j = cur + ((data.drop cur).takeWhile (fun c => isspace c && !iseol c)).length)
    (h34 : rd data j = 34) (hd : data.drop (j + 1) = s ++ 34 :: rest) (hnul : 0 ∉ s)
    (hq : ∀ pre post, s = pre ++ 34 :: post → pre.getLast? = some 92)
    (hend : s.getLast? ≠ some 92) :
    parse_value data id_tmp opts cur = dispatch id_tmp (s ++ [0]) opts (j + s.length + 2) := by
  have hlen : s.length ≤ data.length := by
    have := congrArg List.length hd
    simp at this
    omega
  have hq1 : ∀ pre post, s = pre ++ 34 :: post → (34 :: pre).getLast? = some 92 := by
    intro pre post e
    have h1 := hq pre post e
    cases pre with
    | nil => simp at h1
    | cons y ys => simpa [List.getLast?_cons_cons] using h1
  have hend1 : (34 :: s).getLast? ≠ some 92 := by
    cases s with
    | nil => simp
    | cons y ys => simpa [List.getLast?_cons_cons] using hend
  have hscan := scan_quoted_run data s (data.length + 1) 34 (j + 1) rest hd (by omega) hnul
    hq1 hend1
  have htok := token_eq data (j + 1) s (34 :: rest) hd hnul
  have hl : token_len (j + 1) (j + 1 + s.length) = ((s.length + 1 : Nat) : Int) := by
    rw [token_len_eq _ _ (by omega)]
    congr 1
    omega
  have e0 : ¬ ((34 : Nat) = 0 ∨ iseol 34 = true) := by decide
  have e1 : ¬ ((s.length + 1 : Nat) : Int) < 1 := by omega
  have e2 : j + 1 + s.length + 1 = j + s.length + 2 := by omega
  unfold parse_value
  simp only [parse_value_skip, ← hj, h34, if_neg e0, if_true, hscan, materialise_value, hl,
    if_neg e1, Int.toNat_ofNat, htok, e2]

/-- At the terminating NUL the loop is left with status 0 (line 384). -/
theorem line_at_nul (data : List Nat) (opts : options_t) (cur : Nat) (h : rd data cur = 0) :
    line data opts cur = .stop (.ret 0 none opts (cur + 1)) := by
  unfold line
  simp [h]

/-! ## Dispatch -/

theorem identifier_matched_iff (l id : List Nat) (hl : 0 ∉ l) (hid : 0 ∉ id) :
    identifier_matched (l ++ [0]) (id ++ [0]) = decide (l = id) := by
  unfold identifier_matched
  rw [List.length_append, List.length_singleton]
  exact decide_eq_decide.2 (strncmp_eq_zero_iff l id hl hid)

/-- An identifier other than the three known ones is refused with `ENOTSUP`
and the record is not touched. -/
theorem dispatch_unknown (id val_tmp : List Nat) (opts : options_t) (cur : Nat) (hid : 0 ∉ id)
    (h1 : id ≠ bytes "daemonize") (h2 : id ≠ bytes "verbose") (h3 : id ≠ bytes "syslog_ident") :
    dispatch (id ++ [0]) val_tmp opts cur = .stop (.ret 1 (some .ENOTSUP) opts cur) := by
  have m1 : identifier_matched lit_daemonize (id ++ [0]) = false := by
    have := identifier_matched_iff (bytes "daemonize") id (by decide) hid
    rw [decide_eq_false (fun e => h1 e.symm)] at this
    exact this
  have m2 : identifier_matched lit_verbose (id ++ [0]) = false := by
    have := identifier_matched_iff (bytes "verbose") id (by decide) hid
    rw [decide_eq_false (fun e => h2 e.symm)] at this
    exact this
  have m3 : identifier_matched lit_syslog_ident (id ++ [0]) = false := by
    have := identifier_matched_iff (bytes "syslog_ident") id (by decide) hid
    rw [decide_eq_false (fun e => h3 e.symm)] at this
    exact this
  unfold dispatch
  simp [m1, m2, m3]

theorem rd_takeWhile_length (p : Nat → Bool) (l : List Nat) :
    rd l (l.takeWhile p).length = (l.dropWhile p).headD 0 := by
  induction l with
  | nil => simp
  | cons x xs ih =>
    by_cases hx : p x = true
    · simpa [List.takeWhile_cons, List.dropWhile_cons, hx] using ih
    · simp [List.takeWhile_cons, List.dropWhile_cons, hx]

/-! ## `validate_boolean` -/

theorem strlen_eq_length : ∀ s : List Nat, 0 ∉ s → strlen s = s.length
  | [], _ => rfl
  | c :: cs, h => by
    have hc : c ≠ 0 := fun e => h (by simp [e])
    have hcs : 0 ∉ cs := fun e => h (by simp [e])
    simp [strlen, hc, strlen_eq_length cs hcs]

theorem tolower_cases (c : Nat) :
    (¬ (65 ≤ c ∧ c ≤ 90) ∧ tolower c = c) ∨ (65 ≤ c ∧ c ≤ 90 ∧ tolower c = c + 32) := by
  unfold tolower isupper
  by_cases h : 65 ≤ c ∧ c ≤ 90
  · right; simp [h]
  · left
    have : ¬ (decide (65 ≤ c) && decide (c ≤ 90)) = true := by simpa using h
    simp [this, h]

/-- Of length four, no string is accepted: the fourth test asks `str[2]` to be
both `u` and `e`. -/
theorem validate_boolean_len4 (s : List Nat) (h : strlen s = 4) : validate_boolean s = -1 := by
  unfold validate_boolean
  rw [h]
  simp only
  rw [if_neg]
  rintro ⟨-, -, h1, h2⟩
  rw [h1] at h2
  exact absurd h2 (by decide)

/-- Of length five, no string is accepted: `str[2]` is asked to be `l`, `s`
and `e` at once. -/
theorem validate_boolean_len5 (s : List Nat) (h : strlen s = 5) : validate_boolean s = -1 := by
  unfold validate_boolean
  rw [h]
  simp only
  rw [if_neg]
  rintro ⟨-, -, h1, h2, -⟩
  rw [h1] at h2
  exact absurd h2 (by decide)

/-- C1: `validate_boolean` does not return 1 on every spelling of a true
literal: on `yes` (in any case) it returns 0 and on `true` it returns -1; only
`y`, `Y` and `1` give 1. -/
theorem validate_boolean_true_literals :
    validate_boolean (bytes "y") = 1 ∧ validate_boolean (bytes "Y") = 1
      ∧ validate_boolean (bytes "1") = 1
      ∧ validate_boolean (bytes "yes") = 0 ∧ validate_boolean (bytes "YES") = 0
      ∧ validate_boolean (bytes "Yes") = 0
      ∧ validate_boolean (bytes "true") = -1 ∧ validate_boolean (bytes "TRUE") = -1
      ∧ validate_boolean (bytes "True") = -1 := by
  decide

/-- C2: `validate_boolean` does not return 0 on every spelling of a false
literal: on `false` (in any case) it returns -1; `n`, `N`, `0` and the
spellings of `no` give 0. -/
theorem validate_boolean_false_literals :
    validate_boolean (bytes "n") = 0 ∧ validate_boolean (bytes "N") = 0
      ∧ validate_boolean (bytes "0") = 0
      ∧ validate_boolean (bytes "no") = 0 ∧ validate_boolean (bytes "NO") = 0
      ∧ validate_boolean (bytes "No") = 0 ∧ validate_boolean (bytes "nO") = 0
      ∧ validate_boolean (bytes "false") = -1 ∧ validate_boolean (bytes "FALSE") = -1
      ∧ validate_boolean (bytes "False") = -1 := by
  decide

/-- C3: a string (no NUL inside) that is not, up to case, one of the eight
literals `y`, `1`, `yes`, `true`, `n`, `0`, `no`, `false` is invalid:
`validate_boolean` returns -1. -/
theorem validate_boolean_invalid (s : List Nat) (hnul : 0 ∉ s)
    (h : s.map tolower ∉ [bytes "y", bytes "1", bytes "yes", bytes "true",
      bytes "n", bytes "0", bytes "no", bytes "false"]) :
    validate_boolean s = -1 := by
  have hb : bytes "y" = [121] ∧ bytes "1" = [49] ∧ bytes "yes" = [121, 101, 115]
      ∧ bytes "true" = [116, 114, 117, 101] ∧ bytes "n" = [110] ∧ bytes "0" = [48]
      ∧ bytes "no" = [110, 111] ∧ bytes "false" = [102, 97, 108, 115, 101] := by decide
  obtain ⟨h1, h2, h3, h4, h5, h6, h7, h8⟩ := hb
  rw [h1, h2, h3, h4, h5, h6, h7, h8] at h
  have hlen := strlen_eq_length s hnul
  rcases s with _ | ⟨a, _ | ⟨b, _ | ⟨c, _ | ⟨d, _ | ⟨e, _ | ⟨f, t⟩⟩⟩⟩⟩⟩
  · rfl
  · simp only [List.length_singleton] at hlen
    simp only [validate_boolean, hlen, rd, List.getD_cons_zero]
    simp only [List.map_cons, List.map_nil, List.mem_cons, List.cons.injEq, and_true,
      List.not_mem_nil, or_false, reduceCtorEq, and_false, false_and, or_self, false_or,
      not_or] at h
    rcases tolower_cases a with ⟨_, ha⟩ | ⟨_, _, ha⟩ <;> rw [ha] at h
    · have e1 : ¬ (a = 121 ∨ a = 89 ∨ a = 49) := by omega
      have e2 : ¬ (a = 110 ∨ a = 78 ∨ a = 48) := by omega
      rw [if_neg e1, if_neg e2]
    · have e1 : ¬ (a = 121 ∨ a = 89 ∨ a = 49) := by omega
      have e2 : ¬ (a = 110 ∨ a = 78 ∨ a = 48) := by omega
      rw [if_neg e1, if_neg e2]
  · simp only [List.length_cons, List.length_nil] at hlen
    simp only [validate_boolean, hlen, rd, List.getD_cons_zero, List.getD_cons_succ]
    have e : ¬ (tolower a = 110 ∧ tolower b = 111) := by
      rintro ⟨ea, eb⟩
      apply h
      simp [ea, eb]
    rw [if_neg e]
  · simp only [List.length_cons, List.length_nil] at hlen
    simp only [validate_boolean, hlen, rd, List.getD_cons_zero, List.getD_cons_succ]
    have e : ¬ (tolower a = 121 ∧ tolower b = 101 ∧ tolower c = 115) := by
      rintro ⟨ea, eb, ec⟩
      apply h
      simp [ea, eb, ec]
    rw [if_neg e]
  · exact validate_boolean_len4 _ (by simpa using hlen)
  · exact validate_boolean_len5 _ (by simpa using hlen)
  · simp only [List.length_cons] at hlen
    unfold validate_boolean
    rw [hlen]
    rfl

/-- Witness for C3 at the string `maybe`. -/
theorem validate_boolean_invalid_witness :
    validate_boolean (bytes "maybe") = -1 :=
  validate_boolean_invalid (bytes "maybe") (by decide) (by decide)

/-! ## Unknown identifiers -/

/-- C10: an identifier `[A-Za-z_][A-Za-z0-9_-]*` other than `daemonize`,
`verbose` and `syslog_ident` is rejected.  For the buffer `id=v`, where the
first byte of `v` after the whitespace that follows the `=` is neither `#` nor
`"`, `parse_config_file` returns 1 and leaves the record unchanged; `errno` is
`ENOTSUP` (unknown identifier) as soon as a value is present, and `ENODATA`
when nothing but whitespace precedes the end of the line or of the input. -/
theorem unknown_identifier_rejected (c0 : Nat) (cs v : List Nat) (opts : options_t)
    (hstart : isvalididentifierstart c0 = true)
    (hcont : ∀ c ∈ cs, isvalididentifier c = true)
    (h1 : c0 :: cs ≠ bytes "daemonize") (h2 : c0 :: cs ≠ bytes "verbose")
    (h3 : c0 :: cs ≠ bytes "syslog_ident")
    (h35 : (v.dropWhile (fun c => isspace c && !iseol c)).headD 0 ≠ 35)
    (h34 : (v.dropWhile (fun c => isspace c && !iseol c)).headD 0 ≠ 34) :
    ∃ cur, parse_config_file (c0 :: cs ++ 61 :: v) opts
      = .ret 1
          (some (if (v.dropWhile (fun c => isspace c && !iseol c)).headD 0 = 0
              ∨ (v.dropWhile (fun c => isspace c && !iseol c)).headD 0 = 10
            then .ENODATA else .ENOTSUP))
          opts cur := by
  have hline := line_assignment (c0 :: cs ++ 61 :: v) opts 0 c0 cs v rfl hstart hcont
  have hdv : (c0 :: cs ++ 61 :: v).drop (0 + cs.length + 2) = v := by
    have : c0 :: cs ++ 61 :: v = (c0 :: cs ++ [61]) ++ v := by simp
    rw [this]
    exact List.drop_left' (by simp)
  have hx : rd (c0 :: cs ++ 61 :: v) (0 + cs.length + 2
      + (v.takeWhile (fun c => isspace c && !iseol c)).length)
      = (v.dropWhile (fun c => isspace c && !iseol c)).headD 0 := by
    rw [← rd_drop, hdv, rd_takeWhile_length]
  have hnul : 0 ∉ c0 :: cs := by
    intro hm
    rcases List.mem_cons.1 hm with e | e
    · exact (identifier_start_facts c0 hstart).1 e.symm
    · exact (identifier_facts 0 (hcont 0 e)).1 rfl
  unfold parse_config_file
  rw [parse_loop, hline]
  by_cases hm : (v.dropWhile (fun c => isspace c && !iseol c)).headD 0 = 0
      ∨ (v.dropWhile (fun c => isspace c && !iseol c)).headD 0 = 10
  · rw [if_pos hm, parse_value_missing _ _ _ _ (by rw [hdv, hx]; exact hm)]
    exact ⟨_, rfl⟩
  · rw [if_neg hm]
    have hm0 := fun e => hm (Or.inl e)
    have hm10 := fun e => hm (Or.inr e)
    rw [parse_value_unquoted _ _ opts (0 + cs.length + 2) _ _ (by rw [hdv]) rfl
      (by rw [hx]; exact hm0) (by rw [hx]; exact hm10) (by rw [hx]; exact h34)
      (by rw [hx]; exact h35)]
    have hdis : ∀ val cur, dispatch (c0 :: cs ++ [0]) val opts cur
        = .stop (.ret 1 (some .ENOTSUP) opts cur) :=
      fun val cur => dispatch_unknown (c0 :: cs) val opts cur hnul h1 h2 h3
    simp only [hdis]
    split_ifs <;> exact ⟨_, rfl⟩

/-- Witness for C10 at the buffer `foo=bar`. -/
theorem unknown_identifier_rejected_witness :
    ∃ cur, parse_config_file (bytes "foo=bar") ⟨0, 0, 0, bytes "mydaemon"⟩
      = .ret 1 (some .ENOTSUP) ⟨0, 0, 0, bytes "mydaemon"⟩ cur :=
  unknown_identifier_rejected 102 [111, 111] [98, 97, 114] ⟨0, 0, 0, bytes "mydaemon"⟩
    (by decide) (by decide) (by decide) (by decide) (by decide) (by decide) (by decide)

/-! ## Quoted values -/

/-- The identifier `syslog_ident` stores the value with
`strncpy(opts->syslog_ident, val_tmp, sizeof(opts->syslog_ident))`. -/
theorem dispatch_syslog_ident (val_tmp : List Nat) (opts : options_t) (cur : Nat) :
    dispatch (bytes "syslog_ident" ++ [0]) val_tmp opts cur
      = .next { opts with syslog_ident := strncpy val_tmp 256 } cur := by
  have m1 : identifier_matched lit_daemonize (bytes "syslog_ident" ++ [0]) = false := by decide
  have m2 : identifier_matched lit_verbose (bytes "syslog_ident" ++ [0]) = false := by decide
  have m3 : identifier_matched lit_syslog_ident (bytes "syslog_ident" ++ [0]) = true := by decide
  unfold dispatch
  simp [m1, m2, m3]

/-- C8: a quoted value is taken literally.  For every `s` of at most 255 bytes
without NUL in which every `"` immediately follows a backslash and which does
not end with a backslash, parsing `syslog_ident="` `s` `"` returns 0 and leaves
in `syslog_ident` the bytes of `s`, unchanged, followed by NUL padding. -/
theorem quoted_value_literal (s : List Nat) (opts : options_t)
    (hlen : s.length ≤ 255) (hnul : 0 ∉ s)
    (hq : ∀ pre post, s = pre ++ 34 :: post → pre.getLast? = some 92)
    (hend : s.getLast? ≠ some 92) :
    parse_config_file (bytes "syslog_ident=\"" ++ s ++ bytes "\"") opts
      = .ret 0 none { opts with syslog_ident := s ++ List.replicate (256 - s.length) 0 }
          (s.length + 16) := by
  have hb : bytes "syslog_ident=\"" ++ s ++ bytes "\""
      = 115 :: [121, 115, 108, 111, 103, 95, 105, 100, 101, 110, 116] ++ 61 :: (34 :: s ++ [34]) := by
    have e1 : bytes "syslog_ident=\""
        = [115, 121, 115, 108, 111, 103, 95, 105, 100, 101, 110, 116, 61, 34] := by decide
    have e2 : bytes "\"" = [34] := by decide
    rw [e1, e2]
    simp
  rw [hb]
  generalize hdata : 115 :: [121, 115, 108, 111, 103, 95, 105, 100, 101, 110, 116]
    ++ 61 :: (34 :: s ++ [34]) = data
  have hline := line_assignment data opts 0 115 [121, 115, 108, 111, 103, 95, 105, 100, 101, 110, 116]
    (34 :: s ++ [34]) (by rw [← hdata]; rfl) (by decide) (by decide)
  have hdl : data.length = s.length + 15 := by
    rw [← hdata]
    simp
  have hd13 : data.drop 13 = 34 :: s ++ [34] := by
    rw [← hdata]
    rfl
  have hd14 : data.drop 14 = s ++ 34 :: [] := by
    rw [← hdata]
    rfl
  have htw : (data.drop (0 + 11 + 2)).takeWhile (fun c => isspace c && !iseol c) = [] := by
    rw [hd13]
    rfl
  have hval := parse_value_quoted data (bytes "syslog_ident" ++ [0]) opts (0 + 11 + 2) 13 s []
    (by rw [htw]; rfl) (rd_of_drop_cons hd13) hd14 hnul hq hend
  have hcopy : strncpy (s ++ [0]) 256 = s ++ List.replicate (256 - s.length) 0 := by
    rw [strncpy_string s [] hnul 256, List.take_of_length_le (by omega)]
  have hnulrd : rd data (13 + s.length + 2) = 0 := rd_of_length_le (by omega)
  unfold parse_config_file
  rw [hdl, parse_loop, hline]
  simp only [List.length_cons, List.length_nil] at hval ⊢
  rw [show (115 :: [121, 115, 108, 111, 103, 95, 105, 100, 101, 110, 116] ++ [0] : List Nat)
    = bytes "syslog_ident" ++ [0] from by decide, hval, dispatch_syslog_ident]
  simp only
  rw [parse_loop, line_at_nul _ _ _ hnulrd, hcopy]
  simp only [Outcome.ret.injEq, true_and]
  omega

/-- Witness for C8 at the values `a\"b` and `a`. -/
theorem quoted_value_literal_witness :
    parse_config_file (bytes "syslog_ident=\"" ++ bytes "a\\\"b" ++ bytes "\"") ⟨0, 0, 0, []⟩
      = .ret 0 none
          { (⟨0, 0, 0, []⟩ : options_t) with
            syslog_ident := bytes "a\\\"b" ++ List.replicate (256 - (bytes "a\\\"b").length) 0 }
          ((bytes "a\\\"b").length + 16) :=
  quoted_value_literal (bytes "a\\\"b") ⟨0, 0, 0, []⟩ (by decide) (by decide)
    (by
      intro pre post h
      rcases pre with _ | ⟨a, _ | ⟨b, _ | ⟨c, _ | ⟨d, t⟩⟩⟩⟩ <;>
        simp [bytes] at h ⊢
      all_goals omega)
    (by decide)

/-! ## Unquoted values of `syslog_ident` -/

theorem bytes_syslog_ident_eq :
    bytes "syslog_ident=" = 115 :: [121, 115, 108, 111, 103, 95, 105, 100, 101, 110, 116] ++ [61] := by
  decide

/-- An unquoted value `v` that runs to the end of the input: the cursor steps
back, the token is one byte short, and `syslog_ident` receives `v` without its
last byte. -/
theorem syslog_ident_unquoted_eof (v : List Nat) (opts : options_t) (hne : v ≠ [])
    (hrun : ∀ c ∈ v, c ≠ 0 ∧ c ≠ 10 ∧ c ≠ 35)
    (hsp : isspace (v.headD 0) = false) (hq : v.headD 0 ≠ 34) :
    parse_config_file (bytes "syslog_ident=" ++ v) opts
      = .ret 0 none { opts with syslog_ident := strncpy (v.dropLast ++ [0]) 256 }
          (v.length + 14) := by
  have hb : bytes "syslog_ident=" ++ v
      = 115 :: [121, 115, 108, 111, 103, 95, 105, 100, 101, 110, 116] ++ 61 :: v := by
    rw [bytes_syslog_ident_eq]
    simp
  rw [hb]
  generalize hdata : 115 :: [121, 115, 108, 111, 103, 95, 105, 100, 101, 110, 116] ++ 61 :: v = data
  have hline := line_assignment data opts 0 115
    [121, 115, 108, 111, 103, 95, 105, 100, 101, 110, 116] v (by rw [← hdata]; rfl)
    (by decide) (by decide)
  have hdl : data.length = v.length + 13 := by
    rw [← hdata]
    simp
  have hd13 : data.drop 13 = v := by
    rw [← hdata]
    rfl
  obtain ⟨x, xs, rfl⟩ : ∃ x xs, v = x :: xs := List.exists_cons_of_ne_nil hne
  simp only [List.headD_cons] at hsp hq
  have hx := hrun x (by simp)
  have htw : (data.drop (0 + 11 + 2)).takeWhile (fun c => isspace c && !iseol c) = [] := by
    rw [hd13]
    simp [List.takeWhile_cons, hsp]
  have hrun2 : (data.drop 13).takeWhile (fun c => c != 0 && !iseol c && c != 35) = x :: xs := by
    rw [hd13]
    have := takeWhile_of_run (fun c => c != 0 && !iseol c && c != 35) (x :: xs) []
      (by
        intro c hc
        have := hrun c hc
        simp [iseol, this])
      (by decide)
    simpa using this
  have hr13 : rd data 13 = x := rd_of_drop_cons hd13
  have hval := parse_value_unquoted data (bytes "syslog_ident" ++ [0]) opts (0 + 11 + 2) 13 (x :: xs)
    (by rw [htw]; rfl) hrun2.symm (by rw [hr13]; exact hx.1) (by rw [hr13]; exact hx.2.1)
    (by rw [hr13]; exact hq) (by rw [hr13]; exact hx.2.2)
  have hend : rd data (13 + (x :: xs).length) = 0 := rd_of_length_le (by omega)
  rw [if_pos (Or.inl hend)] at hval
  unfold parse_config_file
  rw [hdl, parse_loop, hline]
  simp only [List.length_cons, List.length_nil] at hval ⊢
  rw [show (115 :: [121, 115, 108, 111, 103, 95, 105, 100, 101, 110, 116] ++ [0] : List Nat)
    = bytes "syslog_ident" ++ [0] from by decide, hval, dispatch_syslog_ident]
  simp only
  rw [parse_loop, line_at_nul _ _ _ (by simpa using hend)]
  simp only [Outcome.ret.injEq, true_and]
  omega

/-- An unquoted value `v` that ends at an end of line: `syslog_ident` receives
the whole of `v`, copied by `strncpy` with the size of the field. -/
theorem syslog_ident_unquoted_eol (v : List Nat) (opts : options_t) (hne : v ≠ [])
    (hrun : ∀ c ∈ v, c ≠ 0 ∧ c ≠ 10 ∧ c ≠ 35)
    (hsp : isspace (v.headD 0) = false) (hq : v.headD 0 ≠ 34) :
    parse_config_file (bytes "syslog_ident=" ++ v ++ [10]) opts
      = .ret 0 none { opts with syslog_ident := strncpy (v ++ [0]) 256 } (v.length + 15) := by
  have hb : bytes "syslog_ident=" ++ v ++ [10]
      = 115 :: [121, 115, 108, 111, 103, 95, 105, 100, 101, 110, 116] ++ 61 :: (v ++ [10]) := by
    rw [bytes_syslog_ident_eq]
    simp
  rw [hb]
  generalize hdata : 115 :: [121, 115, 108, 111, 103, 95, 105, 100, 101, 110, 116]
    ++ 61 :: (v ++ [10]) = data
  have hline := line_assignment data opts 0 115
    [121, 115, 108, 111, 103, 95, 105, 100, 101, 110, 116] (v ++ [10]) (by rw [← hdata]; rfl)
    (by decide) (by decide)
  have hdl : data.length = v.length + 14 := by
    rw [← hdata]
    simp
  have hd13 : data.drop 13 = v ++ [10] := by
    rw [← hdata]
    rfl
  obtain ⟨x, xs, rfl⟩ : ∃ x xs, v = x :: xs := List.exists_cons_of_ne_nil hne
  simp only [List.headD_cons] at hsp hq
  have hx := hrun x (by simp)
  have htw : (data.drop (0 + 11 + 2)).takeWhile (fun c => isspace c && !iseol c) = [] := by
    rw [hd13]
    simp [List.takeWhile_cons, hsp]
  have hrun2 : (data.drop 13).takeWhile (fun c => c != 0 && !iseol c && c != 35) = x :: xs := by
    rw [hd13]
    exact takeWhile_of_run (fun c => c != 0 && !iseol c && c != 35) (x :: xs) [10]
      (by
        intro c hc
        have := hrun c hc
        simp [iseol, this])
      (by decide)
  have hr13 : rd data 13 = x := rd_of_drop_cons hd13
  have hval := parse_value_unquoted data (bytes "syslog_ident" ++ [0]) opts (0 + 11 + 2) 13 (x :: xs)
    (by rw [htw]; rfl) hrun2.symm (by rw [hr13]; exact hx.1) (by rw [hr13]; exact hx.2.1)
    (by rw [hr13]; exact hq) (by rw [hr13]; exact hx.2.2)
  have hstop : rd data (13 + (x :: xs).length) = 10 := by
    have := rd_drop data 13 ((x :: xs).length + 0)
    rw [hd13, rd_append_length] at this
    simpa using this.symm
  have hcond : ¬ (rd data (13 + (x :: xs).length) = 0 ∨ rd data (13 + (x :: xs).length) = 35) := by
    rw [hstop]
    decide
  rw [if_neg hcond] at hval
  have hend : rd data (13 + (x :: xs).length + 1) = 0 := rd_of_length_le (by omega)
  unfold parse_config_file
  rw [hdl, parse_loop, hline]
  simp only [List.length_cons, List.length_nil] at hval hend ⊢
  rw [show (115 :: [121, 115, 108, 111, 103, 95, 105, 100, 101, 110, 116] ++ [0] : List Nat)
    = bytes "syslog_ident" ++ [0] from by decide, hval, dispatch_syslog_ident]
  simp only
  rw [parse_loop, line_at_nul _ _ _ hend]
  simp only [Outcome.ret.injEq, true_and]
  omega

/-! ## Evaluations on concrete buffers -/

/-- C4: boolean coercion through the parser.  On `daemonize=yes`,
`daemonize=Y` and `daemonize=TRUE` the call returns 1 with `EINVAL` and leaves
the record as it was (the value handed on has lost its last byte); with a
closing newline `daemonize=yes` is accepted but clears `background`, and
`daemonize=TRUE` is still refused.  On `daemonize=maybe` the call returns 1
and the record is unchanged. -/
theorem daemonize_coercion (opts : options_t) :
    parse_config_file (bytes "daemonize=yes") opts = .ret 1 (some .EINVAL) opts 13
      ∧ parse_config_file (bytes "daemonize=Y") opts = .ret 1 (some .EINVAL) opts 11
      ∧ parse_config_file (bytes "daemonize=TRUE") opts = .ret 1 (some .EINVAL) opts 14
      ∧ parse_config_file (bytes "daemonize=yes\n") opts
          = .ret 0 none { opts with background := 0 } 15
      ∧ parse_config_file (bytes "daemonize=Y\n") opts
          = .ret 0 none { opts with background := 1 } 13
      ∧ parse_config_file (bytes "daemonize=TRUE\n") opts = .ret 1 (some .EINVAL) opts 15
      ∧ parse_config_file (bytes "daemonize=maybe") opts = .ret 1 (some .EINVAL) opts 15 :=
  ⟨rfl, rfl, rfl, rfl, rfl, rfl, rfl⟩

/-- C5: parsing well-formed files of assignments and comments.
`daemonize=true` and `verbose=false` (each on a line of its own) are refused
with status 1; `verbose=yes` is accepted but stores 0; without a final newline
`verbose=1` is refused and `syslog_ident=abc` stores `ab`. -/
theorem well_formed_files (opts : options_t) :
    parse_config_file (bytes "daemonize=true\n") opts = .ret 1 (some .EINVAL) opts 15
      ∧ parse_config_file (bytes "verbose=false\n") opts = .ret 1 (some .EINVAL) opts 14
      ∧ parse_config_file (bytes "verbose=yes\n") opts = .ret 0 none { opts with verbose := 0 } 13
      ∧ parse_config_file (bytes "# comment\nverbose=1") opts = .ret 1 (some .EINVAL) opts 19
      ∧ parse_config_file (bytes "syslog_ident=abc") opts
          = .ret 0 none { opts with syslog_ident := bytes "ab" ++ List.replicate 254 0 } 17 :=
  ⟨rfl, rfl, rfl, rfl, rfl⟩

/-- C6: the unquoted round trip fails.  Parsing `syslog_ident=ab` stores `a`,
not `ab`, and parsing `syslog_ident=a` (the stored value again) stores the
empty string. -/
theorem unquoted_round_trip (opts : options_t) :
    parse_config_file (bytes "syslog_ident=ab") opts
        = .ret 0 none { opts with syslog_ident := bytes "a" ++ List.replicate 255 0 } 16
      ∧ parse_config_file (bytes "syslog_ident=a") opts
        = .ret 0 none { opts with syslog_ident := List.replicate 256 0 } 15 :=
  ⟨rfl, rfl⟩

/-- C7: a trailing comment.  Parsing `syslog_ident=v # trailing comment`
stores the single byte `v`: the span before `#` is `v` and a space, and its
last byte is dropped; likewise `syslog_ident=ab#c` stores `a`. -/
theorem trailing_comment (opts : options_t) :
    parse_config_file (bytes "syslog_ident=v # trailing comment") opts
        = .ret 0 none { opts with syslog_ident := bytes "v" ++ List.replicate 255 0 } 34
      ∧ parse_config_file (bytes "syslog_ident=ab#c") opts
        = .ret 0 none { opts with syslog_ident := bytes "a" ++ List.replicate 255 0 } 18 :=
  ⟨rfl, rfl⟩

/-- C9: a value of 300 bytes.  With or without a closing newline the call
returns 0 and the 256 bytes of `syslog_ident` are the first 256 bytes of the
value: the field holds no NUL terminator. -/
theorem long_identifier (opts : options_t) :
    parse_config_file (bytes "syslog_ident=" ++ List.replicate 300 97) opts
        = .ret 0 none { opts with syslog_ident := List.replicate 256 97 } 314
      ∧ parse_config_file (bytes "syslog_ident=" ++ List.replicate 300 97 ++ [10]) opts
        = .ret 0 none { opts with syslog_ident := List.replicate 256 97 } 315
      ∧ 0 ∉ List.replicate 256 97 := by
  have hrun : ∀ c ∈ List.replicate 300 97, c ≠ 0 ∧ c ≠ 10 ∧ c ≠ 35 := by
    intro c hc
    rw [List.eq_of_mem_replicate hc]
    decide
  have h1 := syslog_ident_unquoted_eof (List.replicate 300 97) opts (by decide) hrun rfl
    (by decide)
  have h2 := syslog_ident_unquoted_eol (List.replicate 300 97) opts (by decide) hrun rfl
    (by decide)
  have e1 : (List.replicate 300 97).dropLast ++ [0] = List.replicate 299 97 ++ 0 :: [] := by
    rw [List.dropLast_replicate]
  have e2 : List.replicate 300 97 ++ [0] = List.replicate 300 97 ++ 0 :: [] := rfl
  have hz : ∀ n, 0 ∉ List.replicate n 97 := by
    intro n hm
    exact absurd (List.eq_of_mem_replicate hm) (by decide)
  rw [e1, strncpy_string _ _ (hz 299)] at h1
  rw [e2, strncpy_string _ _ (hz 300)] at h2
  simp only [List.take_replicate, List.length_replicate] at h1 h2
  norm_num at h1 h2
  exact ⟨h1, h2, hz 256⟩

/-- The value part of a pass, with the scanning loops replaced by the
positions where they stop. -/
theorem parse_value_closed (data id_tmp : List Nat) (opts : options_t) (cur j r : Nat)
    (hj : j = cur + ((data.drop cur).takeWhile (fun c => isspace c && !iseol c)).length)
    (hr : r = ((data.drop j).takeWhile (fun c => c != 0 && !iseol c && c != 35)).length) :
    parse_value data id_tmp opts cur =
      if rd data j = 0 ∨ rd data j = 10 then .stop (.ret 1 (some .ENODATA) opts (j + 1))
      else if rd data j = 34 then
        match scan_quoted data (data.length + 1) 34 (j + 1) with
        | none => .stop .timeout
        | some (c', none) => .stop (.ret 1 (some .EINVAL) opts c')
        | some (c', some e) => materialise_value data id_tmp (j + 1) e opts c'
      else if rd data (j + r) = 0 ∨ rd data (j + r) = 35 then
        materialise_value data id_tmp j (j + r - 1) opts (j + r)
      else materialise_value data id_tmp j (j + r) opts (j + r + 1) := by
  subst hr
  have hscan := scan_while_drop (fun c => c != 0 && !iseol c && c != 35) (by decide) data
    (data.length + 1) j (by omega) (by omega)
  have heol : (rd data j = 0 ∨ iseol (rd data j) = true) ↔ (rd data j = 0 ∨ rd data j = 10) := by
    simp [iseol]
  unfold parse_value
  simp only [parse_value_skip, ← hj, heol, skip_until_eol_or_comment, hscan, Nat.add_sub_cancel]
  by_cases h34 : rd data j = 34
  · simp only [h34, if_true]
  · simp only [h34, if_false]

/-- One pass of the loop, with the scanning loops replaced by the positions
where they stop: `p` is the first byte that is not whitespace, `m` the length
of a comment, `n` the number of bytes of the identifier after its first, `w`
the whitespace between the identifier and the `=`. -/
theorem line_closed (data : List Nat) (opts : options_t) (cur p m n w : Nat)
    (hp : p = cur + ((data.drop cur).takeWhile isspace).length)
    (hm : m = ((data.drop (p + 1)).takeWhile (fun c => c != 0 && !iseol c)).length)
    (hn : n = ((data.drop (p + 1)).takeWhile isvalididentifier).length)
    (hw : w = ((data.drop (p + 1 + n)).takeWhile (fun c => isspace c && !iseol c)).length) :
    line data opts cur =
      if rd data p = 0 then .stop (.ret 0 none opts (p + 1))
      else if rd data p = 35 then
        if rd data (p + 1 + m) = 0 then .stop (.ret 0 none opts (p + 1 + m + 1))
        else .next opts (p + 1 + m + 1)
      else if isvalididentifierstart (rd data p) = false then
        .stop (.ret 1 (some .EINVAL) opts (p + 1))
      else if rd data (p + 1 + n) = 0
          ∨ (isspace (rd data (p + 1 + n)) = false ∧ rd data (p + 1 + n) ≠ 61) then
        .stop (.ret 1 (some .EINVAL) opts (p + 1 + n + 1))
      else if rd data (p + 1 + n + w) ≠ 61 then
        .stop (.ret 1 (some .EINVAL) opts (p + 1 + n + w + 1))
      else parse_value data (token data p (n + 2)) opts (p + 1 + n + w + 1) := by
  subst hm hn hw
  have hws := scan_while_drop isspace (by decide) data (data.length + 1) cur (by omega) (by omega)
  rw [← hp] at hws
  have hcom := scan_while_drop (fun c => c != 0 && !iseol c) (by decide) data (data.length + 1)
    (p + 1) (by omega) (by omega)
  have hid := scan_while_drop isvalididentifier (by decide) data (data.length + 1)
    (p + 1) (by omega) (by omega)
  have hbl := scan_while_drop (fun c => isspace c && !iseol c) (by decide) data (data.length + 1)
    (p + 1 + ((data.drop (p + 1)).takeWhile isvalididentifier).length) (by omega) (by omega)
  have hlen : token_len p (p + 1 + ((data.drop (p + 1)).takeWhile isvalididentifier).length)
      = ((((data.drop (p + 1)).takeWhile isvalididentifier).length + 2 : Nat) : Int) := by
    rw [token_len_eq _ _ (by omega)]
    congr 1
    omega
  by_cases h0 : rd data cur = 0
  · have : p = cur := by
      rw [hp]
      cases hd : data.drop cur with
      | nil => rfl
      | cons x xs =>
        rw [rd_of_drop_cons hd] at h0
        simp [List.takeWhile_cons, h0, isspace]
    subst this
    unfold line
    simp only [h0, if_true]
  · unfold line
    simp only [h0, if_false, skip_whitespace, hws, skip_until_eol, hcom, skip_identifier, hid,
      skip_whitespace_not_eol, hbl, Nat.add_sub_cancel, hlen]
    have e2 : ¬ ((((data.drop (p + 1)).takeWhile isvalididentifier).length + 2 : Nat) : Int) < 1 := by
      omega
    simp only [if_neg e2, Int.toNat_ofNat, Bool.not_eq_true']
    by_cases h1 : rd data p = 0
    · simp only [h1, if_true]
    simp only [h1, if_false]
    by_cases h2 : rd data p = 35
    · simp only [h2, if_true]
    simp only [h2, if_false]
    by_cases h3 : isvalididentifierstart (rd data p) = false
    · simp only [h3, if_true]
    simp only [h3, if_false]
    by_cases h4 : rd data (p + 1 + ((data.drop (p + 1)).takeWhile isvalididentifier).length) = 0
        ∨ (isspace (rd data (p + 1 + ((data.drop (p + 1)).takeWhile isvalididentifier).length)) = false
          ∧ rd data (p + 1 + ((data.drop (p + 1)).takeWhile isvalididentifier).length) ≠ 61)
    · simp only [h4, if_true]
    simp only [h4, if_false]
    by_cases h5 : rd data (p + 1 + ((data.drop (p + 1)).takeWhile isvalididentifier).length) = 61
    · have hw0 : ((data.drop (p + 1 + ((data.drop (p + 1)).takeWhile isvalididentifier).length)).takeWhile
          (fun c => isspace c && !iseol c)) = [] := by
        cases hd : data.drop (p + 1 + ((data.drop (p + 1)).takeWhile isvalididentifier).length) with
        | nil => rfl
        | cons x xs =>
          rw [rd_of_drop_cons hd] at h5
          subst h5
          rfl
      simp only [hw0, List.length_nil, Nat.add_zero, h5, ne_eq, not_true_eq_false, if_false]
    · simp only [ne_eq, h5, not_false_eq_true, if_true]

/-! ## The loop over a quoted value -/

/-- Enough fuel: the loop over a quoted value gives a result, beyond where it
started; a closing quote, when there is one, is the byte before the cursor. -/
theorem scan_quoted_total (data : List Nat) :
    ∀ (fuel c i : Nat), 1 ≤ fuel → data.length + 1 ≤ fuel + i →
      ∃ c' ve, scan_quoted data fuel c i = some (c', ve) ∧ i < c'
        ∧ ∀ e, ve = some e → e + 1 = c' ∧ rd data e = 34 := by
  intro fuel
  induction fuel with
  | zero => intro c i h; omega
  | succ fuel ih =>
    intro c i _ hlen
    rw [scan_quoted]
    by_cases h0 : rd data i = 0
    · exact ⟨i + 1, none, by simp [h0], by omega, by simp⟩
    · by_cases hq : rd data i = 34 ∧ c ≠ 92
      · refine ⟨i + 1, some i, by simp [h0, hq], by omega, ?_⟩
        intro e he
        have : i = e := by simpa using he
        subst this
        exact ⟨by omega, hq.1⟩
      · have hi := lt_length_of_rd_ne_zero h0
        obtain ⟨c', ve, h1, h2, h3⟩ := ih (rd data i) (i + 1) (by omega) (by omega)
        exact ⟨c', ve, by simp [h0, hq, h1], by omega, h3⟩

/-- The result of the loop over a quoted value does not depend on the fuel,
once there is enough of it. -/
theorem scan_quoted_fuel (data : List Nat) :
    ∀ (fuel fuel' c i : Nat), 1 ≤ fuel → data.length + 1 ≤ fuel + i →
      1 ≤ fuel' → data.length + 1 ≤ fuel' + i →
      scan_quoted data fuel c i = scan_quoted data fuel' c i := by
  intro fuel
  induction fuel with
  | zero => intro f' c i h; omega
  | succ fuel ih =>
    intro fuel' c i _ hlen h1 hlen'
    obtain ⟨fuel', rfl⟩ : ∃ f, fuel' = f + 1 := ⟨fuel' - 1, by omega⟩
    rw [scan_quoted, scan_quoted]
    by_cases h0 : rd data i = 0
    · simp [h0]
    · by_cases hq : rd data i = 34 ∧ c ≠ 92
      · simp [h0, hq]
      · have hi := lt_length_of_rd_ne_zero h0
        simp only [h0, hq, if_false]
        exact ih fuel' (rd data i) (i + 1) (by omega) (by omega) (by omega) (by omega)

/-- The loop over a quoted value sees only the bytes from the cursor on. -/
theorem scan_quoted_shift (data : List Nat) (n : Nat) :
    ∀ (fuel c i : Nat),
      scan_quoted data fuel c (i + n)
        = (scan_quoted (data.drop n) fuel c i).map (fun r => (r.1 + n, r.2.map (· + n))) := by
  intro fuel
  induction fuel with
  | zero => intro c i; rfl
  | succ fuel ih =>
    intro c i
    have hr : rd data (i + n) = rd (data.drop n) i := by
      rw [rd_drop, Nat.add_comm]
    rw [scan_quoted, scan_quoted, hr]
    by_cases h0 : rd (data.drop n) i = 0
    · simp [h0]
      omega
    · by_cases hq : rd (data.drop n) i = 34 ∧ c ≠ 92
      · have hc : c ≠ 92 := hq.2
        simp [hq.1, hc]
        omega
      · simp only [h0, hq, if_false]
        have := ih (rd (data.drop n) i) (i + 1)
        rw [Nat.add_right_comm] at this
        exact this

theorem scan_quoted_drop (data : List Nat) (n c i : Nat) :
    scan_quoted data (data.length + 1) c (i + n)
      = (scan_quoted (data.drop n) ((data.drop n).length + 1) c i).map
          (fun r => (r.1 + n, r.2.map (· + n))) := by
  rw [scan_quoted_shift]
  congr 1
  exact scan_quoted_fuel (data.drop n) _ _ c i (by omega) (by simp; omega) (by omega) (by omega)

/-! ## A pass sees only the bytes from its cursor on -/

theorem drop_drop_add (data : List Nat) (n i : Nat) : (data.drop n).drop i = data.drop (i + n) := by
  rw [List.drop_drop, Nat.add_comm]

theorem rd_add_drop (data : List Nat) (n i : Nat) : rd data (i + n) = rd (data.drop n) i := by
  rw [rd_drop, Nat.add_comm]

theorem token_drop (data : List Nat) (n i len : Nat) :
    token data (i + n) len = token (data.drop n) i len := by
  unfold token
  rw [drop_drop_add]

theorem token_len_shift (n a b : Nat) : token_len (a + n) (b + n) = token_len a b := by
  unfold token_len
  push_cast
  omega

theorem dispatch_shift (id_tmp val_tmp : List Nat) (opts : options_t) (cur n : Nat) :
    dispatch id_tmp val_tmp opts (cur + n) = (dispatch id_tmp val_tmp opts cur).shift n := by
  unfold dispatch
  simp only
  split_ifs <;> rfl

theorem materialise_value_shift (data id_tmp : List Nat) (opts : options_t)
    (val_start val_end cur n : Nat) :
    materialise_value data id_tmp (val_start + n) (val_end + n) opts (cur + n)
      = (materialise_value (data.drop n) id_tmp val_start val_end opts cur).shift n := by
  unfold materialise_value
  simp only [token_len_shift, token_drop, dispatch_shift]
  split_ifs <;> rfl

/-- The value part of a pass sees only the bytes from the cursor on. -/
theorem parse_value_shift (data id_tmp : List Nat) (opts : options_t) (cur n : Nat)
    (hcur : 1 ≤ cur) :
    parse_value data id_tmp opts (cur + n)
      = (parse_value (data.drop n) id_tmp opts cur).shift n := by
  have hL := parse_value_closed data id_tmp opts (cur + n)
    (cur + (((data.drop n).drop cur).takeWhile (fun c => isspace c && !iseol c)).length + n)
    (((data.drop n).drop (cur + (((data.drop n).drop cur).takeWhile
        (fun c => isspace c && !iseol c)).length)).takeWhile
        (fun c => c != 0 && !iseol c && c != 35)).length
    (by rw [drop_drop_add]; omega) (by rw [drop_drop_add])
  have hR := parse_value_closed (data.drop n) id_tmp opts cur _ _ rfl rfl
  rw [hL, hR]
  generalize (((data.drop n).drop (cur + (((data.drop n).drop cur).takeWhile
        (fun c => isspace c && !iseol c)).length)).takeWhile
        (fun c => c != 0 && !iseol c && c != 35)).length = r
  generalize hj : cur + (((data.drop n).drop cur).takeWhile
        (fun c => isspace c && !iseol c)).length = j
  have hj1 : 1 ≤ j := by omega
  have e1 : j + n + r = j + r + n := by omega
  have e2 : j + n + 1 = j + 1 + n := by omega
  have e3 : j + r + n - 1 = j + r - 1 + n := by omega
  have e4 : j + r + n + 1 = j + r + 1 + n := by omega
  have hq := scan_quoted_drop data n 34 (j + 1)
  simp only [e1, e2, e3, e4, rd_add_drop, materialise_value_shift, hq]
  split_ifs
  · simp [Step.shift, Outcome.shift]
  · cases scan_quoted (data.drop n) ((data.drop n).length + 1) 34 (j + 1) with
    | none => rfl
    | some r =>
      obtain ⟨c', ve⟩ := r
      cases ve with
      | none => rfl
      | some e => simp [materialise_value_shift]
  · rfl
  · rfl

/-- A pass sees only the bytes from its cursor on: on `data` from `cur + n` it
does what it does on `data` without its first `n` bytes from `cur`. -/
theorem line_shift (data : List Nat) (opts : options_t) (cur n : Nat) :
    line data opts (cur + n) = (line (data.drop n) opts cur).shift n := by
  have hR := line_closed (data.drop n) opts cur _ _ _ _ rfl rfl rfl rfl
  generalize hp : cur + (((data.drop n).drop cur).takeWhile isspace).length = p at hR
  generalize hm : (((data.drop n).drop (p + 1)).takeWhile (fun c => c != 0 && !iseol c)).length
    = m at hR
  generalize hn : (((data.drop n).drop (p + 1)).takeWhile isvalididentifier).length = k at hR
  generalize hw : (((data.drop n).drop (p + 1 + k)).takeWhile
    (fun c => isspace c && !iseol c)).length = w at hR
  have e1 : p + n + 1 = p + 1 + n := by omega
  have e2 : p + n + 1 + k = p + 1 + k + n := by omega
  have hL := line_closed data opts (cur + n) (p + n) m k w
    (by rw [← hp, drop_drop_add]; omega) (by rw [← hm, drop_drop_add, e1])
    (by rw [← hn, drop_drop_add, e1]) (by rw [← hw, drop_drop_add, e2])
  rw [hL, hR]
  have e3 : p + 1 + n + m = p + 1 + m + n := by omega
  have e2' : p + 1 + n + k = p + 1 + k + n := by omega
  have e4 : p + 1 + k + n + w = p + 1 + k + w + n := by omega
  have e5 : p + 1 + m + n + 1 = p + 1 + m + 1 + n := by omega
  have e6 : p + 1 + k + n + 1 = p + 1 + k + 1 + n := by omega
  have e7 : p + 1 + k + w + n + 1 = p + 1 + k + w + 1 + n := by omega
  simp only [e1, e2', e3, e4, e5, e6, e7, rd_add_drop, token_drop,
    parse_value_shift _ _ _ (p + 1 + k + w + 1) n (by omega)]
  split_ifs <;> rfl

/-- The loop sees only the bytes from its cursor on. -/
theorem parse_loop_shift (data : List Nat) (n : Nat) :
    ∀ (fuel : Nat) (opts : options_t) (cur : Nat),
      parse_loop data fuel opts (cur + n) = (parse_loop (data.drop n) fuel opts cur).shift n := by
  intro fuel
  induction fuel with
  | zero => intro opts cur; rfl
  | succ fuel ih =>
    intro opts cur
    rw [parse_loop, parse_loop, line_shift]
    cases line (data.drop n) opts cur with
    | next o c => exact ih o c
    | stop out => rfl

/-! ## What a pass can end with -/

/-- The dispatch keeps the cursor; it either goes on with a record that
differs from `opts` in the one field of the identifier, or stops with status 1
and the record as it was. -/
theorem dispatch_spec (id_tmp val_tmp : List Nat) (opts : options_t) (cur : Nat) :
    (∃ o, dispatch id_tmp val_tmp opts cur = .next o cur
        ∧ o.config_file = opts.config_file
        ∧ (identifier_matched lit_daemonize id_tmp = true →
            o.verbose = opts.verbose ∧ o.syslog_ident = opts.syslog_ident)
        ∧ (identifier_matched lit_daemonize id_tmp = false →
            identifier_matched lit_verbose id_tmp = true →
            o.background = opts.background ∧ o.syslog_ident = opts.syslog_ident)
        ∧ (identifier_matched lit_daemonize id_tmp = false →
            identifier_matched lit_verbose id_tmp = false →
            o.background = opts.background ∧ o.verbose = opts.verbose))
      ∨ ∃ e, dispatch id_tmp val_tmp opts cur = .stop (.ret 1 (some e) opts cur) := by
  unfold dispatch
  simp only
  split_ifs <;> simp_all

theorem materialise_value_of_le (data id_tmp : List Nat) (opts : options_t)
    (val_start val_end cur : Nat) (h : val_start ≤ val_end) :
    materialise_value data id_tmp val_start val_end opts cur
      = dispatch id_tmp (token data val_start (val_end - val_start + 1)) opts cur := by
  unfold materialise_value
  simp only [token_len_eq _ _ h, Int.toNat_ofNat]
  rw [if_neg (by omega)]

theorem materialise_value_fault (data id_tmp : List Nat) (opts : options_t)
    (val_start val_end cur : Nat) (h : val_end + 1 = val_start) :
    materialise_value data id_tmp val_start val_end opts cur = .stop (.fault opts cur) := by
  unfold materialise_value
  have : token_len val_start val_end < 1 := by
    unfold token_len
    omega
  simp only [this, if_true]

/-- What the value part of a pass can end with: status 1 with the record as it
was, the store outside the token buffer, or the dispatch of a pair, the cursor
then being further on and not beyond the terminator. -/
theorem parse_value_spec (data id_tmp : List Nat) (opts : options_t) (cur : Nat)
    (hcur : 1 ≤ cur) :
    (∃ e c, parse_value data id_tmp opts cur = .stop (.ret 1 (some e) opts c) ∧ cur < c)
      ∨ (∃ c, parse_value data id_tmp opts cur = .stop (.fault opts c))
      ∨ (∃ val c, parse_value data id_tmp opts cur = dispatch id_tmp val opts c
          ∧ cur < c ∧ c ≤ data.length) := by
  rw [parse_value_closed data id_tmp opts cur _ _ rfl rfl]
  generalize hj : cur + ((data.drop cur).takeWhile (fun c => isspace c && !iseol c)).length = j
  have hrle := (List.takeWhile_sublist (fun c => c != 0 && !iseol c && c != 35)
    (l := data.drop j)).length_le
  generalize hr : ((data.drop j).takeWhile (fun c => c != 0 && !iseol c && c != 35)).length = r
    at hrle
  rw [List.length_drop] at hrle
  have hjc : cur ≤ j := by omega
  split_ifs with h1 h2 h3
  · exact Or.inl ⟨_, _, rfl, by omega⟩
  · obtain ⟨c', ve, hs, hlt, hve⟩ := scan_quoted_total data (data.length + 1) 34 (j + 1)
      (by omega) (by omega)
    rw [hs]
    cases ve with
    | none => exact Or.inl ⟨_, _, rfl, by omega⟩
    | some e =>
      obtain ⟨he, hq⟩ := hve e rfl
      have hel : e < data.length := lt_length_of_rd_ne_zero (by rw [hq]; decide)
      exact Or.inr (Or.inr ⟨_, c', materialise_value_of_le _ _ _ _ _ _ (by omega), by omega,
        by omega⟩)
  · have hjl : j < data.length := lt_length_of_rd_ne_zero (fun e => h1 (Or.inl e))
    by_cases hr0 : r = 0
    · subst hr0
      exact Or.inr (Or.inl ⟨_, materialise_value_fault _ _ _ _ _ _ (by omega)⟩)
    · exact Or.inr (Or.inr ⟨_, j + r, materialise_value_of_le _ _ _ _ _ _ (by omega), by omega,
        by omega⟩)
  · have hl : j + r < data.length := lt_length_of_rd_ne_zero (fun e => h3 (Or.inl e))
    exact Or.inr (Or.inr ⟨_, j + r + 1, materialise_value_of_le _ _ _ _ _ _ (by omega), by omega,
      by omega⟩)

/-- What a pass can end with: a status with the record as it was, the store
outside the token buffer, the end of a comment line, or the dispatch of a
pair.  When the loop goes on, the cursor is further on and not beyond the
terminator. -/
theorem line_spec (data : List Nat) (opts : options_t) (cur : Nat) :
    (∃ r e c, line data opts cur = .stop (.ret r e opts c) ∧ cur < c)
      ∨ (∃ c, line data opts cur = .stop (.fault opts c))
      ∨ (∃ c, line data opts cur = .next opts c ∧ cur < c ∧ c ≤ data.length)
      ∨ (∃ id_tmp val c, line data opts cur = dispatch id_tmp val opts c
          ∧ cur < c ∧ c ≤ data.length) := by
  rw [line_closed data opts cur _ _ _ _ rfl rfl rfl rfl]
  generalize hp : cur + ((data.drop cur).takeWhile isspace).length = p
  generalize ((data.drop (p + 1)).takeWhile (fun c => c != 0 && !iseol c)).length = m
  generalize ((data.drop (p + 1)).takeWhile isvalididentifier).length = n
  generalize ((data.drop (p + 1 + n)).takeWhile (fun c => isspace c && !iseol c)).length = w
  have hpc : cur ≤ p := by omega
  split_ifs with h1 h2 h3 h4 h5 h6
  · exact Or.inl ⟨_, _, _, rfl, by omega⟩
  · exact Or.inl ⟨_, _, _, rfl, by omega⟩
  · have := lt_length_of_rd_ne_zero h3
    exact Or.inr (Or.inr (Or.inl ⟨_, rfl, by omega, by omega⟩))
  · exact Or.inl ⟨_, _, _, rfl, by omega⟩
  · exact Or.inl ⟨_, _, _, rfl, by omega⟩
  · exact Or.inl ⟨_, _, _, rfl, by omega⟩
  · rcases parse_value_spec data (token data p (n + 2)) opts (p + 1 + n + w + 1) (by omega) with
      ⟨e, c, h, hc⟩ | ⟨c, h⟩ | ⟨val, c, h, hc, hl⟩
    · exact Or.inl ⟨_, _, _, h, by omega⟩
    · exact Or.inr (Or.inl ⟨_, h⟩)
    · exact Or.inr (Or.inr (Or.inr ⟨_, _, _, h, by omega, hl⟩))

/-! ## The loop: termination and fuel -/

/-- A pass never runs out of fuel. -/
theorem line_ne_timeout (data : List Nat) (opts : options_t) (cur : Nat) :
    line data opts cur ≠ .stop .timeout := by
  rcases line_spec data opts cur with ⟨r, e, c, h, -⟩ | ⟨c, h⟩ | ⟨c, h, -⟩ | ⟨i, v, c, h, -⟩
  · rw [h]; simp
  · rw [h]; simp
  · rw [h]; simp
  · rw [h]
    rcases dispatch_spec i v opts c with ⟨o, h1, -⟩ | ⟨e, h1⟩ <;> rw [h1] <;> simp

/-- When a pass hands over to the next one, the cursor has moved on by at
least one byte, it is not beyond the terminator, and `config_file` is as it
was. -/
theorem line_next (data : List Nat) (opts o : options_t) (cur c : Nat)
    (h : line data opts cur = .next o c) :
    cur < c ∧ c ≤ data.length ∧ o.config_file = opts.config_file := by
  rcases line_spec data opts cur with ⟨r, e, c1, h1, -⟩ | ⟨c1, h1⟩ | ⟨c1, h1, h2, h3⟩
    | ⟨i, v, c1, h1, h2, h3⟩
  · rw [h1] at h; simp at h
  · rw [h1] at h; simp at h
  · rw [h1] at h
    simp only [Step.next.injEq] at h
    obtain ⟨rfl, rfl⟩ := h
    exact ⟨h2, h3, rfl⟩
  · rw [h1] at h
    rcases dispatch_spec i v opts c1 with ⟨o1, hd, hc, -⟩ | ⟨e, hd⟩
    · rw [hd] at h
      simp only [Step.next.injEq] at h
      obtain ⟨rfl, rfl⟩ := h
      exact ⟨h2, h3, hc⟩
    · rw [hd] at h; simp at h

/-- When a pass leaves the loop, the record is as it was at its start. -/
theorem line_stop (data : List Nat) (opts : options_t) (cur : Nat) (out : Outcome)
    (h : line data opts cur = .stop out) :
    (∃ r e c, out = .ret r e opts c ∧ cur < c) ∨ (∃ c, out = .fault opts c) := by
  rcases line_spec data opts cur with ⟨r, e, c1, h1, h2⟩ | ⟨c1, h1⟩ | ⟨c1, h1, -⟩
    | ⟨i, v, c1, h1, h2, -⟩
  · rw [h1] at h
    simp only [Step.stop.injEq] at h
    exact Or.inl ⟨r, e, c1, h.symm, h2⟩
  · rw [h1] at h
    simp only [Step.stop.injEq] at h
    exact Or.inr ⟨c1, h.symm⟩
  · rw [h1] at h; simp at h
  · rw [h1] at h
    rcases dispatch_spec i v opts c1 with ⟨o1, hd, -⟩ | ⟨e, hd⟩
    · rw [hd] at h; simp at h
    · rw [hd] at h
      simp only [Step.stop.injEq] at h
      exact Or.inl ⟨1, some e, c1, h.symm, h2⟩

/-- With fuel for every byte that is left, the loop does not run out of it. -/
theorem parse_loop_ne_timeout (data : List Nat) :
    ∀ (fuel : Nat) (opts : options_t) (cur : Nat), 1 ≤ fuel → data.length + 1 ≤ fuel + cur →
      parse_loop data fuel opts cur ≠ .timeout := by
  intro fuel
  induction fuel with
  | zero => intro opts cur h; omega
  | succ fuel ih =>
    intro opts cur _ hlen
    rw [parse_loop]
    cases hl : line data opts cur with
    | next o c =>
      obtain ⟨h1, h2, -⟩ := line_next data opts o cur c hl
      exact ih o c (by omega) (by omega)
    | stop out =>
      intro hout
      simp only at hout
      rw [hout] at hl
      exact line_ne_timeout data opts cur hl

/-- The result of the loop does not depend on the fuel, once there is enough
of it. -/
theorem parse_loop_fuel (data : List Nat) :
    ∀ (fuel fuel' : Nat) (opts : options_t) (cur : Nat),
      1 ≤ fuel → data.length + 1 ≤ fuel + cur → 1 ≤ fuel' → data.length + 1 ≤ fuel' + cur →
      parse_loop data fuel opts cur = parse_loop data fuel' opts cur := by
  intro fuel
  induction fuel with
  | zero => intro f' opts cur h; omega
  | succ fuel ih =>
    intro fuel' opts cur _ hlen h1 hlen'
    obtain ⟨fuel', rfl⟩ : ∃ f, fuel' = f + 1 := ⟨fuel' - 1, by omega⟩
    rw [parse_loop, parse_loop]
    cases hl : line data opts cur with
    | next o c =>
      obtain ⟨h1, h2, -⟩ := line_next data opts o cur c hl
      exact ih fuel' o c (by omega) (by omega) (by omega) (by omega)
    | stop out => rfl

/-- The loop entered in the middle of a buffer does what `parse_config_file`
does on the rest of the buffer. -/
theorem parse_loop_drop (data : List Nat) (opts : options_t) (n fuel : Nat)
    (hfuel : 1 ≤ fuel) (hlen : data.length + 1 ≤ fuel + n) :
    parse_loop data fuel opts n = (parse_config_file (data.drop n) opts).shift n := by
  have := parse_loop_shift data n fuel opts 0
  rw [Nat.zero_add] at this
  rw [this]
  unfold parse_config_file
  congr 1
  exact parse_loop_fuel (data.drop n) _ _ opts 0 hfuel (by simp; omega) (by omega) (by omega)

/-- A pass that hands over: the call does from there what it does on the rest
of the buffer. -/
theorem parse_config_file_next (data : List Nat) (opts o : options_t) (c : Nat)
    (h : line data opts 0 = .next o c) :
    parse_config_file data opts = (parse_config_file (data.drop c) o).shift c := by
  obtain ⟨h1, h2, -⟩ := line_next data opts o 0 c h
  unfold parse_config_file
  rw [parse_loop, h]
  exact parse_loop_drop data o c data.length (by omega) (by omega)

theorem parse_config_file_stop (data : List Nat) (opts : options_t) (out : Outcome)
    (h : line data opts 0 = .stop out) : parse_config_file data opts = out := by
  unfold parse_config_file
  rw [parse_loop, h]

/-! ## Assignment lines with whitespace around the `=` -/

theorem blank_of_space_tab (c : Nat) (h : c = 32 ∨ c = 9) :
    (isspace c && !iseol c) = true := by
  rcases h with rfl | rfl <;> rfl

/-- On `ident ws* =` the pass reaches the value with `id_tmp` holding the
identifier and the cursor just after the `=`. -/
theorem line_assignment_ws (data : List Nat) (opts : options_t) (cur c0 : Nat)
    (cs w1 rest : List Nat)
    (hd : data.drop cur = c0 :: cs ++ w1 ++ 61 :: rest)
    (hstart : isvalididentifierstart c0 = true)
    (hcont : ∀ c ∈ cs, isvalididentifier c = true)
    (hw1 : ∀ c ∈ w1, (isspace c && !iseol c) = true) :
    line data opts cur
      = parse_value data (c0 :: cs ++ [0]) opts (cur + cs.length + w1.length + 2) := by
  obtain ⟨hne0, hne35, hsp, hc0⟩ := identifier_start_facts c0 hstart
  have hd0 : data.drop cur = c0 :: (cs ++ (w1 ++ 61 :: rest)) := by simpa using hd
  have hd1 : data.drop (cur + 1) = cs ++ (w1 ++ 61 :: rest) := drop_succ_of_drop_cons hd0
  have hp : (data.drop cur).takeWhile isspace = [] := by
    rw [hd0]
    simp [List.takeWhile_cons, hsp]
  have hr0 : rd data cur = c0 := rd_of_drop_cons hd0
  -- the byte after the identifier: whitespace or `=`
  have hhead : (w1 ++ 61 :: rest).headD 0 ≠ 0
      ∧ (isspace ((w1 ++ 61 :: rest).headD 0) = true ∨ (w1 ++ 61 :: rest).headD 0 = 61)
      ∧ isvalididentifier ((w1 ++ 61 :: rest).headD 0) = false := by
    cases w1 with
    | nil => exact ⟨by simp, Or.inr rfl, rfl⟩
    | cons x xs =>
      have hx := hw1 x (by simp)
      simp only [Bool.and_eq_true, Bool.not_eq_true', isspace, Bool.or_eq_true, beq_iff_eq,
        decide_eq_true_eq, iseol, beq_eq_false_iff_ne] at hx
      refine ⟨?_, Or.inl ?_, ?_⟩
      · simp only [List.cons_append, List.headD_cons]
        omega
      · simp only [List.cons_append, List.headD_cons, isspace, Bool.or_eq_true, beq_iff_eq,
          Bool.and_eq_true, decide_eq_true_eq]
        exact hx.1
      · simp only [List.cons_append, List.headD_cons, isvalididentifier, isalnum, isalpha,
          isupper, islower, isdigit, Bool.or_eq_false_iff, Bool.and_eq_false_iff,
          decide_eq_false_iff_not, beq_eq_false_iff_ne]
        omega
  have hn : (data.drop (cur + 1)).takeWhile isvalididentifier = cs := by
    rw [hd1]
    exact takeWhile_of_run _ cs _ hcont hhead.2.2
  have hdq : data.drop (cur + 1 + cs.length) = w1 ++ 61 :: rest := by
    have := drop_drop_add data (cur + 1) cs.length
    rw [hd1, List.drop_left] at this
    rw [Nat.add_comm (cur + 1)]
    exact this.symm
  have hw : (data.drop (cur + 1 + cs.length)).takeWhile (fun c => isspace c && !iseol c) = w1 := by
    rw [hdq]
    exact takeWhile_of_run _ w1 _ hw1 rfl
  have hrq : rd data (cur + 1 + cs.length) = (w1 ++ 61 :: rest).headD 0 := by
    rw [← Nat.add_zero (cur + 1 + cs.length), ← rd_drop, hdq]
    cases w1 ++ 61 :: rest <;> rfl
  have hre : rd data (cur + 1 + cs.length + w1.length) = 61 := by
    rw [← rd_drop, hdq, ← Nat.add_zero w1.length, rd_append_length]
    rfl
  have hnul : 0 ∉ c0 :: cs := by
    intro hm
    rcases List.mem_cons.1 hm with e | e
    · exact hne0 e.symm
    · exact (identifier_facts 0 (hcont 0 e)).1 rfl
  have htok : token data cur (cs.length + 2) = c0 :: cs ++ [0] :=
    token_eq data cur (c0 :: cs) (w1 ++ 61 :: rest) (by rw [hd0]; simp) hnul
  rw [line_closed data opts cur cur _ cs.length w1.length (by rw [hp]; rfl) rfl (by rw [hn])
    (by rw [hw])]
  have h4 : ¬ (rd data (cur + 1 + cs.length) = 0
      ∨ (isspace (rd data (cur + 1 + cs.length)) = false ∧ rd data (cur + 1 + cs.length) ≠ 61)) := by
    rw [hrq]
    rintro (h | ⟨h1, h2⟩)
    · exact hhead.1 h
    · rcases hhead.2.1 with h3 | h3
      · rw [h3] at h1; exact absurd h1 (by decide)
      · exact h2 h3
  have e : cur + 1 + cs.length + w1.length + 1 = cur + cs.length + w1.length + 2 := by omega
  rw [hr0, if_neg hne0, if_neg hne35, if_neg (by rw [hstart]; decide), if_neg h4,
    if_neg (by rw [hre]; decide), htok, e]

/-- The loop over a quoted value whose closing quote is missing runs to the
terminator and leaves `val_end` at `NULL`. -/
theorem scan_quoted_eof (data : List Nat) :
    ∀ (t : List Nat) (fuel prev i : Nat),
      data.drop i = t → t.length < fuel → 0 ∉ t →
      (∀ pre post, t = pre ++ 34 :: post → (prev :: pre).getLast? = some 92) →
      scan_quoted data fuel prev i = some (i + t.length + 1, none) := by
  intro t
  induction t with
  | nil =>
    intro fuel prev i hd hfuel _ _
    obtain ⟨fuel, rfl⟩ : ∃ f, fuel = f + 1 := ⟨fuel - 1, by simp at hfuel; omega⟩
    simp [scan_quoted, rd_of_drop_nil hd]
  | cons x xs ih =>
    intro fuel prev i hd hfuel hnul hq
    obtain ⟨fuel, rfl⟩ : ∃ f, fuel = f + 1 := ⟨fuel - 1, by simp at hfuel; omega⟩
    have hr : rd data i = x := rd_of_drop_cons hd
    have hd1 : data.drop (i + 1) = xs := drop_succ_of_drop_cons hd
    have hx : x ≠ 0 := fun e => hnul (by simp [e])
    have hxs : 0 ∉ xs := fun e => hnul (by simp [e])
    have hcond : ¬ (x = 34 ∧ prev ≠ 92) := by
      rintro ⟨e, hp⟩
      have := hq [] xs (by simp [e])
      simp at this
      exact hp this
    have hq1 : ∀ pre post, xs = pre ++ 34 :: post → (x :: pre).getLast? = some 92 := by
      intro pre post e
      have := hq (x :: pre) post (by simp [e])
      simpa [List.getLast?_cons_cons] using this
    have := ih fuel x (i + 1) hd1 (by simp at hfuel; omega) hxs hq1
    rw [scan_quoted]
    simp only [hr, hx, if_false, hcond, this, List.length_cons]
    congr 2
    omega

theorem drop_assignment (c0 : Nat) (cs w1 rest : List Nat) :
    (c0 :: cs ++ w1 ++ 61 :: rest).drop (0 + cs.length + w1.length + 2) = rest := by
  have : c0 :: cs ++ w1 ++ 61 :: rest = (c0 :: cs ++ w1 ++ [61]) ++ rest := by simp
  rw [this]
  exact List.drop_left' (by simp; omega)

/-- C12: a missing value.  For every identifier and all runs `w1`, `w2` of
spaces and tabs, a buffer that begins `id w1 = w2` and goes on with an end of
line or ends there is refused with status 1 (`ENODATA`) and the record is
unchanged. -/
theorem missing_value (c0 : Nat) (cs w1 w2 tail : List Nat) (opts : options_t)
    (hstart : isvalididentifierstart c0 = true)
    (hcont : ∀ c ∈ cs, isvalididentifier c = true)
    (hw1 : ∀ c ∈ w1, c = 32 ∨ c = 9) (hw2 : ∀ c ∈ w2, c = 32 ∨ c = 9)
    (htail : tail = [] ∨ ∃ t, tail = 10 :: t) :
    parse_config_file (c0 :: cs ++ w1 ++ 61 :: (w2 ++ tail)) opts
      = .ret 1 (some .ENODATA) opts (cs.length + w1.length + w2.length + 3) := by
  apply parse_config_file_stop
  rw [line_assignment_ws _ opts 0 c0 cs w1 (w2 ++ tail) rfl hstart hcont
    (fun c hc => blank_of_space_tab c (hw1 c hc))]
  have hstop : (fun c => isspace c && !iseol c) (tail.headD 0) = false := by
    rcases htail with rfl | ⟨t, rfl⟩ <;> rfl
  have htw : ((c0 :: cs ++ w1 ++ 61 :: (w2 ++ tail)).drop (0 + cs.length + w1.length + 2)).takeWhile
      (fun c => isspace c && !iseol c) = w2 := by
    rw [drop_assignment]
    exact takeWhile_of_run _ w2 tail (fun c hc => blank_of_space_tab c (hw2 c hc)) hstop
  have hrd : rd (c0 :: cs ++ w1 ++ 61 :: (w2 ++ tail)) (0 + cs.length + w1.length + 2 + w2.length)
      = tail.headD 0 := by
    rw [← rd_drop, drop_assignment, ← Nat.add_zero w2.length, rd_append_length]
    cases tail <;> rfl
  rw [parse_value_missing _ _ _ _ (by
    rw [htw, hrd]
    rcases htail with rfl | ⟨t, rfl⟩
    · exact Or.inl rfl
    · exact Or.inr rfl), htw]
  simp only [Step.stop.injEq, Outcome.ret.injEq, true_and]
  omega

/-- Witness for C12 at the buffer `verbose \t= \t` followed by a newline and
more text. -/
theorem missing_value_witness :
    parse_config_file (bytes "verbose \t= \t\nx") ⟨0, 0, 0, []⟩
      = .ret 1 (some .ENODATA) ⟨0, 0, 0, []⟩ 13 :=
  missing_value 118 [101, 114, 98, 111, 115, 101] [32, 9] [32, 9] [10, 120] ⟨0, 0, 0, []⟩
    (by decide) (by decide) (by decide) (by decide) (Or.inr ⟨[120], rfl⟩)

/-- C11: an unterminated quote.  For every identifier, runs `w1`, `w2` of
spaces and tabs and text `t` without NUL in which every `"` immediately follows
a backslash, the buffer `id w1 = w2 "t` is refused with status 1 (`EINVAL`) and
the record is unchanged. -/
theorem unterminated_quote (c0 : Nat) (cs w1 w2 t : List Nat) (opts : options_t)
    (hstart : isvalididentifierstart c0 = true)
    (hcont : ∀ c ∈ cs, isvalididentifier c = true)
    (hw1 : ∀ c ∈ w1, c = 32 ∨ c = 9) (hw2 : ∀ c ∈ w2, c = 32 ∨ c = 9)
    (hnul : 0 ∉ t)
    (hq : ∀ pre post, t = pre ++ 34 :: post → pre.getLast? = some 92) :
    parse_config_file (c0 :: cs ++ w1 ++ 61 :: (w2 ++ 34 :: t)) opts
      = .ret 1 (some .EINVAL) opts (cs.length + w1.length + w2.length + t.length + 4) := by
  apply parse_config_file_stop
  rw [line_assignment_ws _ opts 0 c0 cs w1 (w2 ++ 34 :: t) rfl hstart hcont
    (fun c hc => blank_of_space_tab c (hw1 c hc))]
  generalize hdata : c0 :: cs ++ w1 ++ 61 :: (w2 ++ 34 :: t) = data
  have hdrop : data.drop (0 + cs.length + w1.length + 2) = w2 ++ 34 :: t := by
    rw [← hdata, drop_assignment]
  have htw : (data.drop (0 + cs.length + w1.length + 2)).takeWhile
      (fun c => isspace c && !iseol c) = w2 := by
    rw [hdrop]
    exact takeWhile_of_run _ w2 (34 :: t) (fun c hc => blank_of_space_tab c (hw2 c hc)) rfl
  have hrd : rd data (0 + cs.length + w1.length + 2 + w2.length) = 34 := by
    rw [← rd_drop, hdrop, ← Nat.add_zero w2.length, rd_append_length]
    rfl
  have hdt : data.drop (0 + cs.length + w1.length + 2 + w2.length + 1) = t := by
    have h1 := drop_drop_add data (0 + cs.length + w1.length + 2) (w2.length + 1)
    rw [hdrop] at h1
    have h2 : (w2 ++ 34 :: t).drop (w2.length + 1) = t := by
      have : w2 ++ 34 :: t = (w2 ++ [34]) ++ t := by simp
      rw [this]
      exact List.drop_left' (by simp)
    rw [h2] at h1
    rw [h1]
    congr 1
    omega
  have hlen : t.length < data.length + 1 := by
    rw [← hdata]
    simp
    omega
  have hq1 : ∀ pre post, t = pre ++ 34 :: post → (34 :: pre).getLast? = some 92 := by
    intro pre post e
    have h1 := hq pre post e
    cases pre with
    | nil => simp at h1
    | cons y ys => simpa [List.getLast?_cons_cons] using h1
  have hscan := scan_quoted_eof data t (data.length + 1) 34 _ hdt hlen hnul hq1
  rw [parse_value_closed data _ opts _ (0 + cs.length + w1.length + 2 + w2.length) _
    (by rw [htw]) rfl, hrd, if_neg (by decide), if_pos rfl, hscan]
  simp only [Step.stop.injEq, Outcome.ret.injEq, true_and]
  omega

/-- Witness for C11 at the buffer `k="abc`. -/
theorem unterminated_quote_witness :
    parse_config_file (bytes "k=\"abc") ⟨0, 0, 0, []⟩ = .ret 1 (some .EINVAL) ⟨0, 0, 0, []⟩ 7 :=
  unterminated_quote 107 [] [] [] [97, 98, 99] ⟨0, 0, 0, []⟩ (by decide) (by decide)
    (by decide) (by decide) (by decide)
    (by
      intro pre post h
      rcases pre with _ | ⟨a, _ | ⟨b, _ | ⟨c, t⟩⟩⟩ <;> simp at h)

/-! ## Blank text and comment lines -/

/-- C16: empty input.  On the empty buffer, and on every buffer made only of
spaces, tabs and newlines, `parse_config_file` returns 0 and the record is
unchanged. -/
theorem blank_buffer (data : List Nat) (opts : options_t)
    (h : ∀ c ∈ data, c = 32 ∨ c = 9 ∨ c = 10) :
    parse_config_file data opts = .ret 0 none opts (data.length + 1) := by
  apply parse_config_file_stop
  have htw : (data.drop 0).takeWhile isspace = data := by
    rw [List.drop_zero, List.takeWhile_eq_self_iff]
    intro c hc
    rcases h c hc with rfl | rfl | rfl <;> rfl
  rw [line_closed data opts 0 data.length _ _ _ (by rw [htw, Nat.zero_add]) rfl rfl rfl,
    if_pos (rd_of_length_le (Nat.le_refl _))]

/-- Witness for C16 at the empty buffer. -/
theorem blank_buffer_witness :
    parse_config_file [] ⟨0, 0, 0, []⟩ = .ret 0 none ⟨0, 0, 0, []⟩ 1 :=
  blank_buffer [] ⟨0, 0, 0, []⟩ (by simp)

/-- A comment line that ends with a newline hands over to the next pass just
after the newline, the record untouched. -/
theorem line_comment (data : List Nat) (opts : options_t) (cur : Nat) (t rest : List Nat)
    (hd : data.drop cur = 35 :: t ++ 10 :: rest) (ht : ∀ c ∈ t, c ≠ 10 ∧ c ≠ 0) :
    line data opts cur = .next opts (cur + t.length + 2) := by
  have hd0 : data.drop cur = 35 :: (t ++ 10 :: rest) := by simpa using hd
  have hd1 : data.drop (cur + 1) = t ++ 10 :: rest := drop_succ_of_drop_cons hd0
  have hp : (data.drop cur).takeWhile isspace = [] := by
    rw [hd0]
    rfl
  have hm : (data.drop (cur + 1)).takeWhile (fun c => c != 0 && !iseol c) = t := by
    rw [hd1]
    exact takeWhile_of_run _ t (10 :: rest)
      (fun c hc => by have := ht c hc; simp [iseol, this]) rfl
  have hr : rd data (cur + 1 + t.length) = 10 := by
    rw [← rd_drop, hd1, ← Nat.add_zero t.length, rd_append_length]
    rfl
  rw [line_closed data opts cur cur t.length _ _ (by rw [hp]; rfl) (by rw [hm]) rfl rfl,
    rd_of_drop_cons hd0, if_neg (by decide), if_pos rfl, hr, if_neg (by decide)]
  congr 1
  omega

/-- A comment that runs to the end of the input ends the parse with status 0. -/
theorem line_comment_eof (data : List Nat) (opts : options_t) (cur : Nat) (t : List Nat)
    (hd : data.drop cur = 35 :: t) (ht : ∀ c ∈ t, c ≠ 10 ∧ c ≠ 0) :
    line data opts cur = .stop (.ret 0 none opts (cur + t.length + 2)) := by
  have hd1 : data.drop (cur + 1) = t := drop_succ_of_drop_cons hd
  have hp : (data.drop cur).takeWhile isspace = [] := by
    rw [hd]
    rfl
  have hm : (data.drop (cur + 1)).takeWhile (fun c => c != 0 && !iseol c) = t := by
    rw [hd1]
    have := takeWhile_of_run (fun c => c != 0 && !iseol c) t []
      (fun c hc => by have := ht c hc; simp [iseol, this]) rfl
    simpa using this
  have hr : rd data (cur + 1 + t.length) = 0 := by
    rw [← rd_drop, hd1]
    exact rd_of_length_le (Nat.le_refl _)
  rw [line_closed data opts cur cur t.length _ _ (by rw [hp]; rfl) (by rw [hm]) rfl rfl,
    rd_of_drop_cons hd, if_neg (by decide), if_pos rfl, hr, if_pos rfl]
  congr 2
  omega

/-- C13: a comment line is a no-op.  For every comment text `t` without newline
and NUL and every buffer `b`, parsing `#t` newline `b` gives what parsing `b`
gives (the same status, `errno` and final record), the cursor being
`t.length + 2` bytes further; and parsing `#t` alone returns 0 and leaves the
record unchanged. -/
theorem comment_line_noop (t b : List Nat) (opts : options_t)
    (ht : ∀ c ∈ t, c ≠ 10 ∧ c ≠ 0) :
    parse_config_file (35 :: t ++ 10 :: b) opts = (parse_config_file b opts).shift (t.length + 2)
      ∧ parse_config_file (35 :: t) opts = .ret 0 none opts (t.length + 2) := by
  constructor
  · have hl := line_comment (35 :: t ++ 10 :: b) opts 0 t b rfl ht
    rw [parse_config_file_next _ _ _ _ hl]
    have : (35 :: t ++ 10 :: b).drop (0 + t.length + 2) = b := by
      have e : 35 :: t ++ 10 :: b = (35 :: t ++ [10]) ++ b := by simp
      rw [e]
      exact List.drop_left' (by simp)
    rw [this, Nat.zero_add]
  · apply parse_config_file_stop
    have := line_comment_eof (35 :: t) opts 0 t rfl ht
    rw [this, Nat.zero_add]

/-- Witness for C13 at the comment `# c` before the line `verbose=1`. -/
theorem comment_line_noop_witness :
    parse_config_file (bytes "# c\nverbose=1\n") ⟨0, 0, 0, []⟩
        = (parse_config_file (bytes "verbose=1\n") ⟨0, 0, 0, []⟩).shift 4
      ∧ parse_config_file (bytes "# c") ⟨0, 0, 0, []⟩ = .ret 0 none ⟨0, 0, 0, []⟩ 4 :=
  comment_line_noop [32, 99] (bytes "verbose=1\n") ⟨0, 0, 0, []⟩ (by decide)

/-! ## Leading whitespace -/

theorem takeWhile_drop_takeWhile (p : Nat → Bool) (l : List Nat) :
    (l.drop (l.takeWhile p).length).takeWhile p = [] := by
  induction l with
  | nil => rfl
  | cons x xs ih =>
    by_cases hx : p x = true
    · simpa [List.takeWhile_cons, hx] using ih
    · simp [List.takeWhile_cons, hx]

/-- The whitespace at the start of a pass is skipped: the pass does what it
does when entered at the first byte that is not whitespace. -/
theorem line_skip (data : List Nat) (opts : options_t) (cur : Nat) :
    line data opts cur = line data opts (cur + ((data.drop cur).takeWhile isspace).length) := by
  have h : (data.drop (cur + ((data.drop cur).takeWhile isspace).length)).takeWhile isspace
      = [] := by
    rw [Nat.add_comm, ← drop_drop_add]
    exact takeWhile_drop_takeWhile isspace (data.drop cur)
  rw [line_closed data opts cur _ _ _ _ rfl rfl rfl rfl,
    line_closed data opts (cur + ((data.drop cur).takeWhile isspace).length)
      (cur + ((data.drop cur).takeWhile isspace).length) _ _ _ (by rw [h]; rfl) rfl rfl rfl]

theorem Outcome.shift_shift (out : Outcome) (a b : Nat) :
    (out.shift a).shift b = out.shift (a + b) := by
  cases out <;> simp [Outcome.shift, Nat.add_assoc]

theorem Outcome.shift_zero (out : Outcome) : out.shift 0 = out := by
  cases out <;> rfl

/-- Two buffers of which one is the rest of the other: when the first pass on
the longer does what the first pass on the shorter does, so does the call. -/
theorem parse_config_file_congr (data D : List Nat) (opts : options_t) (a : Nat)
    (hD : data.drop a = D) (h : line data opts 0 = (line D opts 0).shift a) :
    parse_config_file data opts = (parse_config_file D opts).shift a := by
  cases hl : line D opts 0 with
  | stop out =>
    rw [hl] at h
    rw [parse_config_file_stop D opts out hl, parse_config_file_stop data opts _ h]
  | next o c =>
    rw [hl] at h
    rw [parse_config_file_next D opts o c hl, parse_config_file_next data opts o (c + a) h,
      Outcome.shift_shift, ← hD, drop_drop_add]

/-- Whitespace before the first line, newlines and carriage returns included,
changes nothing but the cursor. -/
theorem parse_config_file_skip (ws b : List Nat) (opts : options_t)
    (hws : ∀ c ∈ ws, isspace c = true) :
    parse_config_file (ws ++ b) opts = (parse_config_file b opts).shift ws.length := by
  apply parse_config_file_congr _ _ _ _ (List.drop_left ws b)
  have h1 := line_skip (ws ++ b) opts 0
  have h2 := line_skip b opts 0
  have htw : ((ws ++ b).drop 0).takeWhile isspace = ws ++ (b.drop 0).takeWhile isspace := by
    simp only [List.drop_zero]
    exact List.takeWhile_append_of_pos hws
  rw [htw, List.length_append, Nat.zero_add, Nat.add_comm, line_shift, List.drop_left] at h1
  rw [h1, h2, Nat.zero_add]

/-! ## Carriage returns -/

theorem Step.shift_twice (st : Step) (a b : Nat) : (st.shift a).shift b = st.shift (a + b) := by
  cases st <;> simp [Step.shift, Outcome.shift_shift, Nat.add_assoc]

/-- C15, as stated, fails: a carriage return between the identifier and the
`=`, or before the identifier, is skipped as whitespace.  `verbose\r=1` and
`\rverbose=1` (each with a closing newline) are accepted with status 0 and set
`verbose` to 1. -/
theorem carriage_return_accepted :
    parse_config_file (bytes "verbose\r=1\n") ⟨0, 0, 0, []⟩ = .ret 0 none ⟨0, 0, 1, []⟩ 12
      ∧ parse_config_file (bytes "\rverbose=1\n") ⟨0, 0, 0, []⟩ = .ret 0 none ⟨0, 0, 1, []⟩ 12 := by
  decide

/-- C15, amended: whitespace is what `isspace` accepts, a carriage return
included.  For every identifier `k` and every text `rest`, the buffer
`k \r = rest` is parsed as `k = rest` is, and for every buffer `b`, `\r b` is
parsed as `b` is: the same status, the same `errno`, the same final record,
the cursor one byte further. -/
theorem carriage_return_is_whitespace (c0 : Nat) (cs rest b : List Nat) (opts : options_t)
    (hstart : isvalididentifierstart c0 = true)
    (hcont : ∀ c ∈ cs, isvalididentifier c = true) :
    parse_config_file (c0 :: cs ++ 13 :: 61 :: rest) opts
        = (parse_config_file (c0 :: cs ++ 61 :: rest) opts).shift 1
      ∧ parse_config_file (13 :: b) opts = (parse_config_file b opts).shift 1 := by
  constructor
  · have h1 := line_assignment_ws (c0 :: cs ++ 13 :: 61 :: rest) opts 0 c0 cs [13] rest
      (by simp) hstart hcont (by decide)
    have h2 := line_assignment_ws (c0 :: cs ++ 61 :: rest) opts 0 c0 cs [] rest
      (by simp) hstart hcont (by simp)
    have d1 : (c0 :: cs ++ 13 :: 61 :: rest).drop (cs.length + 2) = 61 :: rest := by
      have : c0 :: cs ++ 13 :: 61 :: rest = (c0 :: cs ++ [13]) ++ 61 :: rest := by simp
      rw [this]
      exact List.drop_left' (by simp)
    have d2 : (c0 :: cs ++ 61 :: rest).drop (cs.length + 1) = 61 :: rest := by
      have : c0 :: cs ++ 61 :: rest = (c0 :: cs) ++ 61 :: rest := by simp
      rw [this]
      exact List.drop_left' (by simp)
    have e1 : 0 + cs.length + [13].length + 2 = 1 + (cs.length + 2) := by simp; omega
    have e2 : 0 + cs.length + ([] : List Nat).length + 2 = 1 + (cs.length + 1) := by simp; omega
    rw [e1, parse_value_shift _ _ _ 1 _ (Nat.le_refl 1), d1] at h1
    rw [e2, parse_value_shift _ _ _ 1 _ (Nat.le_refl 1), d2] at h2
    cases hX : parse_value (61 :: rest) (c0 :: cs ++ [0]) opts 1 with
    | stop out =>
      rw [hX] at h1 h2
      rw [parse_config_file_stop _ _ _ h1, parse_config_file_stop _ _ _ h2, Outcome.shift_shift]
    | next o c =>
      rw [hX] at h1 h2
      rw [parse_config_file_next _ _ _ _ h1, parse_config_file_next _ _ _ _ h2,
        Outcome.shift_shift, ← drop_drop_add _ (cs.length + 2) c,
        ← drop_drop_add _ (cs.length + 1) c, d1, d2]
      congr 1
  · exact parse_config_file_skip [13] b opts (by decide)

/-- Witness for the amended C15 at `verbose\r=1` and `\rverbose=1`. -/
theorem carriage_return_is_whitespace_witness :
    parse_config_file (bytes "verbose\r=1\n") ⟨0, 0, 0, []⟩
        = (parse_config_file (bytes "verbose=1\n") ⟨0, 0, 0, []⟩).shift 1
      ∧ parse_config_file (bytes "\rverbose=1\n") ⟨0, 0, 0, []⟩
        = (parse_config_file (bytes "verbose=1\n") ⟨0, 0, 0, []⟩).shift 1 :=
  carriage_return_is_whitespace 118 [101, 114, 98, 111, 115, 101] [49, 10]
    (bytes "verbose=1\n") ⟨0, 0, 0, []⟩ (by decide) (by decide)

/-! ## A pass that ends inside a prefix of the buffer -/

theorem takeWhile_append_of_exists (q : Nat → Bool) (X Y : List Nat)
    (h : ∃ x ∈ X, q x = false) : (X ++ Y).takeWhile q = X.takeWhile q := by
  induction X with
  | nil => simp at h
  | cons x xs ih =>
    by_cases hx : q x = true
    · obtain ⟨y, hy, hq⟩ := h
      rcases List.mem_cons.1 hy with rfl | hy
      · rw [hx] at hq; exact absurd hq (by decide)
      · simp [List.takeWhile_cons, hx, ih ⟨y, hy, hq⟩]
    · simp [List.takeWhile_cons, hx]

theorem takeWhile_length_lt (q : Nat → Bool) (X : List Nat) (h : ∃ x ∈ X, q x = false) :
    (X.takeWhile q).length < X.length := by
  induction X with
  | nil => simp at h
  | cons x xs ih =>
    by_cases hx : q x = true
    · obtain ⟨y, hy, hq⟩ := h
      rcases List.mem_cons.1 hy with rfl | hy
      · rw [hx] at hq; exact absurd hq (by decide)
      · have := ih ⟨y, hy, hq⟩
        simp [List.takeWhile_cons, hx, this]
    · simp [List.takeWhile_cons, hx]

theorem rd_mem {X : List Nat} {k : Nat} (h : k < X.length) : rd X k ∈ X := by
  unfold rd
  rw [List.getD_eq_getElem _ _ h]
  exact List.getElem_mem h

theorem rd_append_lt (X Y : List Nat) (i : Nat) (h : i < X.length) : rd (X ++ Y) i = rd X i := by
  unfold rd
  exact List.getD_append X Y 0 i h

theorem rd_last {X : List Nat} {z : Nat} (h : X.getLast? = some z) : rd X (X.length - 1) = z := by
  obtain ⟨ys, rfl⟩ := List.getLast?_eq_some_iff.1 h
  have : (ys ++ [z]).length - 1 = ys.length + 0 := by simp
  rw [this, rd_append_length]
  rfl

/-- In a buffer that ends with a newline, a scanning loop that does not go
over a newline stops inside the buffer, and text appended to the buffer does
not change where. -/
theorem takeWhile_prefix_eol (q : Nat → Bool) (hq : q 10 = false) (b1 b2 : List Nat)
    (hlast : b1.getLast? = some 10) (i : Nat) (hi : i < b1.length) :
    ((b1 ++ b2).drop i).takeWhile q = (b1.drop i).takeWhile q
      ∧ i + ((b1.drop i).takeWhile q).length < b1.length := by
  have hmem : ∃ x ∈ b1.drop i, q x = false := by
    refine ⟨10, ?_, hq⟩
    apply List.mem_of_getLast?_eq_some
    rw [List.getLast?_drop, if_neg (by omega), hlast]
  constructor
  · rw [List.drop_append_of_le_length (by omega)]
    exact takeWhile_append_of_exists q _ _ hmem
  · have := takeWhile_length_lt q _ hmem
    rw [List.length_drop] at this
    omega

theorem strncpy_append_left (X Y : List Nat) :
    ∀ k, k ≤ X.length → strncpy (X ++ Y) k = strncpy X k := by
  induction X with
  | nil =>
    intro k hk
    have : k = 0 := by simpa using hk
    subst this
    simp [strncpy]
  | cons x xs ih =>
    intro k hk
    cases k with
    | zero => simp [strncpy]
    | succ k =>
      have := ih k (by simpa using hk)
      simp only [List.cons_append, strncpy]
      split_ifs
      · rfl
      · exact congrArg (x :: ·) this

theorem token_append_left (b1 b2 : List Nat) (i len : Nat) (h : i + len ≤ b1.length) :
    token (b1 ++ b2) i len = token b1 i len := by
  unfold token
  rw [List.drop_append_of_le_length (by omega),
    strncpy_append_left _ _ _ (by rw [List.length_drop]; omega)]

theorem materialise_value_append_left (b1 b2 id_tmp : List Nat) (opts : options_t)
    (val_start val_end cur : Nat) (h : val_end < b1.length) :
    materialise_value (b1 ++ b2) id_tmp val_start val_end opts cur
      = materialise_value b1 id_tmp val_start val_end opts cur := by
  unfold materialise_value
  by_cases hlt : token_len val_start val_end < 1
  · simp only [hlt, if_true]
  · simp only [hlt, if_false]
    have hle : (token_len val_start val_end).toNat + val_start ≤ b1.length := by
      unfold token_len at hlt ⊢
      omega
    rw [token_append_left _ _ _ _ (by omega)]

/-- A closing quote found in the buffer is found at the same place when text
is appended to the buffer. -/
theorem scan_quoted_append_left (b1 b2 : List Nat) :
    ∀ (fuel d c i c' e : Nat), scan_quoted b1 fuel c i = some (c', some e) →
      scan_quoted (b1 ++ b2) (fuel + d) c i = some (c', some e) := by
  intro fuel
  induction fuel with
  | zero => intro d c i c' e h; simp [scan_quoted] at h
  | succ fuel ih =>
    intro d c i c' e h
    rw [Nat.add_right_comm, scan_quoted]
    rw [scan_quoted] at h
    by_cases h0 : rd b1 i = 0
    · simp [h0] at h
    · have hi := lt_length_of_rd_ne_zero h0
      rw [rd_append_lt _ _ _ hi]
      by_cases hq : rd b1 i = 34 ∧ c ≠ 92
      · have hc : c ≠ 92 := hq.2
        simp only [hq.1] at h ⊢
        simpa [hc] using h
      · simp only [h0, hq, if_false] at h ⊢
        exact ih d _ _ _ _ h

/-- In a buffer that ends with a newline, the value part of a pass either
leaves the loop or does the same when text is appended to the buffer. -/
theorem parse_value_prefix (b1 b2 id_tmp : List Nat) (opts : options_t) (cur : Nat)
    (hlast : b1.getLast? = some 10) :
    (∃ out, parse_value b1 id_tmp opts cur = .stop out)
      ∨ parse_value (b1 ++ b2) id_tmp opts cur = parse_value b1 id_tmp opts cur := by
  by_cases hcur : cur < b1.length
  · obtain ⟨hj1, hj2⟩ := takeWhile_prefix_eol (fun c => isspace c && !iseol c) rfl b1 b2 hlast
      cur hcur
    generalize hj : cur + ((b1.drop cur).takeWhile (fun c => isspace c && !iseol c)).length = j
      at hj2
    obtain ⟨hr1, hr2⟩ := takeWhile_prefix_eol (fun c => c != 0 && !iseol c && c != 35) rfl b1 b2
      hlast j hj2
    generalize hr : ((b1.drop j).takeWhile (fun c => c != 0 && !iseol c && c != 35)).length = r
      at hr2
    rw [parse_value_closed b1 id_tmp opts cur j r hj.symm hr.symm,
      parse_value_closed (b1 ++ b2) id_tmp opts cur j r (by rw [hj1, hj]) (by rw [hr1, hr]),
      rd_append_lt _ _ _ hj2, rd_append_lt _ _ _ hr2]
    by_cases h1 : rd b1 j = 0 ∨ rd b1 j = 10
    · rw [if_pos h1]
      exact Or.inl ⟨_, rfl⟩
    rw [if_neg h1, if_neg h1]
    by_cases h2 : rd b1 j = 34
    · rw [if_pos h2, if_pos h2]
      obtain ⟨c', ve, hs, -, hve⟩ := scan_quoted_total b1 (b1.length + 1) 34 (j + 1)
        (by omega) (by omega)
      cases ve with
      | none =>
        rw [hs]
        exact Or.inl ⟨_, rfl⟩
      | some e =>
        obtain ⟨-, hq⟩ := hve e rfl
        have hel : e < b1.length := lt_length_of_rd_ne_zero (by rw [hq]; decide)
        have hs2 := scan_quoted_append_left b1 b2 _ b2.length _ _ _ _ hs
        have hfuel : (b1 ++ b2).length + 1 = b1.length + 1 + b2.length := by
          rw [List.length_append]
          omega
        rw [hfuel, hs, hs2]
        exact Or.inr (materialise_value_append_left _ _ _ _ _ _ _ hel)
    rw [if_neg h2, if_neg h2]
    right
    split_ifs
    · exact materialise_value_append_left _ _ _ _ _ _ _ (by omega)
    · exact materialise_value_append_left _ _ _ _ _ _ _ (by omega)
  · left
    have hd : b1.drop cur = [] := List.drop_eq_nil_of_le (by omega)
    rw [parse_value_closed b1 id_tmp opts cur cur _ (by rw [hd]; rfl) rfl,
      if_pos (Or.inl (rd_of_length_le (by omega)))]
    exact ⟨_, rfl⟩

/-- In a buffer that ends with a newline, a pass either leaves the loop or
does the same when text is appended to the buffer. -/
theorem line_prefix (b1 b2 : List Nat) (opts : options_t) (cur : Nat)
    (hlast : b1.getLast? = some 10) :
    (∃ out, line b1 opts cur = .stop out)
      ∨ line (b1 ++ b2) opts cur = line b1 opts cur := by
  have hl10 : rd b1 (b1.length - 1) = 10 := rd_last hlast
  generalize hp : cur + ((b1.drop cur).takeWhile isspace).length = p
  by_cases h0 : rd b1 p = 0
  · left
    rw [line_closed b1 opts cur p _ _ _ hp.symm rfl rfl rfl, if_pos h0]
    exact ⟨_, rfl⟩
  have hpl : p < b1.length := lt_length_of_rd_ne_zero h0
  have hcur : cur ≤ b1.length := by omega
  -- the whitespace skipped at the start of the pass ends inside the buffer
  have hpw : ((b1 ++ b2).drop cur).takeWhile isspace = (b1.drop cur).takeWhile isspace := by
    rw [List.drop_append_of_le_length hcur]
    apply takeWhile_append_of_exists
    have hk : ((b1.drop cur).takeWhile isspace).length < (b1.drop cur).length := by
      rw [List.length_drop]
      omega
    refine ⟨rd (b1.drop cur) ((b1.drop cur).takeWhile isspace).length, rd_mem hk, ?_⟩
    exact stop_byte_fails isspace rfl _
  by_cases h35 : rd b1 p = 35
  · have hp1 : p + 1 < b1.length := by
      by_contra hn
      have : p = b1.length - 1 := by omega
      rw [this, hl10] at h35
      exact absurd h35 (by decide)
    obtain ⟨hm1, hm2⟩ := takeWhile_prefix_eol (fun c => c != 0 && !iseol c) rfl b1 b2 hlast
      (p + 1) hp1
    right
    rw [line_closed b1 opts cur p _ _ _ hp.symm rfl rfl rfl,
      line_closed (b1 ++ b2) opts cur p _ _ _ (by rw [hpw, hp]) (congrArg List.length hm1.symm)
        rfl rfl,
      rd_append_lt _ _ _ hpl, rd_append_lt _ _ _ hm2, if_neg h0, if_neg h0, if_pos h35,
      if_pos h35]
  by_cases hst : isvalididentifierstart (rd b1 p) = false
  · left
    rw [line_closed b1 opts cur p _ _ _ hp.symm rfl rfl rfl, if_neg h0, if_neg h35, if_pos hst]
    exact ⟨_, rfl⟩
  have hp1 : p + 1 < b1.length := by
    by_contra hn
    have : p = b1.length - 1 := by omega
    rw [this, hl10] at hst
    exact hst rfl
  obtain ⟨hn1, hn2⟩ := takeWhile_prefix_eol isvalididentifier rfl b1 b2 hlast (p + 1) hp1
  generalize hn : ((b1.drop (p + 1)).takeWhile isvalididentifier).length = n at hn2
  obtain ⟨hw1, hw2⟩ := takeWhile_prefix_eol (fun c => isspace c && !iseol c) rfl b1 b2 hlast
    (p + 1 + n) hn2
  generalize hw : ((b1.drop (p + 1 + n)).takeWhile (fun c => isspace c && !iseol c)).length = w
    at hw2
  rw [line_closed b1 opts cur p _ n w hp.symm rfl hn.symm hw.symm,
    line_closed (b1 ++ b2) opts cur p _ n w (by rw [hpw, hp]) rfl (by rw [hn1, hn])
      (by rw [hw1, hw]),
    rd_append_lt _ _ _ hpl, rd_append_lt _ _ _ hn2, rd_append_lt _ _ _ hw2, if_neg h0,
    if_neg h0, if_neg h35, if_neg h35, if_neg hst, if_neg hst,
    token_append_left _ _ _ _ (by omega)]
  by_cases h4 : rd b1 (p + 1 + n) = 0
      ∨ (isspace (rd b1 (p + 1 + n)) = false ∧ rd b1 (p + 1 + n) ≠ 61)
  · rw [if_pos h4]
    exact Or.inl ⟨_, rfl⟩
  rw [if_neg h4, if_neg h4]
  by_cases h5 : rd b1 (p + 1 + n + w) ≠ 61
  · rw [if_pos h5]
    exact Or.inl ⟨_, rfl⟩
  rw [if_neg h5, if_neg h5]
  exact parse_value_prefix b1 b2 _ opts _ hlast

/-! ## Lines compose -/

/-- A pass returns status 0 only at the terminator: after the whitespace at
the start of a line, or at the end of a comment. -/
theorem line_ret_zero (data : List Nat) (opts o : options_t) (cur c p m : Nat)
    (e : Option Errno)
    (hp : p = cur + ((data.drop cur).takeWhile isspace).length)
    (hm : m = ((data.drop (p + 1)).takeWhile (fun c => c != 0 && !iseol c)).length)
    (h : line data opts cur = .stop (.ret 0 e o c)) :
    rd data p = 0 ∨ (rd data p = 35 ∧ rd data (p + 1 + m) = 0) := by
  rw [line_closed data opts cur p m _ _ hp hm rfl rfl] at h
  by_cases h0 : rd data p = 0
  · exact Or.inl h0
  rw [if_neg h0] at h
  by_cases h35 : rd data p = 35
  · rw [if_pos h35] at h
    by_cases hz : rd data (p + 1 + m) = 0
    · exact Or.inr ⟨h35, hz⟩
    · rw [if_neg hz] at h
      simp at h
  rw [if_neg h35] at h
  exfalso
  split_ifs at h
  · simp at h
  · simp at h
  · simp at h
  · rcases parse_value_spec data _ opts _ (by omega : 1 ≤ p + 1 + _ + _ + 1) with
      ⟨e1, c1, h1, -⟩ | ⟨c1, h1⟩ | ⟨val, c1, h1, -⟩
    · rw [h1] at h; simp at h
    · rw [h1] at h; simp at h
    · rw [h1] at h
      rcases dispatch_spec _ val opts c1 with ⟨o1, hd, -⟩ | ⟨e1, hd⟩
      · rw [hd] at h; simp at h
      · rw [hd] at h; simp at h

theorem Outcome.shift_eq_ret (out : Outcome) (n : Nat) (r : Int) (e : Option Errno)
    (o : options_t) (c : Nat) (h : out.shift n = .ret r e o c) :
    ∃ c1, out = .ret r e o c1 := by
  cases out with
  | ret r1 e1 o1 c1 =>
    simp only [Outcome.shift, Outcome.ret.injEq] at h
    obtain ⟨rfl, rfl, rfl, -⟩ := h
    exact ⟨c1, rfl⟩
  | fault o1 c1 => simp [Outcome.shift] at h
  | timeout => simp [Outcome.shift] at h

theorem parse_config_file_nil (opts : options_t) :
    parse_config_file [] opts = .ret 0 none opts 1 := rfl

/-- When a buffer that ends with a newline is accepted, the call on the buffer
followed by more text does on that text what it does on it alone, starting
from the record the buffer leaves. -/
theorem parse_config_file_append :
    ∀ (n : Nat) (b1 b2 : List Nat) (s s1 : options_t) (e : Option Errno) (c : Nat),
      b1.length = n → 0 ∉ b1 → b1.getLast? = some 10 →
      parse_config_file b1 s = .ret 0 e s1 c →
      parse_config_file (b1 ++ b2) s = (parse_config_file b2 s1).shift b1.length := by
  intro n
  induction n using Nat.strong_induction_on with
  | _ n ih =>
    intro b1 b2 s s1 e c hn hnul hlast h
    have hl10 : rd b1 (b1.length - 1) = 10 := rd_last hlast
    have hpos : 0 < b1.length := by
      cases b1 with
      | nil => simp at hlast
      | cons x xs => simp
    cases hl : line b1 s 0 with
    | stop out =>
      rw [parse_config_file_stop b1 s out hl] at h
      subst h
      -- the pass ended at the terminator: the buffer is whitespace only
      have hs1 : s1 = s := by
        rcases line_stop b1 s 0 _ hl with ⟨r, e1, c1, h1, -⟩ | ⟨c1, h1⟩
        · simp only [Outcome.ret.injEq] at h1
          exact h1.2.2.1
        · simp at h1
      subst hs1
      have hz : ∀ i, rd b1 i = 0 → b1.length ≤ i := by
        intro i hi
        by_contra hlt
        exact hnul (hi ▸ rd_mem (Nat.lt_of_not_le hlt))
      have hle := (List.takeWhile_sublist isspace (l := b1.drop 0)).length_le
      rw [List.drop_zero] at hle
      rcases line_ret_zero b1 s1 s1 0 c _ _ e rfl rfl hl with h0 | ⟨h35, h0⟩
      · have hall : (b1.drop 0).takeWhile isspace = b1 := by
          have := hz _ h0
          rw [List.drop_zero] at this ⊢
          exact (List.takeWhile_sublist isspace).eq_of_length_le (by omega)
        rw [List.drop_zero, List.takeWhile_eq_self_iff] at hall
        exact parse_config_file_skip b1 b2 s1 hall
      · exfalso
        generalize hp : 0 + ((b1.drop 0).takeWhile isspace).length = p at h35 h0
        have hpl : p < b1.length := lt_length_of_rd_ne_zero (by rw [h35]; decide)
        have hp1 : p + 1 < b1.length := by
          by_contra hn'
          have : p = b1.length - 1 := by omega
          rw [this, hl10] at h35
          exact absurd h35 (by decide)
        have := (takeWhile_prefix_eol (fun c => c != 0 && !iseol c) rfl b1 [] hlast (p + 1)
          hp1).2
        have := hz _ h0
        omega
    | next o c1 =>
      obtain ⟨hc0, hcl, -⟩ := line_next b1 s o 0 c1 hl
      rw [parse_config_file_next b1 s o c1 hl] at h
      obtain ⟨c2, h2⟩ := Outcome.shift_eq_ret _ _ _ _ _ _ h
      have hl2 : line (b1 ++ b2) s 0 = .next o c1 := by
        rcases line_prefix b1 b2 s 0 hlast with ⟨out, ho⟩ | heq
        · rw [ho] at hl; simp at hl
        · rw [heq, hl]
      rw [parse_config_file_next (b1 ++ b2) s o c1 hl2, List.drop_append_of_le_length hcl]
      by_cases hc : c1 < b1.length
      · have := ih (b1.drop c1).length (by rw [List.length_drop]; omega) (b1.drop c1) b2 o s1 e c2
          rfl (fun hm => hnul (List.mem_of_mem_drop hm))
          (by rw [List.getLast?_drop, if_neg (by omega), hlast]) h2
        rw [this, Outcome.shift_shift, List.length_drop]
        congr 1
        omega
      · have hd : b1.drop c1 = [] := List.drop_eq_nil_of_le (by omega)
        rw [hd, parse_config_file_nil] at h2
        simp only [Outcome.ret.injEq] at h2
        obtain ⟨-, -, rfl, -⟩ := h2
        rw [hd, List.nil_append]
        congr 1
        omega

/-- C19: lines compose.  For every buffer `b1` (no NUL inside) that ends with a
newline and that `parse_config_file` accepts from record `s`, with status 0 and
resulting record `s1`, and every buffer `b2`, parsing `b1` followed by `b2`
from `s` gives what parsing `b2` from `s1` gives: the same status, the same
`errno`, the same final record, the cursor being `b1.length` bytes further. -/
theorem lines_compose (b1 b2 : List Nat) (s s1 : options_t) (e : Option Errno) (c : Nat)
    (hnul : 0 ∉ b1) (hlast : b1.getLast? = some 10)
    (h : parse_config_file b1 s = .ret 0 e s1 c) :
    parse_config_file (b1 ++ b2) s = (parse_config_file b2 s1).shift b1.length :=
  parse_config_file_append b1.length b1 b2 s s1 e c rfl hnul hlast h

/-- Witness for C19 at `verbose=1` followed by `daemonize=n`, each with its
newline. -/
theorem lines_compose_witness :
    parse_config_file (bytes "verbose=1\n" ++ bytes "daemonize=n\n") ⟨0, 7, 0, []⟩
      = (parse_config_file (bytes "daemonize=n\n") ⟨0, 7, 1, []⟩).shift
          (bytes "verbose=1\n").length :=
  lines_compose (bytes "verbose=1\n") (bytes "daemonize=n\n") ⟨0, 7, 0, []⟩ ⟨0, 7, 1, []⟩
    none 11 (by decide) (by decide) (by decide)

/-- C20: a token length of zero.  On `syslog_ident=#x` the value span is empty,
`val_len = val_end - val_start + 1` is 0 and the terminator store
`val_tmp[val_len - 1] = 0` falls outside the token buffer; the same happens on
`verbose= #` and on `k=#`. -/
theorem value_length_zero (opts : options_t) :
    parse_config_file (bytes "syslog_ident=#x") opts = .fault opts 13
      ∧ parse_config_file (bytes "verbose= #") opts = .fault opts 9
      ∧ parse_config_file (bytes "k=#") opts = .fault opts 2
      ∧ token_len 13 12 = 0 :=
  ⟨rfl, rfl, rfl, rfl⟩

/-! ## Assignment lines with their value -/

theorem drop_after_eq (data : List Nat) (cur c0 : Nat) (cs w1 tail : List Nat)
    (hd : data.drop cur = c0 :: cs ++ w1 ++ 61 :: tail) :
    data.drop (cur + cs.length + w1.length + 2) = tail := by
  have h1 := drop_drop_add data cur (cs.length + w1.length + 2)
  rw [hd] at h1
  have h2 : (c0 :: cs ++ w1 ++ 61 :: tail).drop (cs.length + w1.length + 2) = tail := by
    have : c0 :: cs ++ w1 ++ 61 :: tail = (c0 :: cs ++ w1 ++ [61]) ++ tail := by simp
    rw [this]
    exact List.drop_left' (by simp; omega)
  rw [h2] at h1
  rw [h1]
  congr 1
  omega

theorem drop_append_drop (data : List Nat) (n : Nat) (xs tail : List Nat)
    (hd : data.drop n = xs ++ tail) : data.drop (n + xs.length) = tail := by
  have h1 := drop_drop_add data n xs.length
  rw [hd, List.drop_left] at h1
  rw [Nat.add_comm]
  exact h1.symm

theorem rd_of_drop_append (data : List Nat) (n : Nat) (xs tail : List Nat)
    (hd : data.drop n = xs ++ tail) : rd data (n + xs.length) = tail.headD 0 := by
  have := drop_append_drop data n xs tail hd
  cases tail with
  | nil => exact rd_of_drop_nil this
  | cons y ys => exact rd_of_drop_cons this

/-- An assignment line with an unquoted value that ends at a newline: the
pair dispatched is the identifier and the whole value, the cursor ends just
after the newline. -/
theorem line_unquoted_eol (data : List Nat) (opts : options_t) (cur c0 : Nat)
    (cs w1 w2 v rest : List Nat)
    (hd : data.drop cur = c0 :: cs ++ w1 ++ 61 :: (w2 ++ (v ++ 10 :: rest)))
    (hstart : isvalididentifierstart c0 = true)
    (hcont : ∀ c ∈ cs, isvalididentifier c = true)
    (hw1 : ∀ c ∈ w1, c = 32 ∨ c = 9) (hw2 : ∀ c ∈ w2, c = 32 ∨ c = 9)
    (hne : v ≠ []) (hrun : ∀ c ∈ v, c ≠ 0 ∧ c ≠ 10 ∧ c ≠ 35)
    (hsp : isspace (v.headD 0) = false) (hq : v.headD 0 ≠ 34) :
    line data opts cur = dispatch (c0 :: cs ++ [0]) (v ++ [0]) opts
      (cur + cs.length + w1.length + w2.length + v.length + 3) := by
  rw [line_assignment_ws data opts cur c0 cs w1 _ hd hstart hcont
    (fun c hc => blank_of_space_tab c (hw1 c hc))]
  have hdrop := drop_after_eq data cur c0 cs w1 _ hd
  obtain ⟨x, xs, rfl⟩ : ∃ x xs, v = x :: xs := List.exists_cons_of_ne_nil hne
  simp only [List.headD_cons] at hsp hq
  have hx := hrun x (by simp)
  have hstopw : (fun c => isspace c && !iseol c) ((x :: xs ++ 10 :: rest).headD 0) = false := by
    simp [hsp]
  have htw : (data.drop (cur + cs.length + w1.length + 2)).takeWhile
      (fun c => isspace c && !iseol c) = w2 := by
    rw [hdrop]
    exact takeWhile_of_run _ w2 _ (fun c hc => blank_of_space_tab c (hw2 c hc)) hstopw
  have hdj := drop_append_drop data _ w2 _ hdrop
  have hrun2 : (data.drop (cur + cs.length + w1.length + 2 + w2.length)).takeWhile
      (fun c => c != 0 && !iseol c && c != 35) = x :: xs := by
    rw [hdj]
    exact takeWhile_of_run _ (x :: xs) (10 :: rest)
      (fun c hc => by have := hrun c hc; simp [iseol, this]) rfl
  have hrj : rd data (cur + cs.length + w1.length + 2 + w2.length) = x := by
    have := rd_of_drop_append data _ w2 _ hdrop
    simpa using this
  have hstop : rd data (cur + cs.length + w1.length + 2 + w2.length + (x :: xs).length) = 10 := by
    have := rd_of_drop_append data _ (x :: xs) _ hdj
    simpa using this
  rw [parse_value_unquoted data _ opts _ (cur + cs.length + w1.length + 2 + w2.length) (x :: xs)
    (by rw [htw]) hrun2.symm (by rw [hrj]; exact hx.1) (by rw [hrj]; exact hx.2.1)
    (by rw [hrj]; exact hq) (by rw [hrj]; exact hx.2.2),
    if_neg (by rw [hstop]; decide)]
  congr 1
  omega

/-- An assignment line with an unquoted value that runs to the end of the
input: the value dispatched has lost its last byte, the cursor ends on the
terminator. -/
theorem line_unquoted_eof (data : List Nat) (opts : options_t) (cur c0 : Nat)
    (cs w1 w2 v : List Nat)
    (hd : data.drop cur = c0 :: cs ++ w1 ++ 61 :: (w2 ++ v))
    (hstart : isvalididentifierstart c0 = true)
    (hcont : ∀ c ∈ cs, isvalididentifier c = true)
    (hw1 : ∀ c ∈ w1, c = 32 ∨ c = 9) (hw2 : ∀ c ∈ w2, c = 32 ∨ c = 9)
    (hne : v ≠ []) (hrun : ∀ c ∈ v, c ≠ 0 ∧ c ≠ 10 ∧ c ≠ 35)
    (hsp : isspace (v.headD 0) = false) (hq : v.headD 0 ≠ 34) :
    line data opts cur = dispatch (c0 :: cs ++ [0]) (v.dropLast ++ [0]) opts
      (cur + cs.length + w1.length + w2.length + v.length + 2) := by
  rw [line_assignment_ws data opts cur c0 cs w1 _ hd hstart hcont
    (fun c hc => blank_of_space_tab c (hw1 c hc))]
  have hdrop := drop_after_eq data cur c0 cs w1 _ hd
  obtain ⟨x, xs, rfl⟩ : ∃ x xs, v = x :: xs := List.exists_cons_of_ne_nil hne
  simp only [List.headD_cons] at hsp hq
  have hx := hrun x (by simp)
  have hstopw : (fun c => isspace c && !iseol c) ((x :: xs).headD 0) = false := by
    simp [hsp]
  have htw : (data.drop (cur + cs.length + w1.length + 2)).takeWhile
      (fun c => isspace c && !iseol c) = w2 := by
    rw [hdrop]
    exact takeWhile_of_run _ w2 _ (fun c hc => blank_of_space_tab c (hw2 c hc)) hstopw
  have hdj := drop_append_drop data _ w2 _ hdrop
  have hdj' : data.drop (cur + cs.length + w1.length + 2 + w2.length) = (x :: xs) ++ [] := by
    rw [hdj, List.append_nil]
  have hrun2 : (data.drop (cur + cs.length + w1.length + 2 + w2.length)).takeWhile
      (fun c => c != 0 && !iseol c && c != 35) = x :: xs := by
    rw [hdj']
    exact takeWhile_of_run _ (x :: xs) []
      (fun c hc => by have := hrun c hc; simp [iseol, this]) rfl
  have hrj : rd data (cur + cs.length + w1.length + 2 + w2.length) = x := by
    have := rd_of_drop_append data _ w2 _ hdrop
    simpa using this
  have hstop : rd data (cur + cs.length + w1.length + 2 + w2.length + (x :: xs).length) = 0 := by
    have := rd_of_drop_append data _ (x :: xs) _ hdj'
    simpa using this
  rw [parse_value_unquoted data _ opts _ (cur + cs.length + w1.length + 2 + w2.length) (x :: xs)
    (by rw [htw]) hrun2.symm (by rw [hrj]; exact hx.1) (by rw [hrj]; exact hx.2.1)
    (by rw [hrj]; exact hq) (by rw [hrj]; exact hx.2.2),
    if_pos (by rw [hstop]; exact Or.inl rfl)]
  congr 1
  omega

/-- An assignment line with a quoted value: the pair dispatched is the
identifier and the bytes between the quotes, the cursor ends just after the
closing quote. -/
theorem line_quoted (data : List Nat) (opts : options_t) (cur c0 : Nat)
    (cs w1 w2 s rest : List Nat)
    (hd : data.drop cur = c0 :: cs ++ w1 ++ 61 :: (w2 ++ (34 :: s ++ 34 :: rest)))
    (hstart : isvalididentifierstart c0 = true)
    (hcont : ∀ c ∈ cs, isvalididentifier c = true)
    (hw1 : ∀ c ∈ w1, c = 32 ∨ c = 9) (hw2 : ∀ c ∈ w2, c = 32 ∨ c = 9)
    (hnul : 0 ∉ s)
    (hq : ∀ pre post, s = pre ++ 34 :: post → pre.getLast? = some 92)
    (hend : s.getLast? ≠ some 92) :
    line data opts cur = dispatch (c0 :: cs ++ [0]) (s ++ [0]) opts
      (cur + cs.length + w1.length + w2.length + s.length + 4) := by
  rw [line_assignment_ws data opts cur c0 cs w1 _ hd hstart hcont
    (fun c hc => blank_of_space_tab c (hw1 c hc))]
  have hdrop := drop_after_eq data cur c0 cs w1 _ hd
  have htw : (data.drop (cur + cs.length + w1.length + 2)).takeWhile
      (fun c => isspace c && !iseol c) = w2 := by
    rw [hdrop]
    exact takeWhile_of_run _ w2 _ (fun c hc => blank_of_space_tab c (hw2 c hc)) rfl
  have hdj := drop_append_drop data _ w2 _ hdrop
  have hdj0 : data.drop (cur + cs.length + w1.length + 2 + w2.length)
      = 34 :: (s ++ 34 :: rest) := by
    rw [hdj]
    simp
  rw [parse_value_quoted data _ opts _ (cur + cs.length + w1.length + 2 + w2.length) s rest
    (by rw [htw]) (rd_of_drop_cons hdj0) (drop_succ_of_drop_cons hdj0) hnul hq hend]
  congr 1
  omega

/-! ## Rejected lines -/

theorem strlen_append_nul : ∀ (v rest : List Nat), 0 ∉ v → strlen (v ++ 0 :: rest) = v.length
  | [], _, _ => by simp [strlen]
  | x :: xs, rest, h => by
    have hx : x ≠ 0 := fun e => h (by simp [e])
    have hxs : 0 ∉ xs := fun e => h (by simp [e])
    simp [strlen, hx, strlen_append_nul xs rest hxs]

/-- The terminator of a token and what follows it are not looked at. -/
theorem validate_boolean_terminated (v rest : List Nat) (hnul : 0 ∉ v) :
    validate_boolean (v ++ 0 :: rest) = validate_boolean v := by
  have h1 := strlen_append_nul v rest hnul
  have h2 := strlen_eq_length v hnul
  rcases v with _ | ⟨a, _ | ⟨b, _ | ⟨c, _ | ⟨d, _ | ⟨e, _ | ⟨f, t⟩⟩⟩⟩⟩⟩
  · rfl
  all_goals
    simp only [List.length_cons, List.length_nil, List.cons_append, List.nil_append] at h1 h2
    simp only [validate_boolean, h1, h2, List.cons_append, List.nil_append, rd_cons_zero,
      rd_cons_succ]

/-- A boolean setting refuses a value that `validate_boolean` finds invalid,
with `EINVAL`. -/
theorem dispatch_invalid_boolean (id val_tmp : List Nat) (opts : options_t) (cur : Nat)
    (hid : id = bytes "daemonize" ∨ id = bytes "verbose")
    (hval : validate_boolean val_tmp = -1) :
    dispatch (id ++ [0]) val_tmp opts cur = .stop (.ret 1 (some .EINVAL) opts cur) := by
  have m1 : identifier_matched lit_daemonize (bytes "daemonize" ++ [0]) = true := by decide
  have m2 : identifier_matched lit_daemonize (bytes "verbose" ++ [0]) = false := by decide
  have m3 : identifier_matched lit_verbose (bytes "verbose" ++ [0]) = true := by decide
  rcases hid with rfl | rfl
  · unfold dispatch
    simp [m1, hval]
  · unfold dispatch
    simp [m2, m3, hval]

/-- The dispatch of a rejected pair: an unknown identifier (`ENOTSUP`), or a
boolean setting with an invalid value (`EINVAL`). -/
theorem dispatch_rejected (id val : List Nat) (opts : options_t) (cur : Nat)
    (hid : 0 ∉ id) (hval : 0 ∉ val)
    (hrej : (id ≠ bytes "daemonize" ∧ id ≠ bytes "verbose" ∧ id ≠ bytes "syslog_ident")
      ∨ ((id = bytes "daemonize" ∨ id = bytes "verbose") ∧ validate_boolean val = -1)) :
    dispatch (id ++ [0]) (val ++ [0]) opts cur
      = .stop (.ret 1
          (some (if id = bytes "daemonize" ∨ id = bytes "verbose" then .EINVAL else .ENOTSUP))
          opts cur) := by
  rcases hrej with ⟨h1, h2, h3⟩ | ⟨h, hv⟩
  · rw [dispatch_unknown id _ opts cur hid h1 h2 h3, if_neg (by tauto)]
  · rw [dispatch_invalid_boolean id _ opts cur h
      (by rw [validate_boolean_terminated val [] hval]; exact hv), if_pos h]

theorem identifier_no_nul (c0 : Nat) (cs : List Nat)
    (hstart : isvalididentifierstart c0 = true)
    (hcont : ∀ c ∈ cs, isvalididentifier c = true) : 0 ∉ c0 :: cs := by
  intro hm
  rcases List.mem_cons.1 hm with e | e
  · exact (identifier_start_facts c0 hstart).1 e.symm
  · exact (identifier_facts 0 (hcont 0 e)).1 rfl

/-- C14: the parse stops at the first rejected line.  Let `b1` (no NUL inside)
end with a newline and be accepted from record `s`, leaving record `s1`.  Let a
line `id w1 = w2 value` follow, closed by a newline, whose identifier is
unknown, or is `daemonize` or `verbose` with a value that `validate_boolean`
finds invalid; the value is written unquoted or between quotes.  Then for
every `b2` the call on `b1`, the line and `b2` returns 1 with the record `s1`,
the cursor just after the value (after its newline when unquoted, after the
closing quote when quoted): nothing of `b2` is read. -/
theorem fail_fast (b1 b2 : List Nat) (s s1 : options_t) (e : Option Errno) (c c0 : Nat)
    (cs w1 w2 val : List Nat)
    (hnul : 0 ∉ b1) (hlast : b1.getLast? = some 10)
    (hb1 : parse_config_file b1 s = .ret 0 e s1 c)
    (hstart : isvalididentifierstart c0 = true)
    (hcont : ∀ x ∈ cs, isvalididentifier x = true)
    (hw1 : ∀ x ∈ w1, x = 32 ∨ x = 9) (hw2 : ∀ x ∈ w2, x = 32 ∨ x = 9)
    (hval : 0 ∉ val)
    (hrej : (c0 :: cs ≠ bytes "daemonize" ∧ c0 :: cs ≠ bytes "verbose"
        ∧ c0 :: cs ≠ bytes "syslog_ident")
      ∨ ((c0 :: cs = bytes "daemonize" ∨ c0 :: cs = bytes "verbose")
        ∧ validate_boolean val = -1)) :
    (val ≠ [] → (∀ x ∈ val, x ≠ 10 ∧ x ≠ 35) → isspace (val.headD 0) = false →
        val.headD 0 ≠ 34 →
        parse_config_file (b1 ++ (c0 :: cs ++ w1 ++ 61 :: (w2 ++ (val ++ 10 :: b2)))) s
          = .ret 1
              (some (if c0 :: cs = bytes "daemonize" ∨ c0 :: cs = bytes "verbose"
                then .EINVAL else .ENOTSUP))
              s1 (cs.length + w1.length + w2.length + val.length + 3 + b1.length))
      ∧ ((∀ pre post, val = pre ++ 34 :: post → pre.getLast? = some 92) →
        val.getLast? ≠ some 92 →
        parse_config_file
            (b1 ++ (c0 :: cs ++ w1 ++ 61 :: (w2 ++ (34 :: val ++ 34 :: 10 :: b2)))) s
          = .ret 1
              (some (if c0 :: cs = bytes "daemonize" ∨ c0 :: cs = bytes "verbose"
                then .EINVAL else .ENOTSUP))
              s1 (cs.length + w1.length + w2.length + val.length + 4 + b1.length)) := by
  have hid := identifier_no_nul c0 cs hstart hcont
  constructor
  · intro hne hrun hsp hq
    have hl := line_unquoted_eol (c0 :: cs ++ w1 ++ 61 :: (w2 ++ (val ++ 10 :: b2))) s1 0 c0 cs
      w1 w2 val b2 rfl hstart hcont hw1 hw2 hne
      (fun x hx => ⟨fun h0 => hval (h0 ▸ hx), hrun x hx⟩) hsp hq
    have hd : dispatch (c0 :: cs ++ [0]) (val ++ [0]) s1
        (0 + cs.length + w1.length + w2.length + val.length + 3) = _ :=
      dispatch_rejected (c0 :: cs) val s1 _ hid hval hrej
    rw [hd] at hl
    rw [parse_config_file_append _ b1 _ s s1 e c rfl hnul hlast hb1,
      parse_config_file_stop _ _ _ hl, Nat.zero_add]
    rfl
  · intro hq hend
    have hl := line_quoted (c0 :: cs ++ w1 ++ 61 :: (w2 ++ (34 :: val ++ 34 :: 10 :: b2))) s1 0
      c0 cs w1 w2 val (10 :: b2) rfl hstart hcont hw1 hw2 hval hq hend
    have hd : dispatch (c0 :: cs ++ [0]) (val ++ [0]) s1
        (0 + cs.length + w1.length + w2.length + val.length + 4) = _ :=
      dispatch_rejected (c0 :: cs) val s1 _ hid hval hrej
    rw [hd] at hl
    rw [parse_config_file_append _ b1 _ s s1 e c rfl hnul hlast hb1,
      parse_config_file_stop _ _ _ hl, Nat.zero_add]
    rfl

/-- Witness for C14 at `verbose=1`, the rejected line `foo=bar` and
`daemonize=1`, each with its newline. -/
theorem fail_fast_witness :
    parse_config_file (bytes "verbose=1\n" ++ (bytes "foo=bar\n" ++ bytes "daemonize=1\n"))
        ⟨0, 0, 0, []⟩
      = .ret 1 (some .ENOTSUP) ⟨0, 0, 1, []⟩ 18 :=
  (fail_fast (bytes "verbose=1\n") (bytes "daemonize=1\n") ⟨0, 0, 0, []⟩ ⟨0, 0, 1, []⟩ none 11
    102 [111, 111] [] [] [98, 97, 114] (by decide) (by decide) (by decide) (by decide)
    (by decide) (by decide) (by decide) (by decide) (Or.inl (by decide))).1
    (by decide) (by decide) (by decide) (by decide)

/-! ## What the parser changes -/

/-- The loop leaves `config_file` as it was. -/
theorem parse_loop_config_file (data : List Nat) :
    ∀ (fuel : Nat) (opts : options_t) (cur : Nat) (r : Int) (e : Option Errno) (o : options_t)
      (c : Nat), parse_loop data fuel opts cur = .ret r e o c →
      o.config_file = opts.config_file := by
  intro fuel
  induction fuel with
  | zero => intro opts cur r e o c h; simp [parse_loop] at h
  | succ fuel ih =>
    intro opts cur r e o c h
    rw [parse_loop] at h
    cases hl : line data opts cur with
    | next o1 c1 =>
      rw [hl] at h
      have := ih o1 c1 r e o c h
      rw [this, (line_next data opts o1 cur c1 hl).2.2]
    | stop out =>
      rw [hl] at h
      simp only at h
      subst h
      rcases line_stop data opts cur _ hl with ⟨r1, e1, c1, h1, -⟩ | ⟨c1, h1⟩
      · simp only [Outcome.ret.injEq] at h1
        rw [h1.2.2.1]
      · simp at h1

/-- The record after a dispatch that lets the loop go on differs from the
record before it in the field of the identifier only. -/
theorem dispatch_frame (id_tmp val_tmp : List Nat) (opts o : options_t) (cur c : Nat)
    (h : dispatch id_tmp val_tmp opts cur = .next o c) :
    (identifier_matched lit_daemonize id_tmp = true →
        o.verbose = opts.verbose ∧ o.syslog_ident = opts.syslog_ident)
      ∧ (identifier_matched lit_daemonize id_tmp = false →
        identifier_matched lit_verbose id_tmp = true →
        o.background = opts.background ∧ o.syslog_ident = opts.syslog_ident)
      ∧ (identifier_matched lit_daemonize id_tmp = false →
        identifier_matched lit_verbose id_tmp = false →
        o.background = opts.background ∧ o.verbose = opts.verbose) := by
  rcases dispatch_spec id_tmp val_tmp opts cur with ⟨o1, hd, -, h1, h2, h3⟩ | ⟨e, hd⟩
  · rw [hd] at h
    simp only [Step.next.injEq] at h
    obtain ⟨rfl, -⟩ := h
    exact ⟨h1, h2, h3⟩
  · rw [hd] at h
    simp at h

/-- A buffer that holds one assignment and nothing after it but an optional
newline: the call returns, and its record is the record it was given or the
one the dispatch of the pair makes. -/
theorem parse_single_assignment (data id_tmp val_tmp : List Nat) (opts : options_t) (cur : Nat)
    (hl : line data opts 0 = dispatch id_tmp val_tmp opts cur)
    (hrest : data.drop cur = [] ∨ data.drop cur = [10]) :
    ∃ r e o c, parse_config_file data opts = .ret r e o c
      ∧ (o = opts ∨ dispatch id_tmp val_tmp opts cur = .next o cur) := by
  rcases dispatch_spec id_tmp val_tmp opts cur with ⟨o1, hd, -⟩ | ⟨e, hd⟩
  · rw [hd] at hl
    rw [parse_config_file_next data opts o1 cur hl]
    rcases hrest with h | h <;> rw [h]
    · exact ⟨0, none, o1, _, rfl, Or.inr hd⟩
    · exact ⟨0, none, o1, _, rfl, Or.inr hd⟩
  · rw [hd] at hl
    rw [parse_config_file_stop data opts _ hl]
    exact ⟨1, some e, opts, cur, rfl, Or.inl rfl⟩

/-- One assignment line with an unquoted value, with or without its newline. -/
theorem parse_single_unquoted (c0 : Nat) (cs w1 w2 val eol : List Nat) (opts : options_t)
    (hstart : isvalididentifierstart c0 = true)
    (hcont : ∀ x ∈ cs, isvalididentifier x = true)
    (hw1 : ∀ x ∈ w1, x = 32 ∨ x = 9) (hw2 : ∀ x ∈ w2, x = 32 ∨ x = 9)
    (heol : eol = [] ∨ eol = [10])
    (hne : val ≠ []) (hrun : ∀ x ∈ val, x ≠ 0 ∧ x ≠ 10 ∧ x ≠ 35)
    (hsp : isspace (val.headD 0) = false) (hq : val.headD 0 ≠ 34) :
    ∃ r e o c, parse_config_file (c0 :: cs ++ w1 ++ 61 :: (w2 ++ (val ++ eol))) opts = .ret r e o c
      ∧ (o = opts ∨ ∃ v cur, dispatch (c0 :: cs ++ [0]) v opts cur = .next o cur) := by
  rcases heol with rfl | rfl
  · have hl := line_unquoted_eof (c0 :: cs ++ w1 ++ 61 :: (w2 ++ (val ++ []))) opts 0 c0 cs w1 w2
      val (by simp) hstart hcont hw1 hw2 hne hrun hsp hq
    obtain ⟨r, e, o, c, h1, h2⟩ := parse_single_assignment _ _ _ opts _ hl
      (Or.inl (List.drop_eq_nil_of_le (by simp; omega)))
    exact ⟨r, e, o, c, h1, h2.imp id (fun h => ⟨_, _, h⟩)⟩
  · have hl := line_unquoted_eol (c0 :: cs ++ w1 ++ 61 :: (w2 ++ (val ++ [10]))) opts 0 c0 cs w1 w2
      val [] rfl hstart hcont hw1 hw2 hne hrun hsp hq
    obtain ⟨r, e, o, c, h1, h2⟩ := parse_single_assignment _ _ _ opts _ hl
      (Or.inl (List.drop_eq_nil_of_le (by simp; omega)))
    exact ⟨r, e, o, c, h1, h2.imp id (fun h => ⟨_, _, h⟩)⟩

/-- One assignment line with a quoted value, with or without its newline. -/
theorem parse_single_quoted (c0 : Nat) (cs w1 w2 val eol : List Nat) (opts : options_t)
    (hstart : isvalididentifierstart c0 = true)
    (hcont : ∀ x ∈ cs, isvalididentifier x = true)
    (hw1 : ∀ x ∈ w1, x = 32 ∨ x = 9) (hw2 : ∀ x ∈ w2, x = 32 ∨ x = 9)
    (heol : eol = [] ∨ eol = [10])
    (hnul : 0 ∉ val)
    (hq : ∀ pre post, val = pre ++ 34 :: post → pre.getLast? = some 92)
    (hend : val.getLast? ≠ some 92) :
    ∃ r e o c,
      parse_config_file (c0 :: cs ++ w1 ++ 61 :: (w2 ++ (34 :: val ++ 34 :: eol))) opts
          = .ret r e o c
        ∧ (o = opts ∨ ∃ v cur, dispatch (c0 :: cs ++ [0]) v opts cur = .next o cur) := by
  have hl := line_quoted (c0 :: cs ++ w1 ++ 61 :: (w2 ++ (34 :: val ++ 34 :: eol))) opts 0 c0 cs
    w1 w2 val eol rfl hstart hcont hw1 hw2 hnul hq hend
  have hdrop : (c0 :: cs ++ w1 ++ 61 :: (w2 ++ (34 :: val ++ 34 :: eol))).drop
      (0 + cs.length + w1.length + w2.length + val.length + 4) = eol := by
    have : c0 :: cs ++ w1 ++ 61 :: (w2 ++ (34 :: val ++ 34 :: eol))
        = (c0 :: cs ++ w1 ++ 61 :: (w2 ++ (34 :: val ++ [34]))) ++ eol := by simp
    rw [this]
    exact List.drop_left' (by simp; omega)
  obtain ⟨r, e, o, c, h1, h2⟩ := parse_single_assignment _ _ _ opts _ hl
    (by rw [hdrop]; exact heol)
  exact ⟨r, e, o, c, h1, h2.imp id (fun h => ⟨_, _, h⟩)⟩

theorem frame_of_result (id : List Nat) (opts o : options_t)
    (h : o = opts ∨ ∃ v cur, dispatch (id ++ [0]) v opts cur = .next o cur) :
    (identifier_matched lit_daemonize (id ++ [0]) = true →
        o.verbose = opts.verbose ∧ o.syslog_ident = opts.syslog_ident)
      ∧ (identifier_matched lit_daemonize (id ++ [0]) = false →
        identifier_matched lit_verbose (id ++ [0]) = true →
        o.background = opts.background ∧ o.syslog_ident = opts.syslog_ident)
      ∧ (identifier_matched lit_daemonize (id ++ [0]) = false →
        identifier_matched lit_verbose (id ++ [0]) = false →
        o.background = opts.background ∧ o.verbose = opts.verbose) := by
  rcases h with rfl | ⟨v, cur, h⟩
  · exact ⟨fun _ => ⟨rfl, rfl⟩, fun _ _ => ⟨rfl, rfl⟩, fun _ _ => ⟨rfl, rfl⟩⟩
  · exact dispatch_frame _ _ _ _ _ _ h

/-- C17: the parser only changes the fields it recognizes.  On every buffer a
call that returns leaves `config_file` as it was.  On a buffer that holds one
assignment line `id w1 = w2 value`, with or without its newline, the value
unquoted or between quotes, the call returns and, accepted or rejected, a line
for `daemonize` leaves `verbose` and `syslog_ident` as they were, a line for
`verbose` leaves `background` and `syslog_ident`, a line for `syslog_ident`
leaves `background` and `verbose`. -/
theorem parser_frame (opts : options_t) (w1 w2 val eol : List Nat)
    (hw1 : ∀ x ∈ w1, x = 32 ∨ x = 9) (hw2 : ∀ x ∈ w2, x = 32 ∨ x = 9)
    (heol : eol = [] ∨ eol = [10]) (hval : 0 ∉ val) :
    (∀ data r e o c, parse_config_file data opts = .ret r e o c →
        o.config_file = opts.config_file)
      ∧ (val ≠ [] → (∀ x ∈ val, x ≠ 10 ∧ x ≠ 35) → isspace (val.headD 0) = false →
          val.headD 0 ≠ 34 →
          (∃ r e o c,
              parse_config_file (bytes "daemonize" ++ w1 ++ 61 :: (w2 ++ (val ++ eol))) opts
                = .ret r e o c
              ∧ o.verbose = opts.verbose ∧ o.syslog_ident = opts.syslog_ident)
            ∧ (∃ r e o c,
              parse_config_file (bytes "verbose" ++ w1 ++ 61 :: (w2 ++ (val ++ eol))) opts
                = .ret r e o c
              ∧ o.background = opts.background ∧ o.syslog_ident = opts.syslog_ident)
            ∧ (∃ r e o c,
              parse_config_file (bytes "syslog_ident" ++ w1 ++ 61 :: (w2 ++ (val ++ eol))) opts
                = .ret r e o c
              ∧ o.background = opts.background ∧ o.verbose = opts.verbose))
      ∧ ((∀ pre post, val = pre ++ 34 :: post → pre.getLast? = some 92) →
          val.getLast? ≠ some 92 →
          (∃ r e o c,
              parse_config_file
                  (bytes "daemonize" ++ w1 ++ 61 :: (w2 ++ (34 :: val ++ 34 :: eol))) opts
                = .ret r e o c
              ∧ o.verbose = opts.verbose ∧ o.syslog_ident = opts.syslog_ident)
            ∧ (∃ r e o c,
              parse_config_file
                  (bytes "verbose" ++ w1 ++ 61 :: (w2 ++ (34 :: val ++ 34 :: eol))) opts
                = .ret r e o c
              ∧ o.background = opts.background ∧ o.syslog_ident = opts.syslog_ident)
            ∧ (∃ r e o c,
              parse_config_file
                  (bytes "syslog_ident" ++ w1 ++ 61 :: (w2 ++ (34 :: val ++ 34 :: eol))) opts
                = .ret r e o c
              ∧ o.background = opts.background ∧ o.verbose = opts.verbose)) := by
  have bd : bytes "daemonize" = 100 :: [97, 101, 109, 111, 110, 105, 122, 101] := by decide
  have bv : bytes "verbose" = 118 :: [101, 114, 98, 111, 115, 101] := by decide
  have bs : bytes "syslog_ident"
      = 115 :: [121, 115, 108, 111, 103, 95, 105, 100, 101, 110, 116] := by decide
  refine ⟨fun data r e o c h => parse_loop_config_file data _ opts 0 r e o c h, ?_, ?_⟩
  · intro hne hrun hsp hq
    have hrun' : ∀ x ∈ val, x ≠ 0 ∧ x ≠ 10 ∧ x ≠ 35 :=
      fun x hx => ⟨fun h0 => hval (h0 ▸ hx), hrun x hx⟩
    refine ⟨?_, ?_, ?_⟩
    · obtain ⟨r, e, o, c, h1, h2⟩ := parse_single_unquoted 100
        [97, 101, 109, 111, 110, 105, 122, 101] w1 w2 val eol opts (by decide) (by decide)
        hw1 hw2 heol hne hrun' hsp hq
      rw [bd]
      exact ⟨r, e, o, c, h1, (frame_of_result _ opts o h2).1 (by decide)⟩
    · obtain ⟨r, e, o, c, h1, h2⟩ := parse_single_unquoted 118
        [101, 114, 98, 111, 115, 101] w1 w2 val eol opts (by decide) (by decide)
        hw1 hw2 heol hne hrun' hsp hq
      rw [bv]
      exact ⟨r, e, o, c, h1, (frame_of_result _ opts o h2).2.1 (by decide) (by decide)⟩
    · obtain ⟨r, e, o, c, h1, h2⟩ := parse_single_unquoted 115
        [121, 115, 108, 111, 103, 95, 105, 100, 101, 110, 116] w1 w2 val eol opts (by decide)
        (by decide) hw1 hw2 heol hne hrun' hsp hq
      rw [bs]
      exact ⟨r, e, o, c, h1, (frame_of_result _ opts o h2).2.2 (by decide) (by decide)⟩
  · intro hq hend
    refine ⟨?_, ?_, ?_⟩
    · obtain ⟨r, e, o, c, h1, h2⟩ := parse_single_quoted 100
        [97, 101, 109, 111, 110, 105, 122, 101] w1 w2 val eol opts (by decide) (by decide)
        hw1 hw2 heol hval hq hend
      rw [bd]
      exact ⟨r, e, o, c, h1, (frame_of_result _ opts o h2).1 (by decide)⟩
    · obtain ⟨r, e, o, c, h1, h2⟩ := parse_single_quoted 118
        [101, 114, 98, 111, 115, 101] w1 w2 val eol opts (by decide) (by decide)
        hw1 hw2 heol hval hq hend
      rw [bv]
      exact ⟨r, e, o, c, h1, (frame_of_result _ opts o h2).2.1 (by decide) (by decide)⟩
    · obtain ⟨r, e, o, c, h1, h2⟩ := parse_single_quoted 115
        [121, 115, 108, 111, 103, 95, 105, 100, 101, 110, 116] w1 w2 val eol opts (by decide)
        (by decide) hw1 hw2 heol hval hq hend
      rw [bs]
      exact ⟨r, e, o, c, h1, (frame_of_result _ opts o h2).2.2 (by decide) (by decide)⟩

/-- Witness for C17 at the lines `daemonize = Y`, `verbose = Y` and
`syslog_ident = Y`, each with its newline, from a record with all fields set. -/
theorem parser_frame_witness :
    (∃ r e o c,
        parse_config_file (bytes "daemonize" ++ [32] ++ 61 :: ([32] ++ ([89] ++ [10])))
            ⟨5, 7, 8, [97, 0]⟩ = .ret r e o c
          ∧ o.verbose = 8 ∧ o.syslog_ident = [97, 0])
      ∧ (∃ r e o c,
        parse_config_file (bytes "verbose" ++ [32] ++ 61 :: ([32] ++ ([89] ++ [10])))
            ⟨5, 7, 8, [97, 0]⟩ = .ret r e o c
          ∧ o.background = 7 ∧ o.syslog_ident = [97, 0])
      ∧ (∃ r e o c,
        parse_config_file (bytes "syslog_ident" ++ [32] ++ 61 :: ([32] ++ ([89] ++ [10])))
            ⟨5, 7, 8, [97, 0]⟩ = .ret r e o c
          ∧ o.background = 7 ∧ o.verbose = 8) :=
  (parser_frame ⟨5, 7, 8, [97, 0]⟩ [32] [32] [89] [10] (by decide) (by decide) (Or.inr rfl)
    (by decide)).2.1 (by decide) (by decide) (by decide) (by decide)

/-! ## Where a token length is zero -/

theorem parse_value_fault (data id_tmp : List Nat) (opts o : options_t) (cur c : Nat)
    (hcur : 1 ≤ cur) (h : parse_value data id_tmp opts cur = .stop (.fault o c)) :
    rd data c = 35 := by
  rw [parse_value_closed data id_tmp opts cur _ _ rfl rfl] at h
  generalize hj : cur + ((data.drop cur).takeWhile (fun c => isspace c && !iseol c)).length = j
    at h
  generalize hr : ((data.drop j).takeWhile (fun c => c != 0 && !iseol c && c != 35)).length = r
    at h
  have hne : ∀ (i v : List Nat) (c1 : Nat), dispatch i v opts c1 ≠ .stop (.fault o c) := by
    intro i v c1 hd
    rcases dispatch_spec i v opts c1 with ⟨o1, h1, -⟩ | ⟨e1, h1⟩ <;> rw [h1] at hd <;> simp at hd
  split_ifs at h with h1 h2 h3
  · simp at h
  · obtain ⟨c', ve, hs, hlt, hve⟩ := scan_quoted_total data (data.length + 1) 34 (j + 1)
      (by omega) (by omega)
    rw [hs] at h
    cases ve with
    | none => simp at h
    | some e =>
      obtain ⟨he, -⟩ := hve e rfl
      simp only at h
      rw [materialise_value_of_le _ _ _ _ _ _ (by omega)] at h
      exact absurd h (hne _ _ _)
  · by_cases hr0 : r = 0
    · subst hr0
      rw [materialise_value_fault _ _ _ _ _ _ (by omega)] at h
      simp only [Step.stop.injEq, Outcome.fault.injEq] at h
      obtain ⟨-, rfl⟩ := h
      rcases h3 with h3 | h3
      · exact absurd h3 (fun e => h1 (Or.inl e))
      · exact h3
    · rw [materialise_value_of_le _ _ _ _ _ _ (by omega)] at h
      exact absurd h (hne _ _ _)
  · rw [materialise_value_of_le _ _ _ _ _ _ (by omega)] at h
    exact absurd h (hne _ _ _)

/-- The only store outside a token buffer: the terminator of a value token of
length 0, when the value position holds `#`.  The cursor then points to that
`#`; the identifier token always has room for its terminator. -/
theorem line_fault (data : List Nat) (opts o : options_t) (cur c : Nat)
    (h : line data opts cur = .stop (.fault o c)) : rd data c = 35 := by
  rw [line_closed data opts cur _ _ _ _ rfl rfl rfl rfl] at h
  split_ifs at h
  · simp at h
  · simp at h
  · simp at h
  · simp at h
  · simp at h
  · exact parse_value_fault data _ opts o _ c (by omega) h

/-! ## The reads of the cursor -/

theorem rd_strlen : ∀ data : List Nat, rd data (strlen data) = 0
  | [] => by simp [strlen]
  | c :: cs => by
    by_cases hc : c = 0
    · simp [strlen, hc]
    · simp [strlen, hc, rd_strlen cs]

theorem rd_ne_zero_of_lt_strlen : ∀ (data : List Nat) (i : Nat), i < strlen data → rd data i ≠ 0
  | [], i, h => by simp [strlen] at h
  | c :: cs, i, h => by
    by_cases hc : c = 0
    · simp [strlen, hc] at h
    · cases i with
      | zero => simpa using hc
      | succ i =>
        simp only [strlen, hc, if_false] at h
        simpa using rd_ne_zero_of_lt_strlen cs i (by omega)

/-- A byte that is not NUL and lies at or before the first NUL lies before it. -/
theorem lt_strlen_of_rd_ne_zero (data : List Nat) (i : Nat) (hi : i ≤ strlen data)
    (h : rd data i ≠ 0) : i < strlen data := by
  rcases Nat.lt_or_ge i (strlen data) with h1 | h1
  · exact h1
  · have : i = strlen data := by omega
    rw [this] at h
    exact absurd (rd_strlen data) h

theorem scan_while_traced_fst (p : Nat → Bool) (data : List Nat) :
    ∀ fuel c cur, (scan_while_traced p data fuel c cur).1 = scan_while p data fuel c cur := by
  intro fuel
  induction fuel with
  | zero => intro c cur; rfl
  | succ fuel ih =>
    intro c cur
    rw [scan_while_traced, scan_while]
    split_ifs
    · exact ih _ _
    · rfl

theorem scan_quoted_traced_fst (data : List Nat) :
    ∀ fuel c cur, (scan_quoted_traced data fuel c cur).1 = scan_quoted data fuel c cur := by
  intro fuel
  induction fuel with
  | zero => intro c cur; rfl
  | succ fuel ih =>
    intro c cur
    rw [scan_quoted_traced, scan_quoted]
    simp only
    split_ifs
    · rfl
    · rfl
    · exact ih _ _

/-- A scanning loop whose condition fails on NUL, entered with the byte read
at `j`, which is not beyond the first NUL: it reads the `m` indices after `j`,
the last of them not beyond the first NUL, and leaves with the byte read
last. -/
theorem scan_while_traced_spec (p : Nat → Bool) (hp : ∀ c, p c = true → c ≠ 0)
    (data : List Nat) :
    ∀ fuel j, j ≤ strlen data →
      ∃ m, (scan_while_traced p data fuel (rd data j) (j + 1)).2 = List.range' (j + 1) m
        ∧ j + m ≤ strlen data
        ∧ ∀ c cur, scan_while p data fuel (rd data j) (j + 1) = some (c, cur) →
            cur = j + m + 1 ∧ c = rd data (j + m) := by
  intro fuel
  induction fuel with
  | zero =>
    intro j hj
    exact ⟨0, rfl, hj, by simp [scan_while]⟩
  | succ fuel ih =>
    intro j hj
    rw [scan_while_traced, scan_while]
    by_cases hc : p (rd data j) = true
    · have hlt := lt_strlen_of_rd_ne_zero data j hj (hp _ hc)
      obtain ⟨m, h1, h2, h3⟩ := ih (j + 1) hlt
      refine ⟨m + 1, ?_, by omega, ?_⟩
      · simp only [hc, if_true, h1]
        rfl
      · intro c cur h
        rw [if_pos hc] at h
        obtain ⟨e1, e2⟩ := h3 c cur h
        refine ⟨by omega, ?_⟩
        rw [e2]
        congr 1
        omega
    · refine ⟨0, by simp [hc], hj, ?_⟩
      intro c cur h
      rw [if_neg hc] at h
      simp only [Option.some.injEq, Prod.mk.injEq] at h
      exact ⟨by omega, h.1.symm⟩

/-- The loop over a quoted value, entered with the cursor not beyond the first
NUL: it reads `m ≥ 1` indices from the cursor on, the last not beyond the first
NUL, and a closing quote it finds lies before the first NUL. -/
theorem scan_quoted_traced_spec (data : List Nat) :
    ∀ fuel c cur, cur ≤ strlen data → 1 ≤ fuel →
      ∃ m, (scan_quoted_traced data fuel c cur).2 = List.range' cur m
        ∧ 1 ≤ m ∧ cur + m ≤ strlen data + 1
        ∧ ∀ cur1 ve, scan_quoted data fuel c cur = some (cur1, ve) →
            cur1 = cur + m ∧ (ve ≠ none → cur1 ≤ strlen data) := by
  intro fuel
  induction fuel with
  | zero => intro c cur _ h; omega
  | succ fuel ih =>
    intro c cur hcur _
    rw [scan_quoted_traced, scan_quoted]
    simp only
    by_cases h0 : rd data cur = 0
    · refine ⟨1, by simp [h0], le_refl _, by omega, ?_⟩
      intro cur1 ve h
      simp only [h0, if_true, Option.some.injEq, Prod.mk.injEq] at h
      exact ⟨h.1.symm, fun hne => absurd h.2.symm hne⟩
    · have hlt := lt_strlen_of_rd_ne_zero data cur hcur h0
      by_cases hq : rd data cur = 34 ∧ c ≠ 92
      · refine ⟨1, by simp [h0, hq], le_refl _, by omega, ?_⟩
        intro cur1 ve h
        rw [if_neg h0, if_pos hq] at h
        simp only [Option.some.injEq, Prod.mk.injEq] at h
        exact ⟨h.1.symm, fun _ => by omega⟩
      · rcases Nat.eq_zero_or_pos fuel with hf | hf
        · subst hf
          refine ⟨1, ?_, le_refl _, by omega, ?_⟩
          · simp only [h0, if_false, hq]
            rfl
          · intro cur1 ve h
            simp only [h0, if_false, hq] at h
            simp [scan_quoted] at h
        · obtain ⟨m, h1, h2, h3, h4⟩ := ih (rd data cur) (cur + 1) hlt hf
          refine ⟨m + 1, ?_, by omega, by omega, ?_⟩
          · simp only [h0, if_false, hq, h1]
            rfl
          · intro cur1 ve h
            simp only [h0, if_false, hq] at h
            obtain ⟨e1, e2⟩ := h4 cur1 ve h
            exact ⟨by omega, e2⟩

theorem ite_fst {α β : Type} (b : Prop) [Decidable b] (x y : α × β) :
    (if b then x else y).1 = if b then x.1 else y.1 := by
  split_ifs <;> rfl

theorem parse_value_traced_fst (data id_tmp : List Nat) (opts : options_t) (cur : Nat) :
    (parse_value_traced data id_tmp opts cur).1 = parse_value data id_tmp opts cur := by
  unfold parse_value_traced parse_value
  simp only [skip_whitespace_not_eol_traced, skip_until_eol_or_comment_traced,
    skip_whitespace_not_eol, skip_until_eol_or_comment, ite_fst, scan_while_traced_fst,
    scan_quoted_traced_fst]
  repeat' first | rfl | split

theorem line_traced_fst (data : List Nat) (opts : options_t) (cur : Nat) :
    (line_traced data opts cur).1 = line data opts cur := by
  unfold line_traced line
  simp only [skip_whitespace_not_eol_traced, skip_whitespace_traced, skip_until_eol_traced,
    skip_identifier_traced, skip_whitespace_not_eol, skip_whitespace, skip_until_eol,
    skip_identifier, scan_while_traced_fst, parse_value_traced_fst]
  repeat' first | rfl | split

theorem parse_loop_traced_fst (data : List Nat) :
    ∀ fuel opts cur, (parse_loop_traced data fuel opts cur).1 = parse_loop data fuel opts cur := by
  intro fuel
  induction fuel with
  | zero => intro opts cur; rfl
  | succ fuel ih =>
    intro opts cur
    rw [parse_loop_traced, parse_loop]
    simp only [line_traced_fst]
    split
    · exact ih _ _
    · rfl

theorem parse_config_file_traced_fst (data : List Nat) (opts : options_t) :
    (parse_config_file_traced data opts).1 = parse_config_file data opts :=
  parse_loop_traced_fst data _ opts 0

theorem range_cat (a m b n : Nat) (h : b = a + m) :
    List.range' a m ++ List.range' b n = List.range' a (m + n) := by
  subst h
  rw [List.range'_append_1, Nat.add_comm]

theorem range_cons (a b n : Nat) (h : b = a + 1) :
    a :: List.range' b n = List.range' a (n + 1) := by
  subst h
  rfl

theorem materialise_value_cursor (data id_tmp : List Nat) (val_start val_end : Nat)
    (opts o : options_t) (cur c : Nat)
    (h : materialise_value data id_tmp val_start val_end opts cur = .next o c) : c = cur := by
  unfold materialise_value at h
  simp only at h
  split_ifs at h
  rcases dispatch_spec id_tmp (token data val_start (token_len val_start val_end).toNat) opts cur
    with ⟨o1, h1, _⟩ | ⟨e, h1⟩
  · rw [h1] at h
    simp only [Step.next.injEq] at h
    exact h.2.symm
  · rw [h1] at h
    simp at h

/-- The reads of the value part of a pass entered with the cursor not beyond
the first NUL: the `n` indices from the cursor on, none beyond the first NUL;
a pass that goes on leaves the cursor not beyond the first NUL, and on it when
the NUL was read. -/
theorem parse_value_traced_spec (data id_tmp : List Nat) (opts : options_t) (cur : Nat)
    (hcur : cur ≤ strlen data) :
    ∃ n, (parse_value_traced data id_tmp opts cur).2 = List.range' cur n ∧ 1 ≤ n
      ∧ cur + n ≤ strlen data + 1
      ∧ ∀ o c, (parse_value_traced data id_tmp opts cur).1 = .next o c →
          c ≤ strlen data ∧ (cur + n = strlen data + 1 → c = strlen data) := by
  have hws : ∃ m, (if isspace (rd data cur) = true then
        scan_while_traced (fun c => isspace c && !iseol c) data (data.length + 1)
          (rd data cur) (cur + 1)
        else (some (rd data cur, cur + 1), [])).2 = List.range' (cur + 1) m
      ∧ cur + m ≤ strlen data
      ∧ ∀ c1 cur1, (if isspace (rd data cur) = true then
          scan_while_traced (fun c => isspace c && !iseol c) data (data.length + 1)
            (rd data cur) (cur + 1)
          else (some (rd data cur, cur + 1), [])).1 = some (c1, cur1) →
          cur1 = cur + m + 1 ∧ c1 = rd data (cur + m) := by
    by_cases hs : isspace (rd data cur) = true
    · simp only [hs, if_true, scan_while_traced_fst]
      exact scan_while_traced_spec _ (by intro c hc; rintro rfl; simp [isspace] at hc) data _ cur hcur
    · refine ⟨0, by simp [hs], hcur, ?_⟩
      intro c1 cur1 h
      simp only [hs, if_false, Option.some.injEq, Prod.mk.injEq, Bool.false_eq_true] at h
      exact ⟨by omega, h.1.symm⟩
  obtain ⟨m, hm1, hm2, hm3⟩ := hws
  unfold parse_value_traced
  simp only [skip_whitespace_not_eol_traced, skip_until_eol_or_comment_traced]
  split
  · refine ⟨m + 1, ?_, by omega, by omega, ?_⟩
    · simp only [hm1, List.singleton_append]
      exact range_cons _ _ _ rfl
    · intro o c h
      simp at h
  · rename_i c1 cur1 h1
    obtain ⟨e1, e2⟩ := hm3 c1 cur1 h1
    have hlog : [cur] ++ List.range' (cur + 1) m = List.range' cur (m + 1) := range_cons _ _ _ rfl
    rw [hm1, hlog]
    split_ifs with hA hB
    · exact ⟨m + 1, rfl, by omega, by omega, by intro o c h; simp at h⟩
    · -- quoted value
      have hne : rd data (cur + m) ≠ 0 := by
        rw [← e2, hB]; decide
      have hlt := lt_strlen_of_rd_ne_zero data (cur + m) hm2 hne
      obtain ⟨k, hk1, hk2, hk3, hk4⟩ :=
        scan_quoted_traced_spec data (data.length + 1) c1 cur1 (by omega) (by omega)
      rw [hk1, range_cat cur (m + 1) cur1 k (by omega)]
      refine ⟨m + 1 + k, ?_, by omega, by omega, ?_⟩
      · split <;> rfl
      · intro o c h
        split at h
        · simp at h
        · simp at h
        · rename_i cur2 ve hq
          rw [scan_quoted_traced_fst] at hq
          obtain ⟨e3, e4⟩ := hk4 _ _ hq
          have := materialise_value_cursor _ _ _ _ _ _ _ _ h
          have := e4 (by simp)
          exact ⟨by omega, by omega⟩
    · -- unquoted value
      subst e1 e2
      obtain ⟨k, hk1, hk2, hk3⟩ := scan_while_traced_spec (fun c => c != 0 && !iseol c && c != 35)
        (by intro c hc; rintro rfl; simp at hc) data (data.length + 1) (cur + m) hm2
      rw [hk1, range_cat cur (m + 1) (cur + m + 1) k (by omega)]
      refine ⟨m + 1 + k, ?_, by omega, by omega, ?_⟩
      · split
        · rfl
        · split_ifs <;> rfl
      · intro o c h
        split at h
        · simp at h
        · rename_i c2 cur2 hu
          rw [scan_while_traced_fst] at hu
          obtain ⟨e3, e4⟩ := hk3 _ _ hu
          split_ifs at h with hD
          · have := materialise_value_cursor _ _ _ _ _ _ _ _ h
            exact ⟨by omega, by omega⟩
          · have := materialise_value_cursor _ _ _ _ _ _ _ _ h
            have hne : rd data (cur + m + k) ≠ 0 := by
              rw [← e4]
              exact fun e => hD (Or.inl e)
            have hlt := lt_strlen_of_rd_ne_zero data (cur + m + k) hk2 hne
            exact ⟨by omega, by omega⟩

theorem range_snoc (a m b : Nat) (h : b = a + m) :
    List.range' a m ++ [b] = List.range' a (m + 1) :=
  range_cat a m b 1 h

/-- The reads of a pass entered with the cursor not beyond the first NUL: the
`n` indices from the cursor on, none beyond the first NUL; a pass that goes on
leaves the cursor not beyond the first NUL, and on it when the NUL was read. -/
theorem line_traced_spec (data : List Nat) (opts : options_t) (cur : Nat)
    (hcur : cur ≤ strlen data) :
    ∃ n, (line_traced data opts cur).2 = List.range' cur n ∧ 1 ≤ n
      ∧ cur + n ≤ strlen data + 1
      ∧ ∀ o c, (line_traced data opts cur).1 = .next o c →
          c ≤ strlen data ∧ (cur + n = strlen data + 1 → c = strlen data) := by
  suffices H : ∀ P : Step × List Nat → Prop,
      (∀ r : Step × List Nat, (∃ n, r.2 = List.range' cur n ∧ 1 ≤ n
        ∧ cur + n ≤ strlen data + 1
        ∧ ∀ o c, r.1 = .next o c →
            c ≤ strlen data ∧ (cur + n = strlen data + 1 → c = strlen data)) → P r) →
      P (line_traced data opts cur) from H _ (fun _ h => h)
  intro P hP
  unfold line_traced
  simp only [skip_whitespace_not_eol_traced, skip_whitespace_traced, skip_until_eol_traced,
    skip_identifier_traced]
  split
  · exact hP _ ⟨1, rfl, le_refl _, by omega, by intro o c h; simp at h⟩
  · rename_i h0
    obtain ⟨m, hm1, hm2, hm3⟩ := scan_while_traced_spec isspace
      (by intro c hc; rintro rfl; simp [isspace] at hc) data (data.length + 1) cur hcur
    have hlog : [cur] ++ List.range' (cur + 1) m = List.range' cur (m + 1) := range_cons _ _ _ rfl
    rw [hm1, hlog]
    split
    · exact hP _ ⟨m + 1, rfl, by omega, by omega, by intro o c h; simp at h⟩
    · rename_i c1 cur1 hw
      rw [scan_while_traced_fst] at hw
      obtain ⟨e1, e2⟩ := hm3 _ _ hw
      subst e1 e2
      split_ifs with hA hB hC
      · exact hP _ ⟨m + 1, rfl, by omega, by omega, by intro o c h; simp at h⟩
      · -- comment
        have hlt := lt_strlen_of_rd_ne_zero data (cur + m) hm2 hA
        obtain ⟨k, hk1, hk2, hk3⟩ := scan_while_traced_spec (fun c => c != 0 && !iseol c)
          (by intro c hc; rintro rfl; simp at hc) data (data.length + 1) (cur + m + 1) hlt
        rw [hk1, range_snoc cur (m + 1) (cur + m + 1) (by omega),
          range_cat cur (m + 1 + 1) (cur + m + 1 + 1) k (by omega)]
        split
        · exact hP _ ⟨m + 1 + 1 + k, rfl, by omega, by omega, by intro o c h; simp at h⟩
        · rename_i c2 cur2 hu
          rw [scan_while_traced_fst] at hu
          obtain ⟨e3, e4⟩ := hk3 _ _ hu
          subst e3 e4
          split_ifs with hD
          · exact hP _ ⟨m + 1 + 1 + k, rfl, by omega, by omega, by intro o c h; simp at h⟩
          · have := lt_strlen_of_rd_ne_zero data (cur + m + 1 + k) hk2 hD
            refine hP _ ⟨m + 1 + 1 + k, rfl, by omega, by omega, ?_⟩
            intro o c h
            simp only [Step.next.injEq] at h
            exact ⟨by omega, by omega⟩
      · exact hP _ ⟨m + 1, rfl, by omega, by omega, by intro o c h; simp at h⟩
      · -- identifier
        have hlt := lt_strlen_of_rd_ne_zero data (cur + m) hm2 hA
        obtain ⟨k, hk1, hk2, hk3⟩ := scan_while_traced_spec isvalididentifier
          (by intro c hc; rintro rfl; simp [isvalididentifier, isalnum, isalpha, isupper,
            islower, isdigit] at hc) data (data.length + 1) (cur + m + 1) hlt
        rw [hk1, range_snoc cur (m + 1) (cur + m + 1) (by omega),
          range_cat cur (m + 1 + 1) (cur + m + 1 + 1) k (by omega)]
        split
        · exact hP _ ⟨m + 1 + 1 + k, rfl, by omega, by omega, by intro o c h; simp at h⟩
        · rename_i c2 cur2 hi
          rw [scan_while_traced_fst] at hi
          obtain ⟨e3, e4⟩ := hk3 _ _ hi
          subst e3 e4
          split_ifs with hE hF hG
          · exact hP _ ⟨m + 1 + 1 + k, rfl, by omega, by omega, by intro o c h; simp at h⟩
          · exact hP _ ⟨m + 1 + 1 + k, rfl, by omega, by omega, by intro o c h; simp at h⟩
          · -- whitespace before the `=`
            obtain ⟨j, hj1, hj2, hj3⟩ := scan_while_traced_spec
              (fun c => isspace c && !iseol c)
              (by intro c hc; rintro rfl; simp [isspace] at hc) data (data.length + 1)
              (cur + m + 1 + k) hk2
            rw [hj1, range_cat cur (m + 1 + 1 + k) (cur + m + 1 + k + 1) j (by omega)]
            split
            · exact hP _ ⟨m + 1 + 1 + k + j, rfl, by omega, by omega,
                by intro o c h; simp at h⟩
            · rename_i c3 cur3 hs
              rw [scan_while_traced_fst] at hs
              obtain ⟨e5, e6⟩ := hj3 _ _ hs
              subst e5 e6
              split_ifs with hH
              · exact hP _ ⟨m + 1 + 1 + k + j, rfl, by omega, by omega,
                  by intro o c h; simp at h⟩
              · have hne3 : rd data (cur + m + 1 + k + j) ≠ 0 := by
                  have : rd data (cur + m + 1 + k + j) = 61 := not_not.1 hH
                  rw [this]; decide
                have hlt3 := lt_strlen_of_rd_ne_zero data _ hj2 hne3
                obtain ⟨n, hn1, hn2, hn3, hn4⟩ := parse_value_traced_spec data
                  (token data (cur + m + 1 - 1)
                    (token_len (cur + m + 1 - 1) (cur + m + 1 + k + 1 - 1)).toNat)
                  opts (cur + m + 1 + k + j + 1) (by omega)
                refine hP _ ⟨m + 1 + 1 + k + j + n, ?_, by omega, by omega, ?_⟩
                · simp only [hn1]
                  exact range_cat _ _ _ _ (by omega)
                · intro o c h
                  obtain ⟨a, b⟩ := hn4 o c h
                  exact ⟨a, fun e => b (by omega)⟩
          · -- `=` right after the identifier
            have h61 : rd data (cur + m + 1 + k) = 61 := not_not.1 hG
            have hne : rd data (cur + m + 1 + k) ≠ 0 := by rw [h61]; decide
            have hlt2 := lt_strlen_of_rd_ne_zero data _ hk2 hne
            obtain ⟨n, hn1, hn2, hn3, hn4⟩ := parse_value_traced_spec data
              (token data (cur + m + 1 - 1)
                (token_len (cur + m + 1 - 1) (cur + m + 1 + k + 1 - 1)).toNat)
              opts (cur + m + 1 + k + 1) (by omega)
            refine hP _ ⟨m + 1 + 1 + k + n, ?_, by omega, by omega, ?_⟩
            · simp only [hn1]
              exact range_cat _ _ _ _ (by omega)
            · intro o c h
              obtain ⟨a, b⟩ := hn4 o c h
              exact ⟨a, fun e => b (by omega)⟩

theorem line_traced_at_nul (data : List Nat) (opts : options_t) (cur : Nat)
    (h : rd data cur = 0) :
    line_traced data opts cur = (.stop (.ret 0 none opts (cur + 1)), [cur]) := by
  unfold line_traced
  simp [h]

/-- The reads of the loop entered with the cursor not beyond the first NUL:
indices before the first NUL, then the index of the first NUL at most twice. -/
theorem parse_loop_traced_spec (data : List Nat) :
    ∀ fuel opts cur, cur ≤ strlen data →
      ∃ l k, (parse_loop_traced data fuel opts cur).2 = l ++ List.replicate k (strlen data)
        ∧ k ≤ 2 ∧ (∀ i ∈ l, i < strlen data) ∧ (cur = strlen data → l = [] ∧ k ≤ 1) := by
  intro fuel
  induction fuel with
  | zero =>
    intro opts cur _
    exact ⟨[], 0, rfl, by omega, by simp, fun _ => ⟨rfl, by omega⟩⟩
  | succ fuel ih =>
    intro opts cur hcur
    rw [parse_loop_traced]
    by_cases hz : cur = strlen data
    · have h0 : rd data cur = 0 := by rw [hz]; exact rd_strlen data
      rw [line_traced_at_nul data opts cur h0]
      exact ⟨[], 1, by simp [hz], by omega, by simp, fun _ => ⟨rfl, by omega⟩⟩
    · obtain ⟨n, hn1, hn2, hn3, hn4⟩ := line_traced_spec data opts cur hcur
      have hmem : ∀ j, cur + j ≤ strlen data → ∀ i ∈ List.range' cur j, i < strlen data := by
        intro j hj i hi
        rw [List.mem_range'_1] at hi
        omega
      have hsplit : cur + n = strlen data + 1 →
          List.range' cur n = List.range' cur (n - 1) ++ [strlen data] := by
        intro e
        rw [range_snoc cur (n - 1) (strlen data) (by omega)]
        congr 1
        omega
      cases h : (line_traced data opts cur).1 with
      | next o c =>
        obtain ⟨hc1, hc2⟩ := hn4 o c h
        obtain ⟨l, k, hl1, hl2, hl3, hl4⟩ := ih o c hc1
        simp only [hn1, hl1]
        by_cases he : cur + n = strlen data + 1
        · obtain ⟨e1, e2⟩ := hl4 (hc2 he)
          subst e1
          refine ⟨List.range' cur (n - 1), k + 1, ?_, by omega, hmem _ (by omega),
            fun e => absurd e hz⟩
          rw [hsplit he, List.replicate_succ]
          simp
        · refine ⟨List.range' cur n ++ l, k, by simp, hl2, ?_, fun e => absurd e hz⟩
          intro i hi
          rcases List.mem_append.1 hi with hi | hi
          · exact hmem n (by omega) i hi
          · exact hl3 i hi
      | stop out =>
        simp only [hn1]
        by_cases he : cur + n = strlen data + 1
        · refine ⟨List.range' cur (n - 1), 1, ?_, by omega, hmem _ (by omega),
            fun e => absurd e hz⟩
          rw [hsplit he]
          rfl
        · exact ⟨List.range' cur n, 0, by simp, by omega, hmem n (by omega),
            fun e => absurd e hz⟩

/-- The reads of a call: indices before the first NUL, then the index of the
first NUL at most twice. -/
theorem parse_config_file_traced_spec (data : List Nat) (opts : options_t) :
    ∃ l k, (parse_config_file_traced data opts).2 = l ++ List.replicate k (strlen data)
      ∧ k ≤ 2 ∧ ∀ i ∈ l, i < strlen data := by
  obtain ⟨l, k, h1, h2, h3, _⟩ :=
    parse_loop_traced_spec data (data.length + 1) opts 0 (Nat.zero_le _)
  exact ⟨l, k, h1, h2, h3⟩

/-- In a list of indices before `z` followed by at most two `z`, what follows
an occurrence of `z` is nothing or one more `z`. -/
theorem after_terminator (z : Nat) (l : List Nat) (k : Nat) (hk : k ≤ 2)
    (hl : ∀ i ∈ l, i < z) (l1 l2 : List Nat) (h : l ++ List.replicate k z = l1 ++ z :: l2) :
    l2 = [] ∨ l2 = [z] := by
  induction l generalizing l1 with
  | nil =>
    have hlen := congrArg List.length h
    simp only [List.nil_append, List.length_replicate, List.length_append, List.length_cons] at hlen
    have hmem : ∀ x ∈ l2, x = z := by
      intro x hx
      have : x ∈ List.replicate k z := by
        rw [List.nil_append] at h
        rw [h]
        simp [hx]
      exact (List.mem_replicate.1 this).2
    match l2, hmem, hlen with
    | [], _, _ => exact Or.inl rfl
    | [x], hmem, _ =>
      right
      rw [hmem x (by simp)]
    | x :: y :: t, _, hlen =>
      simp only [List.length_cons] at hlen
      omega
  | cons a t ih =>
    cases l1 with
    | nil =>
      simp only [List.cons_append, List.nil_append, List.cons.injEq] at h
      have := hl a (by simp)
      omega
    | cons b l1 =>
      simp only [List.cons_append, List.cons.injEq] at h
      exact ih (fun i hi => hl i (by simp [hi])) l1 h.2

/-- C21, as stated, fails on `syslog_ident=ab`.  The bytes at the indices 0 to
15 are read once, the one at 15 being the terminating NUL, read by the loop
over the unquoted value; the step-back `cur--` puts the cursor on it again and
the next pass reads index 15 a second time.  So the scanner does dereference
the cursor again after it has read the NUL. -/
theorem terminator_read_twice :
    (parse_config_file_traced (bytes "syslog_ident=ab") ⟨0, 0, 0, []⟩).2
        = [0, 1, 2, 3, 4, 5, 6, 7, 8, 9, 10, 11, 12, 13, 14, 15, 15]
      ∧ rd (bytes "syslog_ident=ab") 15 = 0
      ∧ ¬ ∀ (l1 l2 : List Nat) (i : Nat),
          (parse_config_file_traced (bytes "syslog_ident=ab") ⟨0, 0, 0, []⟩).2
              = l1 ++ i :: l2 →
            rd (bytes "syslog_ident=ab") i = 0 → l2 = [] := by
  have h : (parse_config_file_traced (bytes "syslog_ident=ab") ⟨0, 0, 0, []⟩).2
      = [0, 1, 2, 3, 4, 5, 6, 7, 8, 9, 10, 11, 12, 13, 14, 15, 15] := by decide
  refine ⟨h, by decide, ?_⟩
  intro hall
  have := hall [0, 1, 2, 3, 4, 5, 6, 7, 8, 9, 10, 11, 12, 13, 14] [15] 15 h (by decide)
  simp at this

/-! ## Going on after the store of a token of length 0 -/

theorem strlen_le_length : ∀ data : List Nat, strlen data ≤ data.length
  | [] => by simp [strlen]
  | c :: cs => by
    by_cases hc : c = 0
    · simp [strlen, hc]
    · simpa [strlen, hc] using strlen_le_length cs

/-- With the fuel of a call a scanning loop whose condition fails on NUL gives
a result. -/
theorem scan_while_some (p : Nat → Bool) (hp0 : p 0 = false) (data : List Nat) (j : Nat) :
    scan_while p data (data.length + 1) (rd data j) (j + 1) ≠ none := by
  rw [scan_while_drop p hp0 data (data.length + 1) j (by omega) (by omega)]
  simp

theorem scan_quoted_some (data : List Nat) (c cur : Nat) :
    scan_quoted data (data.length + 1) c cur ≠ none := by
  obtain ⟨c1, ve, h, -⟩ := scan_quoted_total data (data.length + 1) c cur (by omega) (by omega)
  rw [h]
  simp

/-- The dispatch of a pair hands over at the cursor it was given, or returns 1
with the record as it was. -/
theorem materialise_value_cont_spec (mem : Nat → List Nat) (data id_tmp : List Nat)
    (val_start val_end : Nat) (opts : options_t) (cur : Nat) :
    (∃ o, materialise_value_cont mem data id_tmp val_start val_end opts cur = .next o cur)
      ∨ ∃ e, materialise_value_cont mem data id_tmp val_start val_end opts cur
          = .stop (.ret 1 (some e) opts cur) := by
  unfold materialise_value_cont
  simp only
  rcases dispatch_spec id_tmp (token_cont (mem cur) data val_start (token_len val_start val_end))
    opts cur with ⟨o, h, -⟩ | ⟨e, h⟩
  · exact Or.inl ⟨o, h⟩
  · exact Or.inr ⟨e, h⟩

/-- What a step that is a dispatch at cursor `c0` contributes to a pass. -/
theorem dispatch_leaf (opts : options_t) (st : Step) (c0 : Nat)
    (hst : (∃ o, st = .next o c0) ∨ ∃ e, st = .stop (.ret 1 (some e) opts c0))
    (Q : Nat → Prop) (hQ : Q c0) :
    (∀ o c, st = .next o c → Q c)
      ∧ ∀ out, st = .stop out → ∃ r e c, out = .ret r e opts c ∧ Q c ∧ (r = 0 ∨ r = 1) := by
  rcases hst with ⟨o1, h1⟩ | ⟨e1, h1⟩
  · subst h1
    refine ⟨?_, by intro out h; simp at h⟩
    intro o c h
    simp only [Step.next.injEq] at h
    rw [← h.2]
    exact hQ
  · subst h1
    refine ⟨by intro o c h; simp at h, ?_⟩
    intro out h
    simp only [Step.stop.injEq] at h
    exact ⟨1, some e1, c0, h.symm, hQ, Or.inr rfl⟩

/-- The value part of a pass that goes on after the store, entered with the
cursor not beyond the first NUL: it reads the `n` indices from the cursor on,
none beyond the first NUL, and ends at a cursor `c` not before the one it
started with and not beyond the first NUL, on the first NUL when the NUL was
read and the loop goes on; it hands over to the next pass or returns 1 with
the record as it was. -/
theorem parse_value_cont_spec (mem : Nat → List Nat) (data id_tmp : List Nat)
    (opts : options_t) (cur : Nat) (hcur : cur ≤ strlen data) :
    ∃ n, (parse_value_cont mem data id_tmp opts cur).2 = List.range' cur n ∧ 1 ≤ n
      ∧ cur + n ≤ strlen data + 1
      ∧ (∀ o c, (parse_value_cont mem data id_tmp opts cur).1 = .next o c →
          cur ≤ c ∧ c ≤ strlen data ∧ (cur + n = strlen data + 1 → c = strlen data))
      ∧ ∀ out, (parse_value_cont mem data id_tmp opts cur).1 = .stop out →
          ∃ r e c, out = .ret r e opts c ∧ cur ≤ c ∧ (r = 0 ∨ r = 1) := by
  suffices H : ∀ P : Step × List Nat → Prop,
      (∀ r : Step × List Nat, (∃ n, r.2 = List.range' cur n ∧ 1 ≤ n
        ∧ cur + n ≤ strlen data + 1
        ∧ (∀ o c, r.1 = .next o c →
            cur ≤ c ∧ c ≤ strlen data ∧ (cur + n = strlen data + 1 → c = strlen data))
        ∧ ∀ out, r.1 = .stop out →
            ∃ r e c, out = .ret r e opts c ∧ cur ≤ c ∧ (r = 0 ∨ r = 1)) → P r) →
      P (parse_value_cont mem data id_tmp opts cur) from H _ (fun _ h => h)
  intro P hP
  have hws : ∃ m, (if isspace (rd data cur) = true then
        scan_while_traced (fun c => isspace c && !iseol c) data (data.length + 1)
          (rd data cur) (cur + 1)
        else (some (rd data cur, cur + 1), [])).2 = List.range' (cur + 1) m
      ∧ cur + m ≤ strlen data
      ∧ (if isspace (rd data cur) = true then
          scan_while_traced (fun c => isspace c && !iseol c) data (data.length + 1)
            (rd data cur) (cur + 1)
          else (some (rd data cur, cur + 1), [])).1 = some (rd data (cur + m), cur + m + 1) := by
    by_cases hs : isspace (rd data cur) = true
    · simp only [hs, if_true, scan_while_traced_fst]
      obtain ⟨m, h1, h2, h3⟩ := scan_while_traced_spec (fun c => isspace c && !iseol c)
        (by intro c hc; rintro rfl; simp [isspace] at hc) data (data.length + 1) cur hcur
      refine ⟨m, h1, h2, ?_⟩
      cases hsc : scan_while (fun c => isspace c && !iseol c) data (data.length + 1)
          (rd data cur) (cur + 1) with
      | none => exact absurd hsc (scan_while_some _ (by simp [isspace]) data cur)
      | some x =>
        obtain ⟨c1, cur1⟩ := x
        obtain ⟨e1, e2⟩ := h3 c1 cur1 hsc
        rw [e1, e2]
    · exact ⟨0, by simp [hs], hcur, by simp [hs]⟩
  obtain ⟨m, hm1, hm2, hm3⟩ := hws
  unfold parse_value_cont
  simp only [skip_whitespace_not_eol_traced, skip_until_eol_or_comment_traced]
  have hlog : [cur] ++ List.range' (cur + 1) m = List.range' cur (m + 1) := range_cons _ _ _ rfl
  rw [hm1, hlog, hm3]
  simp only
  split_ifs with hA hB
  · exact hP _ ⟨m + 1, rfl, by omega, by omega, by intro o c h; simp at h,
      by intro out h; simp only [Step.stop.injEq] at h;
         exact ⟨1, _, _, h.symm, by omega, Or.inr rfl⟩⟩
  · -- quoted value
    have hne : rd data (cur + m) ≠ 0 := by rw [hB]; decide
    have hlt := lt_strlen_of_rd_ne_zero data (cur + m) hm2 hne
    obtain ⟨k, hk1, hk2, hk3, hk4⟩ :=
      scan_quoted_traced_spec data (data.length + 1) (rd data (cur + m)) (cur + m + 1)
        (by omega) (by omega)
    rw [hk1, range_cat cur (m + 1) (cur + m + 1) k (by omega)]
    split
    · rename_i hq
      rw [scan_quoted_traced_fst] at hq
      exact absurd hq (scan_quoted_some data _ _)
    · rename_i cur2 hq
      rw [scan_quoted_traced_fst] at hq
      obtain ⟨e3, -⟩ := hk4 _ _ hq
      exact hP _ ⟨m + 1 + k, rfl, by omega, by omega, by intro o c h; simp at h,
        by intro out h; simp only [Step.stop.injEq] at h;
           exact ⟨1, _, _, h.symm, by omega, Or.inr rfl⟩⟩
    · rename_i cur2 ve hq
      rw [scan_quoted_traced_fst] at hq
      obtain ⟨e3, e4⟩ := hk4 _ _ hq
      have e5 := e4 (by simp)
      obtain ⟨d1, d2⟩ := dispatch_leaf opts _ cur2
        (materialise_value_cont_spec mem data id_tmp (cur + m + 1) ve opts cur2)
        (fun c => cur ≤ c ∧ c ≤ strlen data ∧ (cur + (m + 1 + k) = strlen data + 1 →
          c = strlen data)) ⟨by omega, by omega, by omega⟩
      refine hP _ ⟨m + 1 + k, rfl, by omega, by omega, d1, ?_⟩
      intro out h
      obtain ⟨r, e, c, h1, h2, h3⟩ := d2 out h
      exact ⟨r, e, c, h1, h2.1, h3⟩
  · -- unquoted value
    obtain ⟨k, hk1, hk2, hk3⟩ := scan_while_traced_spec (fun c => c != 0 && !iseol c && c != 35)
      (by intro c hc; rintro rfl; simp at hc) data (data.length + 1) (cur + m) hm2
    rw [hk1, range_cat cur (m + 1) (cur + m + 1) k (by omega)]
    split
    · rename_i hu
      rw [scan_while_traced_fst] at hu
      exact absurd hu (scan_while_some _ (by simp) data _)
    · rename_i c2 cur2 hu
      rw [scan_while_traced_fst] at hu
      obtain ⟨e3, e4⟩ := hk3 _ _ hu
      subst e3 e4
      split_ifs with hD
      · obtain ⟨d1, d2⟩ := dispatch_leaf opts _ (cur + m + k + 1 - 1)
          (materialise_value_cont_spec mem data id_tmp (cur + m + 1 - 1)
            (cur + m + k + 1 - 1 - 1) opts (cur + m + k + 1 - 1))
          (fun c => cur ≤ c ∧ c ≤ strlen data ∧ (cur + (m + 1 + k) = strlen data + 1 →
            c = strlen data)) ⟨by omega, by omega, by omega⟩
        refine hP _ ⟨m + 1 + k, rfl, by omega, by omega, d1, ?_⟩
        intro out h
        obtain ⟨r, e, c, h1, h2, h3⟩ := d2 out h
        exact ⟨r, e, c, h1, h2.1, h3⟩
      · have hne : rd data (cur + m + k) ≠ 0 := fun e => hD (Or.inl e)
        have hlt := lt_strlen_of_rd_ne_zero data (cur + m + k) hk2 hne
        obtain ⟨d1, d2⟩ := dispatch_leaf opts _ (cur + m + k + 1)
          (materialise_value_cont_spec mem data id_tmp (cur + m + 1 - 1)
            (cur + m + k + 1 - 1) opts (cur + m + k + 1))
          (fun c => cur ≤ c ∧ c ≤ strlen data ∧ (cur + (m + 1 + k) = strlen data + 1 →
            c = strlen data)) ⟨by omega, by omega, by omega⟩
        refine hP _ ⟨m + 1 + k, rfl, by omega, by omega, d1, ?_⟩
        intro out h
        obtain ⟨r, e, c, h1, h2, h3⟩ := d2 out h
        exact ⟨r, e, c, h1, h2.1, h3⟩

/-- A pass that goes on after the store, entered with the cursor not beyond
the first NUL: it reads the `n ≥ 1` indices from the cursor on, none beyond
the first NUL; it never runs out of fuel; it hands over to the next pass with
the cursor further on and not beyond the first NUL (on the first NUL when the
NUL was read), or returns 0 or 1 with the record as it was. -/
theorem line_cont_spec (mem : Nat → List Nat) (data : List Nat) (opts : options_t) (cur : Nat)
    (hcur : cur ≤ strlen data) :
    ∃ n, (line_cont mem data opts cur).2 = List.range' cur n ∧ 1 ≤ n
      ∧ cur + n ≤ strlen data + 1
      ∧ (∀ o c, (line_cont mem data opts cur).1 = .next o c →
          cur < c ∧ c ≤ strlen data ∧ (cur + n = strlen data + 1 → c = strlen data))
      ∧ ∀ out, (line_cont mem data opts cur).1 = .stop out →
          ∃ r e c, out = .ret r e opts c ∧ cur < c ∧ (r = 0 ∨ r = 1) := by
  suffices H : ∀ P : Step × List Nat → Prop,
      (∀ r : Step × List Nat, (∃ n, r.2 = List.range' cur n ∧ 1 ≤ n
        ∧ cur + n ≤ strlen data + 1
        ∧ (∀ o c, r.1 = .next o c →
            cur < c ∧ c ≤ strlen data ∧ (cur + n = strlen data + 1 → c = strlen data))
        ∧ ∀ out, r.1 = .stop out →
            ∃ r e c, out = .ret r e opts c ∧ cur < c ∧ (r = 0 ∨ r = 1)) → P r) →
      P (line_cont mem data opts cur) from H _ (fun _ h => h)
  intro P hP
  have stop0 : ∀ (n c : Nat) (l : List Nat), l = List.range' cur n → 1 ≤ n →
      cur + n ≤ strlen data + 1 → cur < c → P (.stop (.ret 0 none opts c), l) := by
    intro n c l hl h1 h2 h3
    exact hP _ ⟨n, hl, h1, h2, by intro o c h; simp at h,
      by intro out h; simp only [Step.stop.injEq] at h;
         exact ⟨0, _, _, h.symm, h3, Or.inl rfl⟩⟩
  have stop1 : ∀ (n c : Nat) (e : Errno) (l : List Nat), l = List.range' cur n → 1 ≤ n →
      cur + n ≤ strlen data + 1 → cur < c → P (.stop (.ret 1 (some e) opts c), l) := by
    intro n c e l hl h1 h2 h3
    exact hP _ ⟨n, hl, h1, h2, by intro o c h; simp at h,
      by intro out h; simp only [Step.stop.injEq] at h;
         exact ⟨1, _, _, h.symm, h3, Or.inr rfl⟩⟩
  have value : ∀ (k : Nat) (id_tmp : List Nat), 1 ≤ k → cur + k ≤ strlen data →
      P ((parse_value_cont mem data id_tmp opts (cur + k)).1,
        List.range' cur k ++ (parse_value_cont mem data id_tmp opts (cur + k)).2) := by
    intro k id_tmp hk1 hk2
    obtain ⟨n, hn1, hn2, hn3, hn4, hn5⟩ := parse_value_cont_spec mem data id_tmp opts (cur + k) hk2
    refine hP _ ⟨k + n, ?_, by omega, by omega, ?_, ?_⟩
    · simp only [hn1]
      exact range_cat _ _ _ _ rfl
    · intro o c h
      obtain ⟨a, b, d⟩ := hn4 o c h
      exact ⟨by omega, b, fun e => d (by omega)⟩
    · intro out h
      obtain ⟨r, e, c, a, b, d⟩ := hn5 out h
      exact ⟨r, e, c, a, by omega, d⟩
  unfold line_cont
  simp only [skip_whitespace_not_eol_traced, skip_whitespace_traced, skip_until_eol_traced,
    skip_identifier_traced]
  split
  · exact stop0 1 _ _ rfl (le_refl _) (by omega) (by omega)
  · rename_i h0
    obtain ⟨m, hm1, hm2, hm3⟩ := scan_while_traced_spec isspace
      (by intro c hc; rintro rfl; simp [isspace] at hc) data (data.length + 1) cur hcur
    have hlog : [cur] ++ List.range' (cur + 1) m = List.range' cur (m + 1) := range_cons _ _ _ rfl
    rw [hm1, hlog]
    split
    · rename_i hw
      rw [scan_while_traced_fst] at hw
      exact absurd hw (scan_while_some _ (by simp [isspace]) data _)
    · rename_i c1 cur1 hw
      rw [scan_while_traced_fst] at hw
      obtain ⟨e1, e2⟩ := hm3 _ _ hw
      subst e1 e2
      split_ifs with hA hB hC
      · exact stop0 (m + 1) _ _ rfl (by omega) (by omega) (by omega)
      · -- comment
        have hlt := lt_strlen_of_rd_ne_zero data (cur + m) hm2 hA
        obtain ⟨k, hk1, hk2, hk3⟩ := scan_while_traced_spec (fun c => c != 0 && !iseol c)
          (by intro c hc; rintro rfl; simp at hc) data (data.length + 1) (cur + m + 1) hlt
        rw [hk1, range_snoc cur (m + 1) (cur + m + 1) (by omega),
          range_cat cur (m + 1 + 1) (cur + m + 1 + 1) k (by omega)]
        split
        · rename_i hu
          rw [scan_while_traced_fst] at hu
          exact absurd hu (scan_while_some _ (by simp) data _)
        · rename_i c2 cur2 hu
          rw [scan_while_traced_fst] at hu
          obtain ⟨e3, e4⟩ := hk3 _ _ hu
          subst e3 e4
          split_ifs with hD
          · exact stop0 (m + 1 + 1 + k) _ _ rfl (by omega) (by omega) (by omega)
          · have := lt_strlen_of_rd_ne_zero data (cur + m + 1 + k) hk2 hD
            refine hP _ ⟨m + 1 + 1 + k, rfl, by omega, by omega, ?_,
              by intro out h; simp at h⟩
            intro o c h
            simp only [Step.next.injEq] at h
            exact ⟨by omega, by omega, by omega⟩
      · exact stop1 (m + 1) _ _ _ rfl (by omega) (by omega) (by omega)
      · -- identifier
        have hlt := lt_strlen_of_rd_ne_zero data (cur + m) hm2 hA
        obtain ⟨k, hk1, hk2, hk3⟩ := scan_while_traced_spec isvalididentifier
          (by intro c hc; rintro rfl; simp [isvalididentifier, isalnum, isalpha, isupper,
            islower, isdigit] at hc) data (data.length + 1) (cur + m + 1) hlt
        rw [hk1, range_snoc cur (m + 1) (cur + m + 1) (by omega),
          range_cat cur (m + 1 + 1) (cur + m + 1 + 1) k (by omega)]
        split
        · rename_i hi
          rw [scan_while_traced_fst] at hi
          exact absurd hi (scan_while_some _ (by simp [isvalididentifier, isalnum, isalpha,
            isupper, islower, isdigit]) data _)
        · rename_i c2 cur2 hi
          rw [scan_while_traced_fst] at hi
          obtain ⟨e3, e4⟩ := hk3 _ _ hi
          subst e3 e4
          split_ifs with hE hG
          · exact stop1 (m + 1 + 1 + k) _ _ _ rfl (by omega) (by omega) (by omega)
          · -- whitespace before the `=`
            obtain ⟨j, hj1, hj2, hj3⟩ := scan_while_traced_spec
              (fun c => isspace c && !iseol c)
              (by intro c hc; rintro rfl; simp [isspace] at hc) data (data.length + 1)
              (cur + m + 1 + k) hk2
            rw [hj1, range_cat cur (m + 1 + 1 + k) (cur + m + 1 + k + 1) j (by omega)]
            split
            · rename_i hs
              rw [scan_while_traced_fst] at hs
              exact absurd hs (scan_while_some _ (by simp [isspace]) data _)
            · rename_i c3 cur3 hs
              rw [scan_while_traced_fst] at hs
              obtain ⟨e5, e6⟩ := hj3 _ _ hs
              subst e5 e6
              split_ifs with hH
              · exact stop1 (m + 1 + 1 + k + j) _ _ _ rfl (by omega) (by omega) (by omega)
              · have hne3 : rd data (cur + m + 1 + k + j) ≠ 0 := by
                  have : rd data (cur + m + 1 + k + j) = 61 := not_not.1 hH
                  rw [this]; decide
                have hlt3 := lt_strlen_of_rd_ne_zero data _ hj2 hne3
                have e : cur + m + 1 + k + j + 1 = cur + (m + 1 + 1 + k + j) := by omega
                rw [e]
                exact value _ _ (by omega) (by omega)
          · -- `=` right after the identifier
            have h61 : rd data (cur + m + 1 + k) = 61 := not_not.1 hG
            have hne : rd data (cur + m + 1 + k) ≠ 0 := by rw [h61]; decide
            have hlt2 := lt_strlen_of_rd_ne_zero data _ hk2 hne
            have e : cur + m + 1 + k + 1 = cur + (m + 1 + 1 + k) := by omega
            rw [e]
            exact value _ _ (by omega) (by omega)

theorem line_cont_at_nul (mem : Nat → List Nat) (data : List Nat) (opts : options_t) (cur : Nat)
    (h : rd data cur = 0) :
    line_cont mem data opts cur = (.stop (.ret 0 none opts (cur + 1)), [cur]) := by
  unfold line_cont
  simp [h]

/-- The loop that goes on after the store, entered with the cursor not beyond
the first NUL and fuel for the bytes up to it: it returns 0 or 1, and it reads
indices before the first NUL, then the index of the first NUL at most
twice. -/
theorem parse_loop_cont_spec (mem : Nat → List Nat) (data : List Nat) :
    ∀ fuel opts cur, cur ≤ strlen data → strlen data + 1 ≤ fuel + cur →
      (∃ l k, (parse_loop_cont mem data fuel opts cur).2 = l ++ List.replicate k (strlen data)
        ∧ k ≤ 2 ∧ (∀ i ∈ l, i < strlen data) ∧ (cur = strlen data → l = [] ∧ k ≤ 1))
      ∧ ∃ r e o c, (parse_loop_cont mem data fuel opts cur).1 = .ret r e o c
          ∧ (r = 0 ∨ r = 1) := by
  intro fuel
  induction fuel with
  | zero => intro opts cur h1 h2; omega
  | succ fuel ih =>
    intro opts cur hcur hfuel
    rw [parse_loop_cont]
    by_cases hz : cur = strlen data
    · have h0 : rd data cur = 0 := by rw [hz]; exact rd_strlen data
      rw [line_cont_at_nul mem data opts cur h0]
      exact ⟨⟨[], 1, by simp [hz], by omega, by simp, fun _ => ⟨rfl, by omega⟩⟩,
        0, none, opts, cur + 1, rfl, Or.inl rfl⟩
    · obtain ⟨n, hn1, hn2, hn3, hn4, hn5⟩ := line_cont_spec mem data opts cur hcur
      have hmem : ∀ j, cur + j ≤ strlen data → ∀ i ∈ List.range' cur j, i < strlen data := by
        intro j hj i hi
        rw [List.mem_range'_1] at hi
        omega
      have hsplit : cur + n = strlen data + 1 →
          List.range' cur n = List.range' cur (n - 1) ++ [strlen data] := by
        intro e
        rw [range_snoc cur (n - 1) (strlen data) (by omega)]
        congr 1
        omega
      cases h : (line_cont mem data opts cur).1 with
      | next o c =>
        obtain ⟨hc0, hc1, hc2⟩ := hn4 o c h
        obtain ⟨⟨l, k, hl1, hl2, hl3, hl4⟩, hret⟩ := ih o c hc1 (by omega)
        simp only [hn1, hl1]
        refine ⟨?_, hret⟩
        by_cases he : cur + n = strlen data + 1
        · obtain ⟨e1, e2⟩ := hl4 (hc2 he)
          subst e1
          refine ⟨List.range' cur (n - 1), k + 1, ?_, by omega, hmem _ (by omega),
            fun e => absurd e hz⟩
          rw [hsplit he, List.replicate_succ]
          simp
        · refine ⟨List.range' cur n ++ l, k, by simp, hl2, ?_, fun e => absurd e hz⟩
          intro i hi
          rcases List.mem_append.1 hi with hi | hi
          · exact hmem n (by omega) i hi
          · exact hl3 i hi
      | stop out =>
        obtain ⟨r, e, c, h1, -, h3⟩ := hn5 out h
        simp only [hn1]
        refine ⟨?_, r, e, opts, c, h1, h3⟩
        by_cases he : cur + n = strlen data + 1
        · refine ⟨List.range' cur (n - 1), 1, ?_, by omega, hmem _ (by omega),
            fun e => absurd e hz⟩
          rw [hsplit he]
          rfl
        · exact ⟨List.range' cur n, 0, by simp, by omega, hmem n (by omega),
            fun e => absurd e hz⟩

/-- A call that goes on after the store returns 0 or 1 and reads indices before
the first NUL, then the index of the first NUL at most twice. -/
theorem parse_config_file_cont_spec (mem : Nat → List Nat) (data : List Nat)
    (opts : options_t) :
    (∃ l k, (parse_config_file_cont mem data opts).2 = l ++ List.replicate k (strlen data)
        ∧ k ≤ 2 ∧ ∀ i ∈ l, i < strlen data)
      ∧ ∃ r e o c, (parse_config_file_cont mem data opts).1 = .ret r e o c
          ∧ (r = 0 ∨ r = 1) := by
  obtain ⟨⟨l, k, h1, h2, h3, -⟩, hret⟩ :=
    parse_loop_cont_spec mem data (data.length + 1) opts 0 (Nat.zero_le _)
      (by have := strlen_le_length data; omega)
  exact ⟨⟨l, k, h1, h2, h3⟩, hret⟩

/-! ### Where no store falls outside a buffer, going on changes nothing -/

theorem token_cont_of_pos (found data : List Nat) (tok_start : Nat) (len : Int)
    (h : ¬ len < 1) : token_cont found data tok_start len = token data tok_start len.toNat := by
  unfold token_cont
  rw [if_neg h]

theorem materialise_value_cont_eq (mem : Nat → List Nat) (data id_tmp : List Nat)
    (val_start val_end : Nat) (opts : options_t) (cur : Nat) :
    materialise_value_cont mem data id_tmp val_start val_end opts cur
        = materialise_value data id_tmp val_start val_end opts cur
      ∨ materialise_value data id_tmp val_start val_end opts cur = .stop (.fault opts cur) := by
  unfold materialise_value_cont materialise_value
  simp only
  by_cases h : token_len val_start val_end < 1
  · right
    rw [if_pos h]
  · left
    rw [if_neg h, token_cont_of_pos _ _ _ _ h]

theorem parse_value_cont_eq (mem : Nat → List Nat) (data id_tmp : List Nat)
    (opts : options_t) (cur : Nat) :
    parse_value_cont mem data id_tmp opts cur = parse_value_traced data id_tmp opts cur
      ∨ ∃ o c, (parse_value_traced data id_tmp opts cur).1 = .stop (.fault o c) := by
  have leaf : ∀ (vs ve c : Nat) (l : List Nat),
      (materialise_value_cont mem data id_tmp vs ve opts c, l)
          = (materialise_value data id_tmp vs ve opts c, l)
        ∨ ∃ o c1, (materialise_value data id_tmp vs ve opts c, l).1 = .stop (.fault o c1) := by
    intro vs ve c l
    rcases materialise_value_cont_eq mem data id_tmp vs ve opts c with h | h
    · exact Or.inl (by rw [h])
    · exact Or.inr ⟨opts, c, h⟩
  unfold parse_value_cont parse_value_traced
  simp only
  repeat' first | exact Or.inl rfl | exact leaf _ _ _ _ | split

theorem line_cont_eq (mem : Nat → List Nat) (data : List Nat) (opts : options_t) (cur : Nat) :
    line_cont mem data opts cur = line_traced data opts cur
      ∨ ∃ o c, (line_traced data opts cur).1 = .stop (.fault o c) := by
  suffices H : ∀ P : Step × List Nat → Step × List Nat → Prop,
      (∀ x y : Step × List Nat, (x = y ∨ ∃ o c, y.1 = .stop (.fault o c)) → P x y) →
      P (line_cont mem data opts cur) (line_traced data opts cur) from H _ (fun _ _ h => h)
  intro P hP
  have leaf : ∀ (id_tmp : List Nat) (c : Nat) (l : List Nat),
      P ((parse_value_cont mem data id_tmp opts c).1,
          l ++ (parse_value_cont mem data id_tmp opts c).2)
        ((parse_value_traced data id_tmp opts c).1,
          l ++ (parse_value_traced data id_tmp opts c).2) := by
    intro id_tmp c l
    rcases parse_value_cont_eq mem data id_tmp opts c with h | h
    · exact hP _ _ (Or.inl (by rw [h]))
    · exact hP _ _ (Or.inr h)
  unfold line_cont line_traced
  simp only
  repeat' first
    | with_reducible exact hP _ _ (Or.inl rfl)
    | with_reducible exact hP _ _ (Or.inr ⟨_, _, rfl⟩)
    | with_reducible exact leaf _ _ _
    | rw [token_cont_of_pos _ _ _ _ (by assumption)]
    | split

theorem parse_loop_cont_eq (mem : Nat → List Nat) (data : List Nat) :
    ∀ fuel opts cur,
      parse_loop_cont mem data fuel opts cur = parse_loop_traced data fuel opts cur
        ∨ ∃ o c, (parse_loop_traced data fuel opts cur).1 = .fault o c := by
  intro fuel
  induction fuel with
  | zero => intro opts cur; exact Or.inl rfl
  | succ fuel ih =>
    intro opts cur
    rw [parse_loop_cont, parse_loop_traced]
    rcases line_cont_eq mem data opts cur with h | ⟨o, c, h⟩
    · rw [h]
      cases hl : (line_traced data opts cur).1 with
      | next o c =>
        simp only
        rcases ih o c with h1 | ⟨o1, c1, h1⟩
        · exact Or.inl (by rw [h1])
        · exact Or.inr ⟨o1, c1, h1⟩
      | stop out => exact Or.inl rfl
    · right
      rw [h]
      exact ⟨o, c, rfl⟩

/-- On a buffer on which `parse_config_file` returns, the call that goes on
after the store is the same call: the same result and the same reads. -/
theorem parse_config_file_cont_eq (mem : Nat → List Nat) (data : List Nat) (opts o : options_t)
    (r : Int) (e : Option Errno) (c : Nat) (h : parse_config_file data opts = .ret r e o c) :
    parse_config_file_cont mem data opts = parse_config_file_traced data opts := by
  rcases parse_loop_cont_eq mem data (data.length + 1) opts 0 with h1 | ⟨o1, c1, h1⟩
  · exact h1
  · have h2 := parse_config_file_traced_fst data opts
    unfold parse_config_file_traced at h2
    rw [h1, h] at h2
    simp at h2

/-- The two buffers with a value token of length 0, followed through the
store: on `syslog_ident=#x` the pass ends with the cursor on the `#` at index
13, the next pass reads 13, 14 and 15, and the call returns 0; on `k=#` the
call returns 1 with `ENOTSUP`. -/
theorem runs_after_store (mem : Nat → List Nat) (opts : options_t) :
    (parse_config_file_cont mem (bytes "syslog_ident=#x") opts).2
        = [0, 1, 2, 3, 4, 5, 6, 7, 8, 9, 10, 11, 12, 13, 13, 14, 15]
      ∧ (∃ o, (parse_config_file_cont mem (bytes "syslog_ident=#x") opts).1 = .ret 0 none o 16)
      ∧ parse_config_file_cont mem (bytes "k=#") opts
          = (.ret 1 (some .ENOTSUP) opts 2, [0, 1, 2]) :=
  ⟨rfl, ⟨_, rfl⟩, rfl⟩

/-- C18: termination.  `mem` is what a token buffer of length 0 is found to
hold, so that the run is followed through the store of line 506 as well.  On
every buffer, from every record and for every `mem`: the call returns a
status, 0 or 1; a pass of the line loop entered with the cursor not beyond the
first NUL hands over to the next pass with the cursor at least one byte
further on and still not beyond the first NUL, the step back `cur--` and the
pass with a value token of length 0 included, or it returns with the cursor
further on.  Where `parse_config_file` returns, the call that goes on after
the store returns the same; `parse_config_file` and its passes never run out
of fuel and its passes move the cursor on as well. -/
theorem parse_terminates (mem : Nat → List Nat) (data : List Nat) (opts : options_t) :
    (∃ r e o c, (parse_config_file_cont mem data opts).1 = .ret r e o c ∧ (r = 0 ∨ r = 1))
      ∧ (∀ cur, cur ≤ strlen data →
          (∃ o c, (line_cont mem data opts cur).1 = .next o c ∧ cur < c ∧ c ≤ strlen data)
            ∨ ∃ r e c, (line_cont mem data opts cur).1 = .stop (.ret r e opts c) ∧ cur < c)
      ∧ (∀ r e o c, parse_config_file data opts = .ret r e o c →
          (parse_config_file_cont mem data opts).1 = .ret r e o c)
      ∧ parse_config_file data opts ≠ .timeout
      ∧ (∀ cur o c, line data opts cur = .next o c → cur < c ∧ c ≤ data.length)
      ∧ (∀ cur r e o c, line data opts cur = .stop (.ret r e o c) → cur < c)
      ∧ (∀ cur, line data opts cur ≠ .stop .timeout) := by
  refine ⟨(parse_config_file_cont_spec mem data opts).2, ?_, ?_,
    parse_loop_ne_timeout data _ opts 0 (by omega) (by omega), ?_, ?_, ?_⟩
  · intro cur hcur
    obtain ⟨n, -, -, -, hn4, hn5⟩ := line_cont_spec mem data opts cur hcur
    cases h : (line_cont mem data opts cur).1 with
    | next o c =>
      obtain ⟨a, b, -⟩ := hn4 o c h
      exact Or.inl ⟨o, c, rfl, a, b⟩
    | stop out =>
      obtain ⟨r, e, c, a, b, -⟩ := hn5 out h
      exact Or.inr ⟨r, e, c, by rw [a], b⟩
  · intro r e o c h
    rw [parse_config_file_cont_eq mem data opts o r e c h, parse_config_file_traced_fst, h]
  · intro cur o c h
    obtain ⟨h1, h2, -⟩ := line_next data opts o cur c h
    exact ⟨h1, h2⟩
  · intro cur r e o c h
    rcases line_stop data opts cur _ h with ⟨r1, e1, c1, h1, h2⟩ | ⟨c1, h1⟩
    · simp only [Outcome.ret.injEq] at h1
      omega
    · simp at h1
  · intro cur
    exact line_ne_timeout data opts cur

/-- C21, amended: the reads `*cur++` of a call, on every buffer and from
every record, followed through the store of line 506 as well (`mem` is what a
token buffer of length 0 is found to hold).  `strlen data` is the index of the
first NUL; every read is at an index no greater than that of the first NUL;
what follows a read of the NUL is nothing, or one more read of the NUL itself.
Where `parse_config_file` returns, the call that goes on after the store is
the traced call, whose result is that of `parse_config_file`; and the reads of
a call that stops at the store are bounded in the same way. -/
theorem no_read_past_terminator (mem : Nat → List Nat) (data : List Nat) (opts : options_t) :
    rd data (strlen data) = 0
      ∧ (∀ i, i < strlen data → rd data i ≠ 0)
      ∧ (∀ i ∈ (parse_config_file_cont mem data opts).2, i ≤ strlen data)
      ∧ (∀ l1 l2, (parse_config_file_cont mem data opts).2 = l1 ++ strlen data :: l2 →
          l2 = [] ∨ l2 = [strlen data])
      ∧ (∀ r e o c, parse_config_file data opts = .ret r e o c →
          parse_config_file_cont mem data opts = parse_config_file_traced data opts)
      ∧ (parse_config_file_traced data opts).1 = parse_config_file data opts
      ∧ (∀ i ∈ (parse_config_file_traced data opts).2, i ≤ strlen data)
      ∧ ∀ l1 l2, (parse_config_file_traced data opts).2 = l1 ++ strlen data :: l2 →
          l2 = [] ∨ l2 = [strlen data] := by
  obtain ⟨⟨l, k, h1, h2, h3⟩, -⟩ := parse_config_file_cont_spec mem data opts
  obtain ⟨l', k', h1', h2', h3'⟩ := parse_config_file_traced_spec data opts
  refine ⟨rd_strlen data, rd_ne_zero_of_lt_strlen data, ?_, ?_, ?_,
    parse_config_file_traced_fst data opts, ?_, ?_⟩
  · intro i hi
    rw [h1] at hi
    rcases List.mem_append.1 hi with hi | hi
    · exact Nat.le_of_lt (h3 i hi)
    · exact Nat.le_of_eq (List.mem_replicate.1 hi).2
  · intro l1 l2 h
    rw [h1] at h
    exact after_terminator _ l k h2 h3 l1 l2 h
  · intro r e o c h
    exact parse_config_file_cont_eq mem data opts o r e c h
  · intro i hi
    rw [h1'] at hi
    rcases List.mem_append.1 hi with hi | hi
    · exact Nat.le_of_lt (h3' i hi)
    · exact Nat.le_of_eq (List.mem_replicate.1 hi).2
  · intro l1 l2 h
    rw [h1'] at h
    exact after_terminator _ l' k' h2' h3' l1 l2 h

end Daemon
